import Mathlib

/-!
# Mesh adaptation of samurai (`include/samurai/algorithm/update.hpp`)

A shallow embedding of `samurai::update_field` and `samurai::detail::update_fields`
together with the properties of the adaptation step that the specification states.

Conventions of the embedding.

* A cell is `(level, i, index)`: `i` is the index along the primary axis and `index`
  the secondary multi-index (`dim - 1` components), as in the callbacks of
  `for_each_interval`.
* Indices are mathematical integers (`Int`): the source uses `int`, whose overflow is
  undefined behaviour, so the embedding covers the runs without overflow.
  `>> 1` on a signed index is the arithmetic shift `Int.shiftRight`.
* A `LevelCellArray` stores a finite set of cells as sorted, maximally coalesced
  intervals. That storage is a canonical form of the set, so a cell array (and the
  cell list `cl` it is built from) is identified with the `Finset` of its cells;
  interval identity is then equality of finsets.
* A field is addressed by cell identity: `tag[itag]` with
  `itag = interval.start + interval.index + (i - interval.start)` is the value stored
  for the cell `(level, i, index)`. The length of the value buffer is kept next to
  the values.
* The classes and functions that the sources use without containing them (the mesh
  class, the set algebra, the numerical operators, `graduation.hpp`) are parameters or
  definitions marked `Modelled from the spec:`.
-/

namespace samurai

/-! ## Data model -/

/-- Modelled from the spec: the `CellFlag` bit of a tag asking to keep a cell (the
enumeration is declared outside the sources; a tag is a bitmask combined by bitwise OR). -/
def CellFlag.keep : Nat := 1

/-- Modelled from the spec: the `CellFlag` bit of a tag asking to coarsen a cell. -/
def CellFlag.coarsen : Nat := 2

/-- Modelled from the spec: the `CellFlag` bit of a tag asking to refine a cell. -/
def CellFlag.refine : Nat := 4

/-- A cell `(level, i, index)` of a mesh of dimension `dim`. -/
structure Cell (dim : Nat) where
  level : Nat
  i : Int
  index : Fin (dim - 1) → Int

instance {dim : Nat} : DecidableEq (Cell dim) := fun a b =>
  decidable_of_iff (a.level = b.level ∧ a.i = b.i ∧ a.index = b.index)
    (by cases a; cases b; simp)

/-- A cell array (one role of a mesh, all levels together) or a cell list, seen as the
finite set of its cells. -/
abbrev CellArray (dim : Nat) := Finset (Cell dim)

/-- The cells put in a cell list by `cl[level][index].add_interval({a, b})`. -/
def add_interval {dim : Nat} (level : Nat) (index : Fin (dim - 1) → Int) (a b : Int) :
    CellArray dim :=
  (Finset.Ico a b).image fun i => ⟨level, i, index⟩

/-- The cell put in a cell list by `cl[level][index].add_point(i)`. -/
def add_point {dim : Nat} (level : Nat) (index : Fin (dim - 1) → Int) (i : Int) :
    CellArray dim :=
  add_interval level index i (i + 1)

/-- The multi-indices visited by `static_nested_loop<n, 0, 2>`: every `stencil` whose
`n` components are `0` or `1`. -/
def stencils (n : Nat) : Finset (Fin n → Int) :=
  Fintype.piFinset fun _ => {0, 1}

/-- The value of `index >> 1` on a secondary multi-index (componentwise). -/
def shift_index {n : Nat} (index : Fin n → Int) : Fin n → Int :=
  fun k => index k >>> (1 : Nat)

/-- The part of a mesh that `update_field` reads and rebuilds: the level bounds and
the `cells` role (the leaves). The other roles are computed from these by the mesh
constructor, see `MeshModel`. -/
structure Mesh (dim : Nat) where
  min_level : Nat
  max_level : Nat
  cells : CellArray dim

instance {dim : Nat} : DecidableEq (Mesh dim) := fun a b =>
  decidable_of_iff (a.min_level = b.min_level ∧ a.max_level = b.max_level ∧ a.cells = b.cells)
    (by cases a; cases b; simp)

/-! ## The tag loop of `update_field` -/

/-- The body of the loop over the cells of a leaf interval in `update_field`: the cells
added to `cl` for the leaf `c` whose tag is `t`. -/
def leaf_cells {dim : Nat} (min_level max_level : Nat) (t : Nat) (c : Cell dim) :
    CellArray dim :=
  if t &&& CellFlag.refine ≠ 0 then
    if c.level < max_level then
      (stencils (dim - 1)).biUnion fun stencil =>
        add_interval (c.level + 1) (2 * c.index + stencil) (2 * c.i) (2 * c.i + 2)
    else
      add_point c.level c.index c.i
  else if t &&& CellFlag.keep ≠ 0 then
    add_point c.level c.index c.i
  else if t &&& CellFlag.coarsen ≠ 0 then
    if c.level > min_level then
      add_point (c.level - 1) (shift_index c.index) (c.i >>> (1 : Nat))
    else
      add_point c.level c.index c.i
  else
    ∅

/-- The cell list `cl` at the end of `for_each_interval(mesh[mesh_id_t::cells], ...)`:
the loop visits every leaf once and the cell list accumulates what each leaf adds. -/
def candidate_cells {dim : Nat} (mesh : Mesh dim) (tag : Cell dim → Nat) : CellArray dim :=
  mesh.cells.biUnion fun c => leaf_cells mesh.min_level mesh.max_level (tag c) c

/-- The candidate mesh `mesh_t new_mesh = {cl, mesh}`: the cells of `cl` with the level
bounds of the current mesh. -/
def candidate_mesh {dim : Nat} (mesh : Mesh dim) (tag : Cell dim → Nat) : Mesh dim :=
  { min_level := mesh.min_level, max_level := mesh.max_level, cells := candidate_cells mesh tag }

/-- The children of a cell by index doubling: the cells of level `level + 1` whose
primary index is `2 i` or `2 i + 1` and whose secondary index is `2 index + s` with
every component of `s` in `{0, 1}`. -/
def Cell.children {dim : Nat} (c : Cell dim) : CellArray dim :=
  (stencils (dim - 1)).biUnion fun s =>
    ({2 * c.i, 2 * c.i + 1} : Finset Int).image fun i => ⟨c.level + 1, i, 2 * c.index + s⟩

/-- The parent of a cell: one level up, every index component halved, rounding down. -/
def Cell.parent {dim : Nat} (c : Cell dim) : Cell dim :=
  ⟨c.level - 1, c.i / 2, fun k => c.index k / 2⟩

/-! ## Mesh roles, fields and the transfer of fields -/

/-- Modelled from the spec: the parts of the mesh class that the adaptation step uses
and that are declared outside the sources. The mesh constructor computes every other
role from the `cells` role and the configuration copied from the current mesh:
`ghosts` are the cells of the `reference` role that are not leaves, `other_roles` the
remaining roles (`proj_cells`, `pred_cells`, ...), and `nb_cells` the number of cells
that sizes the value buffer of a field bound to the mesh. -/
structure MeshModel (dim : Nat) where
  ghosts : Mesh dim → CellArray dim
  other_roles : Mesh dim → List (CellArray dim)
  nb_cells : Mesh dim → Nat

/-- The `reference` role: the leaves and the ghosts. -/
def MeshModel.reference {dim : Nat} (M : MeshModel dim) (mesh : Mesh dim) : CellArray dim :=
  mesh.cells ∪ M.ghosts mesh

/-- Modelled from the spec: `mesh1 == mesh2` compares every role at every level. -/
def MeshModel.mesh_eq {dim : Nat} (M : MeshModel dim) (m1 m2 : Mesh dim) : Bool :=
  decide (m1.cells = m2.cells ∧ M.reference m1 = M.reference m2 ∧
    M.other_roles m1 = M.other_roles m2)

/-- The cells of one level of a role: `mesh[role][level]`. -/
def at_level {dim : Nat} (ca : CellArray dim) (level : Nat) : CellArray dim :=
  ca.filter fun x => x.level = level

/-- Modelled from the spec: a cell re-expressed one level coarser by `.on(level - 1)`,
every index shifted right by one bit. -/
def Cell.on_coarser {dim : Nat} (c : Cell dim) : Cell dim :=
  ⟨c.level - 1, c.i >>> (1 : Nat), shift_index c.index⟩

/-- Modelled from the spec: `intersection(fine, coarse).on(level - 1)` for a set `fine`
of cells of `level` and a set `coarse` of cells of `level - 1`: the cells of `coarse`
that contain a cell of `fine`. -/
def intersection_on_coarser {dim : Nat} (fine coarse : CellArray dim) : CellArray dim :=
  (fine.filter fun x => x.on_coarser ∈ coarse).image Cell.on_coarser

/-- A field bound to a mesh: its number of components, the length of its value buffer
and the value it stores for each cell. -/
structure Field (dim : Nat) (α : Type) where
  n_comp : Nat
  size : Nat
  data : Cell dim → α

/-- Modelled from the spec: the numerical operators applied by `apply_op`.
`projection src c` is the value given to the coarse cell `c` (the mean of the values of
its children in `src`), `prediction src x` the value given to the fine cell `x`
(interpolated from the coarse neighbours of its parent in `src`). A projection writes
the coarse cell it is applied on; a prediction applied on a coarse cell writes its
`2^dim` children. -/
structure Transfer (dim : Nat) (α : Type) where
  projection : (Cell dim → α) → Cell dim → α
  prediction : (Cell dim → α) → Cell dim → α

/-- The effect of `set.apply_op(op(dest, src))`: the cells of `S` receive the value `v`,
the other cells keep theirs. -/
def write {dim : Nat} {α : Type} (dest : Cell dim → α) (S : CellArray dim)
    (v : Cell dim → α) : Cell dim → α :=
  fun x => if x ∈ S then v x else dest x

/-- The levels visited by `for (level = a; level <= b; ++level)`. -/
def levels (a b : Nat) : List Nat :=
  List.range' a (b + 1 - a)

/-- The copy region of `detail::update_fields` at `level`:
`intersection(mesh[reference][level], new_mesh[cells][level])`. -/
def copy_set {dim : Nat} (M : MeshModel dim) (mesh new_mesh : Mesh dim) (level : Nat) :
    CellArray dim :=
  at_level (M.reference mesh) level ∩ at_level new_mesh.cells level

/-- The projection region of `detail::update_fields` at `level`:
`intersection(mesh[cells][level], new_mesh[cells][level - 1]).on(level - 1)`. -/
def set_coarsen {dim : Nat} (mesh new_mesh : Mesh dim) (level : Nat) : CellArray dim :=
  intersection_on_coarser (at_level mesh.cells level) (at_level new_mesh.cells (level - 1))

/-- The prediction region of `detail::update_fields` at `level`:
`intersection(new_mesh[cells][level], mesh[cells][level - 1]).on(level - 1)`. -/
def set_refine {dim : Nat} (mesh new_mesh : Mesh dim) (level : Nat) : CellArray dim :=
  intersection_on_coarser (at_level new_mesh.cells level) (at_level mesh.cells (level - 1))

/-- The values of `new_field` after the first loop of `detail::update_fields`
(the copies), starting from `new_field.fill(0)`. -/
def copy_pass {dim : Nat} {α : Type} [Zero α] (M : MeshModel dim) (mesh new_mesh : Mesh dim)
    (src : Cell dim → α) : Cell dim → α :=
  (levels mesh.min_level mesh.max_level).foldl
    (fun new_field level => write new_field (copy_set M mesh new_mesh level) src)
    (fun _ => 0)

/-- One turn of the second loop of `detail::update_fields`: the projection on
`set_coarsen`, then the prediction on `set_refine`, which writes the children. -/
def transfer_step {dim : Nat} {α : Type} (T : Transfer dim α) (mesh new_mesh : Mesh dim)
    (src : Cell dim → α) (new_field : Cell dim → α) (level : Nat) : Cell dim → α :=
  write (write new_field (set_coarsen mesh new_mesh level) (T.projection src))
    ((set_refine mesh new_mesh level).biUnion Cell.children) (T.prediction src)

/-- The function `detail::update_fields(new_mesh, field)`: a new field on `new_mesh`,
filled with `0`, receives the copies, then the projections and predictions level by
level; `std::swap(field.array(), new_field.array())` gives its buffer to `field`. -/
def update_fields {dim : Nat} {α : Type} [Zero α] (M : MeshModel dim) (T : Transfer dim α)
    (mesh new_mesh : Mesh dim) (field : Field dim α) : Field dim α :=
  { n_comp := field.n_comp
    size := M.nb_cells new_mesh * field.n_comp
    data := (levels (mesh.min_level + 1) mesh.max_level).foldl
      (transfer_step T mesh new_mesh field.data) (copy_pass M mesh new_mesh field.data) }

/-- What `update_field` reads and writes: the mesh shared by the tag and the fields,
the tag field and the fields passed to the call. -/
structure State (dim : Nat) (α : Type) where
  mesh : Mesh dim
  tag : Field dim Nat
  fields : List (Field dim α)

/-- The function `update_field(tag, fields...)` of the single-process build: the result
is the returned boolean and the state left behind. -/
def update_field {dim : Nat} {α : Type} [Zero α] (M : MeshModel dim) (T : Transfer dim α)
    (s : State dim α) : Bool × State dim α :=
  let new_mesh := candidate_mesh s.mesh s.tag.data
  if M.mesh_eq s.mesh new_mesh then
    (true, s)
  else
    (false,
      { mesh := new_mesh
        tag := s.tag
        fields := s.fields.map (update_fields M T s.mesh new_mesh) })

/-! ## Repeated adaptation under a fixed criterion -/

/-- One adaptation step under a fixed tagging criterion: the tag field is rebuilt on the
current mesh from the criterion, then `update_field` is called. -/
def adapt_step {dim : Nat} {α : Type} [Zero α] (M : MeshModel dim) (T : Transfer dim α)
    (criterion : Cell dim → Nat) (s : State dim α) : Bool × State dim α :=
  update_field M T
    { mesh := s.mesh
      tag := ⟨s.tag.n_comp, M.nb_cells s.mesh * s.tag.n_comp, criterion⟩
      fields := s.fields }

/-- The state after `n` adaptation steps. -/
def adapt_state {dim : Nat} {α : Type} [Zero α] (M : MeshModel dim) (T : Transfer dim α)
    (criterion : Cell dim → Nat) (s : State dim α) : Nat → State dim α
  | 0 => s
  | n + 1 => (adapt_step M T criterion (adapt_state M T criterion s n)).2

/-- The boolean returned by the call of `update_field` that follows `n` adaptation
steps. -/
def adapt_converged {dim : Nat} {α : Type} [Zero α] (M : MeshModel dim) (T : Transfer dim α)
    (criterion : Cell dim → Nat) (s : State dim α) (n : Nat) : Bool :=
  (adapt_step M T criterion (adapt_state M T criterion s n)).1

/-- A fixed criterion that asks to refine the cells of level `0` and to coarsen all the
other cells. -/
def refine_then_coarsen : Cell 1 → Nat :=
  fun c => if c.level = 0 then CellFlag.refine else CellFlag.coarsen

/-! ## Overlap of cells -/

/-- The ancestor of a cell `n` levels up. -/
def Cell.ancestor {dim : Nat} (c : Cell dim) : Nat → Cell dim
  | 0 => c
  | n + 1 => (c.ancestor n).parent

/-- The cell `a` contains the cell `b`: it is `b` or one of its ancestors. -/
def Cell.contains {dim : Nat} (a b : Cell dim) : Prop :=
  a.level ≤ b.level ∧ b.ancestor (b.level - a.level) = a

instance {dim : Nat} (a b : Cell dim) : Decidable (a.contains b) := by
  unfold Cell.contains
  infer_instance

/-- Two cells overlap when one contains the other. -/
def overlap {dim : Nat} (a b : Cell dim) : Prop :=
  a.contains b ∨ b.contains a

instance {dim : Nat} (a b : Cell dim) : Decidable (overlap a b) := by
  unfold overlap
  infer_instance

/-- The cells of a cell array are pairwise non-overlapping. -/
def non_overlapping {dim : Nat} (ca : CellArray dim) : Prop :=
  ∀ a ∈ ca, ∀ b ∈ ca, overlap a b → a = b

instance {dim : Nat} (ca : CellArray dim) : Decidable (non_overlapping ca) := by
  unfold non_overlapping
  infer_instance

/-! ## Graduation -/

/-- Along one axis, the closed intervals covered by the index `ia` of level `la` and by
the index `ib` of level `lb` meet: `ia / 2^la ≤ (ib + 1) / 2^lb` and
`ib / 2^lb ≤ (ia + 1) / 2^la`. -/
def touching_axis (la lb : Nat) (ia ib : Int) : Prop :=
  ia * 2 ^ lb ≤ (ib + 1) * 2 ^ la ∧ ib * 2 ^ la ≤ (ia + 1) * 2 ^ lb

instance (la lb : Nat) (ia ib : Int) : Decidable (touching_axis la lb ia ib) := by
  unfold touching_axis
  infer_instance

/-- Two cells touch when their closed boxes meet, by a face, an edge or a corner. -/
def touching {dim : Nat} (a b : Cell dim) : Prop :=
  touching_axis a.level b.level a.i b.i ∧
    ∀ k, touching_axis a.level b.level (a.index k) (b.index k)

instance {dim : Nat} (a b : Cell dim) : Decidable (touching a b) := by
  unfold touching
  infer_instance

/-- The 2:1 rule: two touching cells differ by at most one level. -/
def graduated {dim : Nat} (ca : CellArray dim) : Prop :=
  ∀ a ∈ ca, ∀ b ∈ ca, touching a b → a.level ≤ b.level + 1 ∧ b.level ≤ a.level + 1

instance {dim : Nat} (ca : CellArray dim) : Decidable (graduated ca) := by
  unfold graduated
  infer_instance

/-- Modelled from the spec: the violating cells detected by a graduation sweep, taken on
the coarser side: the cells that touch a cell more than one level finer
(`make_graduation` is defined in `graduation.hpp`, outside the sources). -/
def too_coarse {dim : Nat} (ca : CellArray dim) : CellArray dim :=
  ca.filter fun a => ∃ b ∈ ca, touching a b ∧ a.level + 1 < b.level

/-- Modelled from the spec: the extra refinement forced on the cells `v` of a cell array,
each replaced by its children. -/
def force_refine {dim : Nat} (ca v : CellArray dim) : CellArray dim :=
  (ca \ v) ∪ v.biUnion Cell.children

/-- Modelled from the spec: `make_graduation` as a fixed-point iteration that detects
the violating cells and refines the coarser side until no violation remains; when the
iteration cap is exhausted with a violation left, the run is a fatal error (`none`). -/
def make_graduation {dim : Nat} : Nat → CellArray dim → Option (CellArray dim)
  | 0, ca => if too_coarse ca = ∅ then some ca else none
  | cap + 1, ca =>
    if too_coarse ca = ∅ then some ca
    else make_graduation cap (force_refine ca (too_coarse ca))

/-- The weight of a cell in the termination measure of the graduation: a cell weighs
more than all its children together. -/
def graduation_weight {dim : Nat} (L : Nat) (c : Cell dim) : Nat :=
  (2 ^ (dim - 1) * 2 + 1) ^ (L - c.level)

/-- The termination measure of the graduation on a cell array whose levels are at most
`L`: the total weight of its cells. Every sweep that refines a cell lowers it. -/
def graduation_measure {dim : Nat} (L : Nat) (ca : CellArray dim) : Nat :=
  ca.sum (graduation_weight L)

/-- Modelled from the spec: `update_cell_array_from_tag`, the re-tiling of the leaves by
their tags (defined in `graduation.hpp`, outside the sources); the spec gives it the
rules of the tag loop of `update_field`. -/
def update_cell_array_from_tag {dim : Nat} (mesh : Mesh dim) (tag : Cell dim → Nat) :
    CellArray dim :=
  candidate_cells mesh tag

/-- The function `update_field_mr(tag, field, other_fields...)` of the single-process
build: the cell array re-tiled from the tags is graduated, then the candidate mesh is
compared and installed as in `update_field`. The extents `nb_cells_finest_level` computed
first only tell the graduation how to wrap around periodic boundaries; the model of the
graduation has no periodic boundary and leaves them out. The result is `none` when the
graduation runs into its fatal error. -/
def update_field_mr {dim : Nat} {α : Type} [Zero α] (M : MeshModel dim) (T : Transfer dim α)
    (cap : Nat) (s : State dim α) : Option (Bool × State dim α) :=
  match make_graduation cap (update_cell_array_from_tag s.mesh s.tag.data) with
  | none => none
  | some new_ca =>
    let new_mesh : Mesh dim :=
      { min_level := s.mesh.min_level, max_level := s.mesh.max_level, cells := new_ca }
    if M.mesh_eq s.mesh new_mesh then
      some (true, s)
    else
      some (false,
        { mesh := new_mesh
          tag := s.tag
          fields := s.fields.map (update_fields M T s.mesh new_mesh) })

/-! ## The mesh as the ghost updates read it -/

/-- The domain of a mesh, `mesh.domain()`: a box of cells of one level, given by its
level and its lowest and highest (excluded) indices along each axis. -/
structure Domain (dim : Nat) where
  level : Nat
  min_indices : Fin dim → Int
  max_indices : Fin dim → Int

/-- Modelled from the spec: what the ghost updates read in a mesh. The mesh class, which
computes the roles, is outside the sources, so the roles are given as they stand:
`ref_min_level` and `ref_max_level` are the values of `mesh[reference].min_level()` and
`mesh[reference].max_level()`, `max_level` is `mesh.max_level()`, `subdomain` holds the
cells of every level that lie in `mesh.subdomain()`, and `ghost_width` is
`config::ghost_width`. -/
structure GhostMesh (dim : Nat) where
  domain : Domain dim
  is_periodic : Fin dim → Bool
  ghost_width : Int
  max_level : Nat
  ref_min_level : Nat
  ref_max_level : Nat
  reference : CellArray dim
  proj_cells : CellArray dim
  pred_cells : CellArray dim
  all_cells : CellArray dim
  cells : CellArray dim
  subdomain : CellArray dim

/-- Modelled from the spec: `intersection(fine, coarse).on(level)` for a set `fine` of
cells of `level` and a set `coarse` of cells of `level - 1`: the cells of `fine` that lie
in a cell of `coarse`. -/
def intersection_on_finer {dim : Nat} (fine coarse : CellArray dim) : CellArray dim :=
  fine.filter fun x => x.on_coarser ∈ coarse

/-- The levels visited by `for (level = a; level > b; --level)`. -/
def levels_down (a b : Nat) : List Nat :=
  (List.range' (b + 1) (a - b)).reverse

/-- The region of the projection applied at `level` by `update_ghost_mr` (and by
`update_ghost_mro`):
`intersection(mesh[reference][level], mesh[proj_cells][level - 1]).on(level - 1)`. -/
def update_ghost_mr_projection_region {dim : Nat} (mesh : GhostMesh dim) (level : Nat) :
    CellArray dim :=
  intersection_on_coarser (at_level mesh.reference level) (at_level mesh.proj_cells (level - 1))

/-- The region of the prediction applied at `level` by `update_ghost_mr`:
`intersection(difference(all_cells[level], union_(cells[level], proj_cells[level])),
mesh.subdomain(), all_cells[level - 1]).on(level)`. -/
def update_ghost_mr_prediction_region {dim : Nat} (mesh : GhostMesh dim) (level : Nat) :
    CellArray dim :=
  intersection_on_finer
    ((at_level mesh.all_cells level \ (at_level mesh.cells level ∪ at_level mesh.proj_cells level))
      ∩ at_level mesh.subdomain level)
    (at_level mesh.all_cells (level - 1))

/-- One step of a ghost update: a call of one of the per-level routines, or the
application of a projection or of a prediction on a region. -/
inductive GhostStep (dim : Nat) where
  | update_ghost_subdomains (level : Nat)
  | update_ghost_periodic (level : Nat)
  | projection (level : Nat) (region : CellArray dim)
  | update_bc (level : Nat)
  | prediction (level : Nat) (region : CellArray dim)

/-- The level of a projection step. -/
def GhostStep.projection_level {dim : Nat} : GhostStep dim → Option Nat
  | .projection level _ => some level
  | _ => none

/-- The level of a prediction step. -/
def GhostStep.prediction_level {dim : Nat} : GhostStep dim → Option Nat
  | .prediction level _ => some level
  | _ => none

/-- The first loop of `update_ghost_mr`, `for (level = max_level; level > min_level;
--level)`: the subdomain exchange and the periodic wrap of `level`, then the projection
from `level` into `level - 1`. -/
def update_ghost_mr_projection_sweep {dim : Nat} (mesh : GhostMesh dim) :
    List (GhostStep dim) :=
  (levels_down mesh.ref_max_level mesh.ref_min_level).flatMap fun level =>
    [.update_ghost_subdomains level, .update_ghost_periodic level,
      .projection level (update_ghost_mr_projection_region mesh level)]

/-- The steps of `update_ghost_mr` between its two loops: the fills of level
`min_level - 1` under `if (min_level > 0 && min_level != max_level)`, then the fills of
`min_level`. -/
def update_ghost_mr_coarse_fill {dim : Nat} (mesh : GhostMesh dim) : List (GhostStep dim) :=
  (if mesh.ref_min_level > 0 ∧ mesh.ref_min_level ≠ mesh.ref_max_level then
      [.update_bc (mesh.ref_min_level - 1), .update_ghost_periodic (mesh.ref_min_level - 1),
        .update_ghost_subdomains (mesh.ref_min_level - 1)]
    else []) ++
    [.update_bc mesh.ref_min_level, .update_ghost_periodic mesh.ref_min_level,
      .update_ghost_subdomains mesh.ref_min_level]

/-- The second loop of `update_ghost_mr`, `for (level = min_level + 1; level <= max_level;
++level)`: the prediction at `level`, then the periodic wrap, the subdomain exchange and
the boundary fill of `level`. -/
def update_ghost_mr_prediction_sweep {dim : Nat} (mesh : GhostMesh dim) :
    List (GhostStep dim) :=
  (levels (mesh.ref_min_level + 1) mesh.ref_max_level).flatMap fun level =>
    [.prediction level (update_ghost_mr_prediction_region mesh level),
      .update_ghost_periodic level, .update_ghost_subdomains level, .update_bc level]

/-- The steps of `update_ghost_mr`, in the order in which they are performed. -/
def update_ghost_mr_steps {dim : Nat} (mesh : GhostMesh dim) : List (GhostStep dim) :=
  update_ghost_mr_projection_sweep mesh ++
    (update_ghost_mr_coarse_fill mesh ++ update_ghost_mr_prediction_sweep mesh)

/-! ## The periodic wrap of the ghosts -/

/-- The coordinate of a cell along the axis `d`: `i` along the axis `0`, and the
component `d - 1` of `index` along the other axes. -/
def Cell.coord {dim : Nat} (c : Cell dim) (d : Fin dim) : Int :=
  if h : d.val = 0 then c.i else c.index ⟨d.val - 1, by have := d.isLt; omega⟩

/-- The value of `shift[0]`, called `shift_interval` in the periodic updates. -/
def periodic_shift_interval {dim : Nat} (shift : Fin dim → Int) : Int :=
  if h : 0 < dim then shift ⟨0, h⟩ else 0

/-- The value of `xt::view(shift, xt::range(1, _))`, called `shift_index` in the periodic
updates. -/
def periodic_shift_index {dim : Nat} (shift : Fin dim → Int) : Fin (dim - 1) → Int :=
  fun k => shift ⟨k.val + 1, by have := k.isLt; omega⟩

/-- The cell `(level, i + shift_interval, index + shift_index)`. -/
def Cell.translate {dim : Nat} (c : Cell dim) (shift : Fin dim → Int) : Cell dim :=
  ⟨c.level, c.i + periodic_shift_interval shift,
    fun k => c.index k + periodic_shift_index shift k⟩

/-- Modelled from the spec: `translate(set, shift)`, every cell of the set displaced by
`shift`. -/
def translate {dim : Nat} (set : CellArray dim) (shift : Fin dim → Int) : CellArray dim :=
  set.image fun c => c.translate shift

/-- The cell lies in `box_t(min_corner, max_corner)`. -/
def in_box {dim : Nat} (min_corner max_corner : Fin dim → Int) (c : Cell dim) : Prop :=
  ∀ d, min_corner d ≤ c.coord d ∧ c.coord d < max_corner d

instance {dim : Nat} (min_corner max_corner : Fin dim → Int) (c : Cell dim) :
    Decidable (in_box min_corner max_corner c) := by
  unfold in_box
  infer_instance

/-- The value of `intersection(mesh_ref[level], lca)` for
`lca_type lca(level, box_t(min_corner, max_corner))`. -/
def reference_in_box {dim : Nat} (mesh : GhostMesh dim) (level : Nat)
    (min_corner max_corner : Fin dim → Int) : CellArray dim :=
  (at_level mesh.reference level).filter fun c => in_box min_corner max_corner c

/-- The value of the `std::size_t` (64 bits) `delta_l = domain.level() - level`: the
difference for a level not above the level of the domain, and above it the difference
wrapped around. -/
def delta_l {dim : Nat} (mesh : GhostMesh dim) (level : Nat) : Nat :=
  if level ≤ mesh.domain.level then mesh.domain.level - level
  else (mesh.domain.level + 2 ^ 64 - level) % 2 ^ 64

/-- The value of `shift[d] = (max_indices[d] - min_indices[d]) >> delta_l`, in
`update_ghost_periodic` and in `update_tag_periodic`. -/
def periodic_shift {dim : Nat} (mesh : GhostMesh dim) (level : Nat) (d : Fin dim) : Int :=
  (mesh.domain.max_indices d - mesh.domain.min_indices d) >>> delta_l mesh level

/-- The vector `shift` during the turn `d` of the loop over the axes: `shift[d]` is set
and the other components are `0`. -/
def shift_along {dim : Nat} (mesh : GhostMesh dim) (level : Nat) (d : Fin dim) :
    Fin dim → Int :=
  Function.update (fun _ => 0) d (periodic_shift mesh level d)

/-- The value `min_indices[d] >> delta_l`. -/
def domain_min {dim : Nat} (mesh : GhostMesh dim) (level : Nat) (d : Fin dim) : Int :=
  mesh.domain.min_indices d >>> delta_l mesh level

/-- The value `max_indices[d] >> delta_l`. -/
def domain_max {dim : Nat} (mesh : GhostMesh dim) (level : Nat) (d : Fin dim) : Int :=
  mesh.domain.max_indices d >>> delta_l mesh level

/-- The vector `min_corner` with its component `d` set to `v`; the other components keep
`(min_indices >> delta_l) - ghost_width`. -/
def min_corner_with {dim : Nat} (mesh : GhostMesh dim) (level : Nat) (d : Fin dim) (v : Int) :
    Fin dim → Int :=
  Function.update (fun e => domain_min mesh level e - mesh.ghost_width) d v

/-- The vector `max_corner` with its component `d` set to `v`; the other components keep
`(max_indices >> delta_l) + ghost_width`. -/
def max_corner_with {dim : Nat} (mesh : GhostMesh dim) (level : Nat) (d : Fin dim) (v : Int) :
    Fin dim → Int :=
  Function.update (fun e => domain_max mesh level e + mesh.ghost_width) d v

/-- The set `intersection(mesh_ref[level], lca_min_m)`: the ghosts below the domain. -/
def ref_min_m {dim : Nat} (mesh : GhostMesh dim) (level : Nat) (d : Fin dim) : CellArray dim :=
  reference_in_box mesh level
    (min_corner_with mesh level d (domain_min mesh level d - mesh.ghost_width))
    (max_corner_with mesh level d (domain_min mesh level d))

/-- The set `intersection(mesh_ref[level], lca_max_m)`: the last cells of the domain. -/
def ref_max_m {dim : Nat} (mesh : GhostMesh dim) (level : Nat) (d : Fin dim) : CellArray dim :=
  reference_in_box mesh level
    (min_corner_with mesh level d (domain_max mesh level d - mesh.ghost_width))
    (max_corner_with mesh level d (domain_max mesh level d))

/-- The set `intersection(mesh_ref[level], lca_min_p)`: the first cells of the domain. -/
def ref_min_p {dim : Nat} (mesh : GhostMesh dim) (level : Nat) (d : Fin dim) : CellArray dim :=
  reference_in_box mesh level
    (min_corner_with mesh level d (domain_min mesh level d))
    (max_corner_with mesh level d (domain_min mesh level d + mesh.ghost_width))

/-- The set `intersection(mesh_ref[level], lca_max_p)`: the ghosts above the domain. -/
def ref_max_p {dim : Nat} (mesh : GhostMesh dim) (level : Nat) (d : Fin dim) : CellArray dim :=
  reference_in_box mesh level
    (min_corner_with mesh level d (domain_max mesh level d))
    (max_corner_with mesh level d (domain_max mesh level d + mesh.ghost_width))

/-- The set `set1` of the periodic updates: the ghosts above the domain whose image by
`-shift` is one of the first cells of the domain. -/
def periodic_set1 {dim : Nat} (mesh : GhostMesh dim) (level : Nat) (d : Fin dim) :
    CellArray dim :=
  translate (ref_min_p mesh level d) (shift_along mesh level d) ∩ ref_max_p mesh level d

/-- The set `set2` of the periodic updates: the ghosts below the domain whose image by
`+shift` is one of the last cells of the domain. -/
def periodic_set2 {dim : Nat} (mesh : GhostMesh dim) (level : Nat) (d : Fin dim) :
    CellArray dim :=
  translate (ref_max_m mesh level d) (fun e => - shift_along mesh level d e) ∩
    ref_min_m mesh level d

/-- The turn `d` of the loop over the axes of `update_ghost_periodic(level, field)`, for
a periodic axis `d` in the single-process build: on `set1`,
`field(level, i, index) = field(level, i - shift_interval, index - shift_index)`, then on
`set2`, `field(level, i, index) = field(level, i + shift_interval, index + shift_index)`.
Each assignment evaluates its right-hand side before it writes. -/
def update_ghost_periodic_axis {dim : Nat} {α : Type} (mesh : GhostMesh dim) (level : Nat)
    (d : Fin dim) (field : Cell dim → α) : Cell dim → α :=
  let field1 := write field (periodic_set1 mesh level d)
    (fun x => field (x.translate fun e => - shift_along mesh level d e))
  write field1 (periodic_set2 mesh level d)
    (fun x => field1 (x.translate (shift_along mesh level d)))

/-- The function `update_ghost_periodic(level, field)` of the single-process build: the
loop over the axes, which acts on the periodic ones. -/
def update_ghost_periodic {dim : Nat} {α : Type} (mesh : GhostMesh dim) (level : Nat)
    (field : Cell dim → α) : Cell dim → α :=
  (List.finRange dim).foldl
    (fun field d => if mesh.is_periodic d then update_ghost_periodic_axis mesh level d field
      else field)
    field

/-! ## The steps of `update_ghost` -/

/-- The value of `level - 1` for a `std::size_t` level (64 bits): the subtraction wraps
around at `0`. -/
def size_t_pred (level : Nat) : Nat :=
  (level + 2 ^ 64 - 1) % 2 ^ 64

/-- The region of the projection applied at `level` by `update_ghost`:
`intersection(mesh[proj_cells][level], mesh[reference][level - 1]).on(level - 1)`. -/
def update_ghost_projection_region {dim : Nat} (mesh : GhostMesh dim) (level : Nat) :
    CellArray dim :=
  intersection_on_coarser (at_level mesh.proj_cells level) (at_level mesh.reference (level - 1))

/-- The region of the prediction applied at `level` by `update_ghost`:
`intersection(mesh[pred_cells][level], mesh[reference][level - 1]).on(level)`, where
`level - 1` is the unsigned subtraction of the source. -/
def update_ghost_prediction_region {dim : Nat} (mesh : GhostMesh dim) (level : Nat) :
    CellArray dim :=
  intersection_on_finer (at_level mesh.pred_cells level)
    (at_level mesh.reference (size_t_pred level))

/-- The steps of `update_ghost`: the projections `for (level = max_level; level >= 1;
--level)`, then `update_bc(0, ...)`, then
`for (level = mesh[reference].min_level(); level <= max_level; ++level)` the prediction
and the boundary fill of `level`. -/
def update_ghost_steps {dim : Nat} (mesh : GhostMesh dim) : List (GhostStep dim) :=
  ((levels_down mesh.max_level 0).map fun level =>
      GhostStep.projection level (update_ghost_projection_region mesh level)) ++
    (GhostStep.update_bc 0 ::
      (levels mesh.ref_min_level mesh.max_level).flatMap fun level =>
        [.prediction level (update_ghost_prediction_region mesh level), .update_bc level])

/-! ## The effect of the steps on a field -/

/-- The sorting key of a cell: its level, then its secondary index from the last
component to the first, then its primary index. -/
def cell_key {dim : Nat} (c : Cell dim) : Lex (Nat × Lex (List Int × Int)) :=
  toLex (c.level, toLex ((List.ofFn c.index).reverse, c.i))

/-- The order of the cells in a cell array. -/
def cell_le {dim : Nat} (a b : Cell dim) : Prop :=
  cell_key a ≤ cell_key b

instance {dim : Nat} : DecidableRel (cell_le : Cell dim → Cell dim → Prop) := fun a b => by
  unfold cell_le
  infer_instance

instance {dim : Nat} : IsTrans (Cell dim) cell_le :=
  ⟨fun _ b _ h1 h2 => le_trans (b := cell_key b) h1 h2⟩

instance {dim : Nat} : IsTotal (Cell dim) cell_le :=
  ⟨fun a b => le_total (cell_key a) (cell_key b)⟩

instance {dim : Nat} : IsAntisymm (Cell dim) cell_le :=
  ⟨fun a b h1 h2 => by
    have h := le_antisymm h1 h2
    cases a with
    | mk la ia xa =>
      cases b with
      | mk lb ib xb =>
        simp only [cell_key] at h
        have h' := toLex.injective h
        simp only [Prod.mk.injEq] at h'
        obtain ⟨hl, hr⟩ := h'
        have hr' := toLex.injective hr
        simp only [Prod.mk.injEq, List.reverse_inj] at hr'
        obtain ⟨hx, hi⟩ := hr'
        have := List.ofFn_injective hx
        simp [hl, hi, this]⟩

/-- Modelled from the spec: the cells of a set in the order in which the set visits
them when it is applied, a function of the set alone (the sorted order of its storage). -/
def visit {dim : Nat} (S : CellArray dim) : List (Cell dim) :=
  Quot.liftOn S.val (fun l => l.insertionSort cell_le) fun a b h =>
    List.eq_of_perm_of_sorted
      ((List.perm_insertionSort cell_le a).trans
        (h.trans (List.perm_insertionSort cell_le b).symm))
      (List.sorted_insertionSort cell_le a) (List.sorted_insertionSort cell_le b)

/-- What a rank holds of a mesh, its own (`mesh`) or its snapshot of the mesh of a
neighbour (`neighbour.mesh`): the reference role and the cells of every level that lie
in the subdomain. -/
structure RankMesh (dim : Nat) where
  reference : CellArray dim
  subdomain : CellArray dim

/-- The guard of the send and receive loops:
`!mesh[reference][level].empty() && !neighbour.mesh[reference][level].empty()`. -/
def exchanges {dim : Nat} (mesh neighbour : RankMesh dim) (level : Nat) : Bool :=
  decide (at_level mesh.reference level ≠ ∅ ∧ at_level neighbour.reference level ≠ ∅)

/-- The value of `out_interface` in `update_ghost_subdomains` and in
`update_tag_subdomains`: `intersection(mesh[reference][level],
neighbour.mesh[reference][level], mesh.subdomain()).on(level)`. -/
def out_interface {dim : Nat} (mesh neighbour : RankMesh dim) (level : Nat) : CellArray dim :=
  at_level mesh.reference level ∩ at_level neighbour.reference level ∩
    at_level mesh.subdomain level

/-- The value of `in_interface` in `update_ghost_subdomains`:
`intersection(neighbour.mesh[reference][level], mesh[reference][level],
neighbour.mesh.subdomain()).on(level)`. -/
def ghost_in_interface {dim : Nat} (mesh neighbour : RankMesh dim) (level : Nat) :
    CellArray dim :=
  at_level neighbour.reference level ∩ at_level mesh.reference level ∩
    at_level neighbour.subdomain level

/-- The value of `in_interface` in `update_tag_subdomains`:
`intersection(mesh[reference][level], neighbour.mesh[reference][level],
neighbour.mesh.subdomain()).on(level)`. -/
def tag_in_interface {dim : Nat} (mesh neighbour : RankMesh dim) (level : Nat) :
    CellArray dim :=
  at_level mesh.reference level ∩ at_level neighbour.reference level ∩
    at_level neighbour.subdomain level

/-- The cells of a sorted list grouped in maximal runs: a cell joins the run of the next
one when both have the same level and secondary index and consecutive primary indices. -/
def runs {dim : Nat} : List (Cell dim) → List (List (Cell dim))
  | [] => []
  | c :: cs =>
    match runs cs with
    | [] => [[c]]
    | [] :: rs => [c] :: rs
    | (x :: r) :: rs =>
      if x.level = c.level ∧ x.index = c.index ∧ x.i = c.i + 1 then (c :: x :: r) :: rs
      else [c] :: (x :: r) :: rs

/-- The payload built by the `std::copy` calls of a send loop: the values of the visited
cells, one after the other. A field gives to each cell the list of its `n_comp` values. -/
def pack {dim : Nat} {β : Type} (cells : List (Cell dim)) (field : Cell dim → List β) :
    List β :=
  cells.flatMap field

/-- The outcome of a receive loop: `done`, or `out_of_range` when the next copy would
read past the end of the payload, which is undefined behaviour in the source; `reached`
is then the state left by the copies made before. The source has no other outcome: it
never compares the length of the payload with the length it expects. -/
inductive Received (σ : Type) where
  | done (result : σ)
  | out_of_range (reached : σ)

/-- The receive loop ended without reading past the end of the payload. -/
def Received.is_done {σ : Type} : Received σ → Bool
  | .done _ => true
  | .out_of_range _ => false

/-- The state carried by an outcome. -/
def Received.state {σ : Type} : Received σ → σ
  | .done result => result
  | .out_of_range reached => reached

/-- The copy of a run of values of the payload into cells, cell by cell: each cell takes
the `n` values that start at `count` in the payload and stores them with `store`, then
`count` moves on by `n`. The result holds the final `count` and the field. -/
def unpack {dim : Nat} {β γ : Type} (n : Nat) (store : γ → List β → γ) (to_recv : List β) :
    List (Cell dim) → Nat → (Cell dim → γ) → Received (Nat × (Cell dim → γ))
  | [], count, field => .done (count, field)
  | c :: cells, count, field =>
    if count + n ≤ to_recv.length then
      unpack n store to_recv cells (count + n)
        (Function.update field c (store (field c) ((to_recv.drop count).take n)))
    else
      .out_of_range (count, field)

/-- The receive loop over the intervals of `in_interface`, as the callback
`[&](const auto& i, const auto& index)` runs it: for each interval, `std::copy` takes the
`i.size() * n` values from `to_recv.begin() + count` to
`to_recv.begin() + count + i.size() * n` (for a tag they are first copied aside in
`neigh_tag`), the cells of the interval are updated from them, and `count` moves on by
`i.size() * n`. When the run of an interval ends past the end of the payload the loop has
come to a read past the end, and the state reached is the one left by the intervals
before. -/
def unpack_intervals {dim : Nat} {β γ : Type} (n : Nat) (store : γ → List β → γ)
    (to_recv : List β) :
    List (List (Cell dim)) → Nat → (Cell dim → γ) → Received (Nat × (Cell dim → γ))
  | [], count, field => .done (count, field)
  | i :: rest, count, field =>
    if count + i.length * n ≤ to_recv.length then
      unpack_intervals n store to_recv rest (count + i.length * n)
        (unpack n store to_recv i count field).state.2
    else
      .out_of_range (count, field)

/-- The turn of the send loop of `update_ghost_subdomains(level, field)` for one
neighbour: the payload sent, or `none` when the guard fails and nothing is sent. -/
def update_ghost_subdomains_send {dim : Nat} {β : Type} (mesh neighbour : RankMesh dim)
    (level : Nat) (field : Cell dim → List β) : Option (List β) :=
  if exchanges mesh neighbour level then
    some (pack (visit (out_interface mesh neighbour level)) field)
  else none

/-- The turn of the receive loop of `update_ghost_subdomains(level, field)` for one
neighbour, on the payload `to_recv` received from it: every interval of `in_interface`
takes the next `i.size() * n_comp` values. Nothing is received when the guard fails. -/
def update_ghost_subdomains_recv {dim : Nat} {β : Type} (n_comp : Nat)
    (mesh neighbour : RankMesh dim) (level : Nat) (to_recv : List β)
    (field : Cell dim → List β) : Received (Nat × (Cell dim → List β)) :=
  if exchanges mesh neighbour level then
    unpack_intervals n_comp (fun _ values => values) to_recv
      (runs (visit (ghost_in_interface mesh neighbour level))) 0 field
  else .done (0, field)

/-- The turn of the send loop of `update_tag_subdomains(level, tag, erase)` for one
neighbour. -/
def update_tag_subdomains_send {dim : Nat} (mesh neighbour : RankMesh dim) (level : Nat)
    (tag : Cell dim → Nat) : Option (List Nat) :=
  if exchanges mesh neighbour level then
    some (pack (visit (out_interface mesh neighbour level)) fun c => [tag c])
  else none

/-- The turn of the receive loop of `update_tag_subdomains(level, tag, erase)` for one
neighbour: every interval of `in_interface` takes the next `i.size()` values of the
payload in `neigh_tag`, one per cell; `tag = neigh_tag` when `erase` is set,
`tag |= neigh_tag` otherwise. -/
def update_tag_subdomains_recv {dim : Nat} (erase : Bool) (mesh neighbour : RankMesh dim)
    (level : Nat) (to_recv : List Nat) (tag : Cell dim → Nat) :
    Received (Nat × (Cell dim → Nat)) :=
  if exchanges mesh neighbour level then
    unpack_intervals 1
      (fun old values => if erase then values.headD 0 else old ||| values.headD 0)
      to_recv (runs (visit (tag_in_interface mesh neighbour level))) 0 tag
  else .done (0, tag)

/-! ## The region covered by a cell array -/

/-- The cell `p` lies in the region of space covered by the cell array: one of the cells
of the array contains it. Two cell arrays cover the same region when they cover the same
cells of a level finer than all their cells. -/
def covers {dim : Nat} (ca : CellArray dim) (p : Cell dim) : Prop :=
  ∃ a ∈ ca, a.contains p

instance {dim : Nat} (ca : CellArray dim) (p : Cell dim) : Decidable (covers ca p) := by
  unfold covers
  infer_instance

/-! ## The steps of `update_ghost_mro` -/

/-- Modelled from the spec: the cell lies in `self(mesh.domain()).on(level)` for its
level: its box meets the box of the domain, both taken at a common level. -/
def in_domain {dim : Nat} (mesh : GhostMesh dim) (c : Cell dim) : Prop :=
  ∀ d, mesh.domain.min_indices d * 2 ^ c.level < (c.coord d + 1) * 2 ^ mesh.domain.level ∧
    c.coord d * 2 ^ mesh.domain.level < mesh.domain.max_indices d * 2 ^ c.level

instance {dim : Nat} (mesh : GhostMesh dim) (c : Cell dim) : Decidable (in_domain mesh c) := by
  unfold in_domain
  infer_instance

/-- The region of the prediction applied at `level` by `update_ghost_mro`:
`intersection(difference(all_cells[level], union_(cells[level], proj_cells[level])),
self(mesh.domain()).on(level))`. No level other than `level` is read. -/
def update_ghost_mro_prediction_region {dim : Nat} (mesh : GhostMesh dim) (level : Nat) :
    CellArray dim :=
  ((at_level mesh.all_cells level) \
    (at_level mesh.cells level ∪ at_level mesh.proj_cells level)).filter (in_domain mesh)

/-- The steps of `update_ghost_mro`: the projections `for (level = max_level; level >= 1;
--level)` on `reference[level] ∩ proj_cells[level - 1]`, then `update_bc(0, field)`, then
`for (level = mesh[reference].min_level(); level <= max_level; ++level)` the prediction
and the boundary fill of `level`. -/
def update_ghost_mro_steps {dim : Nat} (mesh : GhostMesh dim) : List (GhostStep dim) :=
  ((levels_down mesh.max_level 0).map fun level =>
      GhostStep.projection level (update_ghost_mr_projection_region mesh level)) ++
    (GhostStep.update_bc 0 ::
      (levels mesh.ref_min_level mesh.max_level).flatMap fun level =>
        [.prediction level (update_ghost_mro_prediction_region mesh level), .update_bc level])

/-- The levels at which a routine forms `level - 1` to read a role of the mesh, given its
steps: the level of each projection. -/
def projection_levels {dim : Nat} (steps : List (GhostStep dim)) : List Nat :=
  steps.filterMap GhostStep.projection_level

/-- The levels of the predictions among the steps of a routine. -/
def prediction_levels {dim : Nat} (steps : List (GhostStep dim)) : List Nat :=
  steps.filterMap GhostStep.prediction_level

/-! ## The periodic wrap of the tags -/

/-- The intervals of a set, in the order in which the set hands them to a callback
`[&](const auto& i, const auto& index)`: the maximal runs of its cells. -/
def intervals {dim : Nat} (S : CellArray dim) : List (CellArray dim) :=
  (runs (visit S)).map List.toFinset

/-- Modelled from the spec: what `keep_only_one_coarse_tag` and `check_duplicate_cells`
read in the mesh of the rank: `rank` is `world.rank()`, `cells` the role `cells`,
`cells_min_level` and `cells_max_level` the values of `mesh[cells].min_level()` and
`mesh[cells].max_level()`, and `ref_min_level` the value of
`mesh[reference].min_level()`. -/
structure LocalMesh (dim : Nat) where
  rank : Nat
  cells : CellArray dim
  cells_min_level : Nat
  cells_max_level : Nat
  ref_min_level : Nat

/-- Modelled from the spec: an element of `mesh.mpi_neighbourhood()`: the rank of the
neighbour and the snapshot `neighbour.mesh` of its mesh. -/
structure Neighbour (dim : Nat) where
  rank : Nat
  mesh : RankMesh dim
  cells : CellArray dim

/-- The outcome of a receive loop without the count of the values consumed. -/
def Received.field {σ τ : Type} : Received (σ × τ) → Received τ
  | .done r => .done r.2
  | .out_of_range r => .out_of_range r.2

/-- The function `update_ghost_subdomains(level, field)`. Its body stands between
`#ifdef SAMURAI_WITH_MPI` and `#endif`: in the MPI build (`with_mpi`) the field receives
the payload of each neighbour in turn, each element of `neighbourhood` being a neighbour
with the payload received from it; in the single-process build the body is empty. -/
def update_ghost_subdomains {dim : Nat} {β : Type} (with_mpi : Bool) (n_comp : Nat)
    (mesh : RankMesh dim) (neighbourhood : List (Neighbour dim × List β)) (level : Nat)
    (field : Cell dim → List β) : Received (Cell dim → List β) :=
  if with_mpi then
    neighbourhood.foldl
      (fun acc nb =>
        match acc with
        | .done field =>
          (update_ghost_subdomains_recv n_comp mesh nb.1.mesh level nb.2 field).field
        | .out_of_range field => .out_of_range field)
      (.done field)
  else .done field

/-- The function `update_tag_subdomains(level, tag, erase)`, whose body stands between
`#ifdef SAMURAI_WITH_MPI` and `#endif`. -/
def update_tag_subdomains {dim : Nat} (with_mpi : Bool) (erase : Bool) (mesh : RankMesh dim)
    (neighbourhood : List (Neighbour dim × List Nat)) (level : Nat) (tag : Cell dim → Nat) :
    Received (Cell dim → Nat) :=
  if with_mpi then
    neighbourhood.foldl
      (fun acc nb =>
        match acc with
        | .done tag => (update_tag_subdomains_recv erase mesh nb.1.mesh level nb.2 tag).field
        | .out_of_range tag => .out_of_range tag)
      (.done tag)
  else .done tag

/-- The lines printed by `check_duplicate_cells(field)` and the field it leaves. In the
MPI build, for every neighbour of lower rank and every level of
`[mesh[cells].min_level(), mesh[cells].max_level()]`, one line per interval of
`intersection(mesh[cells][level], neighbour.mesh[cells][level])`, with the two ranks, the
level and the interval; the field is only used to reach the mesh. -/
def check_duplicate_cells {dim : Nat} {α : Type} (with_mpi : Bool) (mesh : LocalMesh dim)
    (neighbourhood : List (Neighbour dim)) (field : Cell dim → α) :
    List (Nat × Nat × Nat × CellArray dim) × (Cell dim → α) :=
  if with_mpi then
    (neighbourhood.flatMap fun nb =>
        if mesh.rank > nb.rank then
          (levels mesh.cells_min_level mesh.cells_max_level).flatMap fun level =>
            (intervals (at_level mesh.cells level ∩ at_level nb.cells level)).map fun I =>
              (mesh.rank, nb.rank, level, I)
        else [],
      field)
  else ([], field)

/-- The value of `a & b & ...` for the operands of a list. -/
def land_all : List Nat → Nat
  | [] => 0
  | v :: vs => vs.foldl (fun a b => a &&& b) v

/-- The value of `a | b | ...` for the operands of a list. -/
def lor_all : List Nat → Nat
  | [] => 0
  | v :: vs => vs.foldl (fun a b => a ||| b) v

/-- The value of `mask = mask1 && !mask2` in `keep_only_one_coarse_tag` for the cell `p`
of `out_interface`: `mask1` is the bitwise AND of `tag & coarsen` over the children
`(2 i + a, 2 j + b, ...)` of `p`, and `mask2` the bitwise OR of `tag & keep` over them. -/
def coarse_tag_mask {dim : Nat} (tag : Cell dim → Nat) (p : Cell dim) : Bool :=
  let mask1 := land_all ((visit p.children).map fun x => tag x &&& CellFlag.coarsen)
  let mask2 := lor_all ((visit p.children).map fun x => tag x &&& CellFlag.keep)
  decide (mask1 ≠ 0) && !decide (mask2 ≠ 0)

/-- The callback of `keep_only_one_coarse_tag` at one cell `p` of `out_interface`:
`xt::masked_view(tag(level, child), mask) = 0` for each child of `p`. The source has a
branch for each of the dimensions `1`, `2` and `3` and does nothing in another
dimension. The masks of an interval are evaluated before the writes, and the writes at
`p` touch only the children of `p`, which no other mask reads: the cells of an interval
can be taken one by one. -/
def coarse_tag_turn {dim : Nat} (tag : Cell dim → Nat) (p : Cell dim) : Cell dim → Nat :=
  if dim = 1 ∨ dim = 2 ∨ dim = 3 then
    if coarse_tag_mask tag p then write tag p.children (fun _ => 0) else tag
  else tag

/-- The value of `out_interface` in `keep_only_one_coarse_tag`:
`intersection(mesh[cells][level], neighbour.mesh.subdomain()).on(level - 1)`. -/
def coarse_tag_interface {dim : Nat} (mesh : LocalMesh dim) (nb : Neighbour dim)
    (level : Nat) : CellArray dim :=
  (at_level mesh.cells level ∩ at_level nb.mesh.subdomain level).image Cell.on_coarser

/-- The cells of `out_interface` visited by `keep_only_one_coarse_tag` in the MPI build,
in the order of the visit: for every neighbour of lower rank, for every level from
`max(1, mesh[reference].min_level())` to `mesh[cells].max_level()`. -/
def coarse_tag_cells {dim : Nat} (mesh : LocalMesh dim) (neighbourhood : List (Neighbour dim)) :
    List (Cell dim) :=
  neighbourhood.flatMap fun nb =>
    if mesh.rank > nb.rank then
      (levels (max 1 mesh.ref_min_level) mesh.cells_max_level).flatMap fun level =>
        visit (coarse_tag_interface mesh nb level)
    else []

/-- The function `keep_only_one_coarse_tag(tag)`, whose body stands between
`#ifdef SAMURAI_WITH_MPI` and `#endif`. -/
def keep_only_one_coarse_tag {dim : Nat} (with_mpi : Bool) (mesh : LocalMesh dim)
    (neighbourhood : List (Neighbour dim)) (tag : Cell dim → Nat) : Cell dim → Nat :=
  if with_mpi then (coarse_tag_cells mesh neighbourhood).foldl coarse_tag_turn tag
  else tag

/-- The condition of the specification on the children of a cell: every child carries the
coarsen bit and no child carries the keep bit. -/
def all_coarsen_no_keep {dim : Nat} (tag : Cell dim → Nat) (p : Cell dim) : Prop :=
  (∀ y ∈ p.children, tag y &&& CellFlag.coarsen ≠ 0) ∧
    ∀ y ∈ p.children, tag y &&& CellFlag.keep = 0

instance {dim : Nat} (tag : Cell dim → Nat) (p : Cell dim) :
    Decidable (all_coarsen_no_keep tag p) := by
  unfold all_coarsen_no_keep
  infer_instance

/-- The tags that the specification describes after the cells of `ps` have been visited:
the children of a visited cell are set to `0` when all of them carried the coarsen bit and
none the keep bit in `tag`, and every other tag is left as it was. -/
def zero_coarsened {dim : Nat} (ps : List (Cell dim)) (tag : Cell dim → Nat) : Cell dim → Nat :=
  fun x => if ∃ p ∈ ps, x ∈ p.children ∧ all_coarsen_no_keep tag p then 0 else tag x

/-! ## The Roe scheme (`demos/FiniteVolume/Roe_scheme.hpp`)

The routines are written for `double`. They are embedded over an ordered field `K`, in which `0.5`
is `1 / 2`, and `std::sqrt` is a parameter `sqrt : K → K`: over the real numbers it is
`Real.sqrt`, over the rationals any function can stand for it on a concrete state. A
state `uj` is indexed as in the source, `uj(0)` the density, `uj(1) .. uj(dim)` the
momentum and `uj(field_size - 1)` the total energy. -/

/-- The value of `rho_ec` after `for (l = 1; l < dim + 1; ++l) rho_ec += uj(l) * uj(l)`
and `rho_ec = 0.5 * rho_ec / uj(0)`. -/
def rho_ec {K : Type} [LinearOrderedField K] (dim : Nat) (uj : Nat → K) : K :=
  1 / 2 * (List.range' 1 dim).foldl (fun acc l => acc + uj l * uj l) 0 / uj 0

/-- The function `compute_Pressure(uj, gamma)`. -/
def compute_Pressure {K : Type} [LinearOrderedField K] (dim field_size : Nat) (uj : Nat → K) (gamma : K) : K :=
  (gamma - 1) * (uj (field_size - 1) - rho_ec dim uj)

/-- The function `compute_SoundSpeed(uj, gamma)`. -/
def compute_SoundSpeed {K : Type} [LinearOrderedField K] (sqrt : K → K) (dim field_size : Nat)
    (uj : Nat → K) (gamma : K) : K :=
  sqrt (gamma * (gamma - 1) * (uj (field_size - 1) - rho_ec dim uj) / uj 0)

/-- The function `compute_Enthalpy(uj, gamma)`. -/
def compute_Enthalpy {K : Type} [LinearOrderedField K] (dim field_size : Nat) (uj : Nat → K) (gamma : K) : K :=
  (gamma * uj (field_size - 1) - (gamma - 1) * rho_ec dim uj) / uj 0

/-- The function `compute_Roemean(uj, ujp1, gamma)`. The entries of `mean_Roe` are written
in the order of the source: the density, the momentum components `1 .. dim`, and last the
entry `field_size - 1`; an entry that is never written is `0` here. -/
def compute_Roemean {K : Type} [LinearOrderedField K] (sqrt : K → K) (dim field_size : Nat)
    (uj ujp1 : Nat → K) (gamma : K) : Nat → K :=
  let sqrt_rhoj := sqrt (uj 0)
  let sqrt_rhojp1 := sqrt (ujp1 0)
  let Hj := compute_Enthalpy dim field_size uj gamma
  let Hjp1 := compute_Enthalpy dim field_size ujp1 gamma
  let mean_Roe0 := sqrt_rhoj * sqrt_rhojp1
  let mean_Roe : Nat → K := fun l =>
    if l = 0 then mean_Roe0
    else if l < dim + 1 then
      mean_Roe0 * (sqrt_rhoj * uj l / uj 0 + sqrt_rhojp1 * ujp1 l / ujp1 0) /
        (sqrt_rhoj + sqrt_rhojp1)
    else 0
  let rho_ec := 1 / 2 * (List.range' 1 dim).foldl (fun acc l => acc + mean_Roe l * mean_Roe l) 0 /
    mean_Roe 0
  let rhoH_bar := mean_Roe 0 * (sqrt_rhoj * Hj + sqrt_rhojp1 * Hjp1) / (sqrt_rhoj + sqrt_rhojp1)
  let P_bar := (gamma - 1) * (rhoH_bar - rho_ec) / gamma
  Function.update mean_Roe (field_size - 1) (rhoH_bar - P_bar)

/-- The value of `gm1s2u2` in `compute_LeftEigenVectors` and, without the factor
`gamma - 1`, of `ec` in `compute_RightEigenVectors`: the sum over `l < dim` of
`(ujp12(l+1)/ujp12(0)) * (ujp12(l+1)/ujp12(0))`. -/
def velocity_square {K : Type} [LinearOrderedField K] (dim : Nat) (ujp12 : Nat → K) : K :=
  (List.range dim).foldl
    (fun acc l => acc + ujp12 (l + 1) / ujp12 0 * (ujp12 (l + 1) / ujp12 0)) 0

/-- The array `normal` of the eigenvector routines: `normal.fill(0.); normal[dir] = 1.`. -/
def normal {K : Type} [LinearOrderedField K] (dir : Nat) : Nat → K :=
  Function.update (fun _ => 0) dir 1

/-- The value of `unc`: the sum over `l < dim` of `normal[l] * (ujp12(l+1)/ujp12(0))`,
times `c_bar`. -/
def normal_velocity {K : Type} [LinearOrderedField K] (dim : Nat) (ujp12 : Nat → K) (dir : Nat) (c_bar : K) :
    K :=
  (List.range dim).foldl (fun acc l => acc + normal dir l * (ujp12 (l + 1) / ujp12 0)) 0 * c_bar

/-- The function `compute_LeftEigenVectors(ujp12, dir, gamma)`: the entry `(i, j)` of
`L_jp12`. The source fills the matrix for `dim == 1` and for `dim == 2` and leaves it as
it is declared in another dimension; an entry that is not written is `0` here. -/
def compute_LeftEigenVectors {K : Type} [LinearOrderedField K] (sqrt : K → K) (dim field_size : Nat)
    (ujp12 : Nat → K) (dir : Nat) (gamma : K) : Nat → Nat → K :=
  let c_bar := compute_SoundSpeed sqrt dim field_size ujp12 gamma
  let gm1s2u2 := 1 / 2 * (gamma - 1) * velocity_square dim ujp12
  let oneoverc := 1 / c_bar
  if dim = 1 then
    let u_bar := ujp12 (dir + 1) / ujp12 0
    fun i j =>
      match i, j with
      | 0, 0 => 1 / 2 * (gm1s2u2 * oneoverc + u_bar)
      | 0, 1 => -(1 / 2) * ((gamma - 1) * u_bar * oneoverc + 1)
      | 0, 2 => (gamma - 1) * (1 / 2) * oneoverc
      | 1, 0 => c_bar - gm1s2u2 * oneoverc
      | 1, 1 => (gamma - 1) * u_bar * oneoverc
      | 1, 2 => -(gamma - 1) * oneoverc
      | 2, 0 => 1 / 2 * (gm1s2u2 * oneoverc - u_bar)
      | 2, 1 => -(1 / 2) * ((gamma - 1) * u_bar * oneoverc - 1)
      | 2, 2 => (gamma - 1) * (1 / 2) * oneoverc
      | _, _ => 0
  else if dim = 2 then
    let unc := normal_velocity dim ujp12 dir c_bar
    fun i j =>
      match i, j with
      | 0, 0 => 1 / 2 * (gm1s2u2 + unc) * oneoverc
      | 0, 1 => -(1 / 2) * ((gamma - 1) * ujp12 1 / ujp12 0 * oneoverc + normal dir 0)
      | 0, 2 => -(1 / 2) * ((gamma - 1) * ujp12 2 / ujp12 0 * oneoverc + normal dir 1)
      | 0, 3 => (gamma - 1) * (1 / 2) * oneoverc
      | 1, 0 => c_bar - gm1s2u2 * oneoverc
      | 1, 1 => (gamma - 1) * ujp12 1 / ujp12 0 * oneoverc
      | 1, 2 => (gamma - 1) * ujp12 2 / ujp12 0 * oneoverc
      | 1, 3 => -(gamma - 1) * oneoverc
      | 2, 0 => normal dir 1 * ujp12 1 / ujp12 0 - normal dir 0 * ujp12 2 / ujp12 0
      | 2, 1 => -normal dir 1
      | 2, 2 => normal dir 0
      | 2, 3 => 0
      | 3, 0 => 1 / 2 * (gm1s2u2 - unc) * oneoverc
      | 3, 1 => -(1 / 2) * ((gamma - 1) * ujp12 1 / ujp12 0 * oneoverc - normal dir 0)
      | 3, 2 => -(1 / 2) * ((gamma - 1) * ujp12 2 / ujp12 0 * oneoverc - normal dir 1)
      | 3, 3 => (gamma - 1) * (1 / 2) * oneoverc
      | _, _ => 0
  else fun _ _ => 0

/-- The function `compute_RightEigenVectors(ujp12, dir, gamma)`: the entry `(i, j)` of
`R_jp12`, filled for `dim == 1` and for `dim == 2`. -/
def compute_RightEigenVectors {K : Type} [LinearOrderedField K] (sqrt : K → K) (dim field_size : Nat)
    (ujp12 : Nat → K) (dir : Nat) (gamma : K) : Nat → Nat → K :=
  let c_bar := compute_SoundSpeed sqrt dim field_size ujp12 gamma
  let H_bar := compute_Enthalpy dim field_size ujp12 gamma
  let oneoverc := 1 / c_bar
  let ec := 1 / 2 * velocity_square dim ujp12
  if dim = 1 then
    let u_bar := ujp12 (dir + 1) / ujp12 0
    fun i j =>
      match i, j with
      | 0, 0 => oneoverc
      | 1, 0 => u_bar * oneoverc - 1
      | 2, 0 => H_bar * oneoverc - u_bar
      | 0, 1 => oneoverc
      | 1, 1 => u_bar * oneoverc
      | 2, 1 => 1 / 2 * u_bar * u_bar * oneoverc
      | 0, 2 => oneoverc
      | 1, 2 => u_bar * oneoverc + 1
      | 2, 2 => H_bar * oneoverc + u_bar
      | _, _ => 0
  else if dim = 2 then
    let unc := normal_velocity dim ujp12 dir c_bar
    fun i j =>
      match i, j with
      | 0, 0 => oneoverc
      | 1, 0 => ujp12 1 / ujp12 0 * oneoverc - normal dir 0
      | 2, 0 => ujp12 2 / ujp12 0 * oneoverc - normal dir 1
      | 3, 0 => (H_bar - unc) * oneoverc
      | 0, 1 => oneoverc
      | 1, 1 => ujp12 1 / ujp12 0 * oneoverc
      | 2, 1 => ujp12 2 / ujp12 0 * oneoverc
      | 3, 1 => ec * oneoverc
      | 0, 2 => 0
      | 1, 2 => -normal dir 1
      | 2, 2 => normal dir 0
      | 3, 2 => -normal dir 1 * ujp12 1 / ujp12 0 + normal dir 0 * ujp12 2 / ujp12 0
      | 0, 3 => oneoverc
      | 1, 3 => ujp12 1 / ujp12 0 * oneoverc + normal dir 0
      | 2, 3 => ujp12 2 / ujp12 0 * oneoverc + normal dir 1
      | 3, 3 => (H_bar + unc) * oneoverc
      | _, _ => 0
  else fun _ _ => 0

/-- The array of `field_size x field_size` entries as a matrix. -/
def as_matrix {K : Type} (n : Nat) (M : Nat → Nat → K) : Matrix (Fin n) (Fin n) K :=
  Matrix.of fun i j => M i.val j.val

/-! ## The index reads of `compute_OS_flux_correction` -/

/-- The arrays that `compute_OS_flux_correction` reads: `nu`, `d_alpha`, and the row `row`
of `c_order` in `c_order(row, x)`. -/
inductive FluxArray where
  | nu
  | d_alpha
  | c_order (row : Nat)
deriving DecidableEq

/-- The first index of a read of `c_order`; `0` for the one-dimensional arrays. -/
def FluxArray.row : FluxArray → Nat
  | .c_order row => row
  | _ => 0

/-- One read `a[j + offset](l)` of `compute_OS_flux_correction`: the array, the offset of
the index expression from `j` as written in the source (`-1` for `j-1`, `2` for `j+2`),
and the component `l`. -/
structure IndexRead where
  array : FluxArray
  offset : Int
  component : Nat
deriving DecidableEq

/-- The value of the `std::size_t` expression `j + offset` (64 bits): `j - k` wraps around
when `j < k`. -/
def size_t_index (j : Nat) (offset : Int) : Nat :=
  (((j : Int) + offset) % 2 ^ 64).toNat

/-- The reads of a factor `(1-nu[x](l)) * d_alpha[x](l)`, `x = j + offset`. -/
def weighted_jump (offset : Int) (l : Nat) : List IndexRead :=
  [⟨.nu, offset, l⟩, ⟨.d_alpha, offset, l⟩]

/-- The reads of a term `c_order(row, x)(l) * (1-nu[x](l)) * d_alpha[x](l)`,
`x = j + offset`. -/
def order_term (row : Nat) (offset : Int) (l : Nat) : List IndexRead :=
  ⟨.c_order row, offset, l⟩ :: weighted_jump offset l

/-- The reads of `nu`, `d_alpha` and `c_order` in one turn `l` of the loop of
`compute_OS_flux_correction<.., order, field_size>`, in the order of the source: the
Lax-Wendroff term, the terms guarded by `order >= 2`, `order >= 3` and `order >= 4`, the
division of `phi_o`, the ratio `r` and the limiter `phi_lim` of the TVD constraint, and
`flux(l)`. -/
def compute_OS_flux_correction_component (order l : Nat) : List IndexRead :=
  weighted_jump 0 l ++
    (if 2 ≤ order then order_term 0 0 l ++ order_term 0 (-1) l else []) ++
    (if 3 ≤ order then
      order_term 1 0 l ++ order_term 1 (-1) l ++ order_term 1 (-2) l ++
        order_term 2 1 l ++ order_term 2 0 l ++ order_term 2 (-1) l ++ order_term 2 (-2) l
    else []) ++
    (if 4 ≤ order then
      order_term 3 2 l ++ order_term 3 1 l ++ order_term 3 0 l ++ order_term 3 (-1) l ++
        order_term 3 (-2) l ++
        order_term 4 2 l ++ order_term 4 1 l ++ order_term 4 0 l ++ order_term 4 (-1) l ++
        order_term 4 (-2) l ++ order_term 4 (-3) l
    else []) ++
    weighted_jump 0 l ++
    weighted_jump (-1) l ++ weighted_jump 0 l ++
    [⟨.nu, 0, l⟩, ⟨.nu, -1, l⟩] ++
    weighted_jump 0 l

/-- The reads of `compute_OS_flux_correction`: the loop `for (l = 0; l < field_size; ++l)`. -/
def compute_OS_flux_correction_reads (order field_size : Nat) : List IndexRead :=
  (List.range field_size).flatMap (compute_OS_flux_correction_component order)

/-- The constant `stencil_size = 2*order` of `make_OS_scheme`, a `std::size_t`. -/
def stencil_size (order : Nat) : Nat :=
  2 * order % 2 ^ 64

/-- The constant `j = order-1` of the flux function of `make_OS_scheme`, which it passes
to `compute_OS_flux_correction`. -/
def stencil_centre (order : Nat) : Nat :=
  size_t_pred order

/-- The length `stencil_size-1` of the arrays `nu` and `d_alpha` and of each row of
`c_order`, built by `make_OS_scheme`. -/
def flux_array_length (order : Nat) : Nat :=
  size_t_pred (stencil_size order)

/-- The number of rows of `c_order`, of shape `(5, stencil_size-1)`. -/
def c_order_rows : Nat := 5

/-- A read at the centre `j` is inside its array, and its index expression does not wrap:
`j + offset` is not negative, its `std::size_t` value is below the length
`stencil_size-1`, and a row of `c_order` is below `5`. -/
def IndexRead.in_range (order j : Nat) (r : IndexRead) : Prop :=
  0 ≤ (j : Int) + r.offset ∧ size_t_index j r.offset < flux_array_length order ∧
    r.array.row < c_order_rows

instance (order j : Nat) (r : IndexRead) : Decidable (r.in_range order j) := by
  unfold IndexRead.in_range
  infer_instance

/-! ## Small concrete meshes, used to instantiate the statements -/

/-- A cell of a one-dimensional mesh. -/
def cell1 (level : Nat) (i : Int) : Cell 1 :=
  ⟨level, i, fun _ => 0⟩

/-- A cell of a two-dimensional mesh. -/
def cell2 (level : Nat) (i j : Int) : Cell 2 :=
  ⟨level, i, fun _ => j⟩

/-- The simplest mesh model: no ghost, no further role, a buffer slot per leaf. -/
def leaves_only (dim : Nat) : MeshModel dim :=
  { ghosts := fun _ => ∅, other_roles := fun _ => [], nb_cells := fun mesh => mesh.cells.card }

/-- Transfer operators on integers that copy the value stored at the cell they fill. -/
def copy_transfer (dim : Nat) : Transfer dim Int :=
  { projection := fun src c => src c, prediction := fun src x => src x }

/-- A one-dimensional state with levels `0..1`: the single leaf `(0, 0)` is tagged
refine; the tag and the field have one component and a buffer of one value, the number
of cells of the mesh. -/
def single_refine_state : State 1 Int :=
  { mesh := ⟨0, 1, {cell1 0 0}⟩
    tag := ⟨1, 1, fun _ => CellFlag.refine⟩
    fields := [⟨1, 1, fun _ => 3⟩] }

/-- A one-dimensional state with levels `0..1`: the two leaves `(1, 0)` and `(1, 1)`,
tagged coarsen. -/
def fine_pair_state : State 1 Int :=
  { mesh := ⟨0, 1, {cell1 1 0, cell1 1 1}⟩
    tag := ⟨1, 2, fun _ => CellFlag.coarsen⟩
    fields := [⟨1, 2, fun c => c.i⟩] }

/-- A one-dimensional state with levels `0..3`: the leaf `(1, 0)` is tagged keep and
its neighbour `(2, 2)`, one level finer, is tagged refine. -/
def keep_beside_refine_state : State 1 Int :=
  { mesh := ⟨0, 3, {cell1 1 0, cell1 2 2}⟩
    tag := ⟨1, 2, fun c => if c.level = 1 then CellFlag.keep else CellFlag.refine⟩
    fields := [⟨1, 2, fun c => c.i⟩] }

/-- A one-dimensional single-level mesh, periodic along its axis: the domain is
`[mn, mx)` at `level` and the reference role adds `gw` ghosts on each side. -/
def periodic_line (level : Nat) (mn mx gw : Int) : GhostMesh 1 :=
  { domain := ⟨level, fun _ => mn, fun _ => mx⟩
    is_periodic := fun _ => true
    ghost_width := gw
    max_level := level
    ref_min_level := level
    ref_max_level := level
    reference := add_interval level (fun _ => 0) (mn - gw) (mx + gw)
    proj_cells := ∅
    pred_cells := ∅
    all_cells := add_interval level (fun _ => 0) (mn - gw) (mx + gw)
    cells := add_interval level (fun _ => 0) mn mx
    subdomain := add_interval level (fun _ => 0) mn mx }

/-- A one-dimensional mesh with two levels, not periodic: the domain is `[0, 2)` at
level `0`; the leaves are `(0, 0)`, `(1, 2)` and `(1, 3)`, the cell `(0, 1)` is a
projection cell under the two fine leaves and `(1, 1)` is a ghost of level `1` beside
them. -/
def two_level_line : GhostMesh 1 :=
  { domain := ⟨1, fun _ => 0, fun _ => 4⟩
    is_periodic := fun _ => false
    ghost_width := 1
    max_level := 1
    ref_min_level := 0
    ref_max_level := 1
    reference := {cell1 0 0, cell1 0 1, cell1 1 1, cell1 1 2, cell1 1 3}
    proj_cells := {cell1 0 1}
    pred_cells := {cell1 1 1}
    all_cells := {cell1 0 0, cell1 0 1, cell1 1 1, cell1 1 2, cell1 1 3}
    cells := {cell1 0 0, cell1 1 2, cell1 1 3}
    subdomain := {cell1 0 0, cell1 0 1, cell1 1 0, cell1 1 1, cell1 1 2, cell1 1 3} }

/-- The mesh of a rank `A` on a line: it owns the cells `0`, `1`, `2` of level `0` and
holds the cell `3` as a ghost. -/
def rank_a : RankMesh 1 :=
  { reference := {cell1 0 0, cell1 0 1, cell1 0 2, cell1 0 3}
    subdomain := {cell1 0 0, cell1 0 1, cell1 0 2} }

/-- The mesh of a rank `B`, neighbour of `A`: it owns the cells `3` and `4` of level `0`
and holds the cells `1` and `2` as ghosts. -/
def rank_b : RankMesh 1 :=
  { reference := {cell1 0 1, cell1 0 2, cell1 0 3, cell1 0 4}
    subdomain := {cell1 0 3, cell1 0 4} }

/-- The mesh of a rank on a line that owns the cells `0`, `1`, `3`, `4` of level `0`, on
both sides of the cell `2`, which it holds as a ghost. -/
def rank_outer : RankMesh 1 :=
  { reference := {cell1 0 0, cell1 0 1, cell1 0 2, cell1 0 3, cell1 0 4}
    subdomain := {cell1 0 0, cell1 0 1, cell1 0 3, cell1 0 4} }

/-- The mesh of the rank that owns the cell `2` and holds its two neighbours `1` and `3`
as ghosts: its interface with `rank_outer` has the two intervals `[1, 2)` and `[3, 4)`. -/
def rank_middle : RankMesh 1 :=
  { reference := {cell1 0 1, cell1 0 2, cell1 0 3}
    subdomain := {cell1 0 2} }

/-- A one-dimensional mesh with levels `0..1`: the leaf `(0, 0)` and, beside it, the two
leaves `(1, 2)` and `(1, 3)` of level `1`. -/
def mixed_line : Mesh 1 :=
  ⟨0, 1, {cell1 0 0, cell1 1 2, cell1 1 3}⟩

/-- The mesh of the rank `1` on a line: four leaves of level `1`. -/
def rank_one_leaves : LocalMesh 1 :=
  { rank := 1
    cells := {cell1 1 2, cell1 1 3, cell1 1 4, cell1 1 5}
    cells_min_level := 1
    cells_max_level := 1
    ref_min_level := 0 }

/-- Two neighbours of the rank `1`: the rank `0`, whose subdomain holds the leaves `2` and
`3`, and the rank `2`, whose subdomain holds the leaves `4` and `5`. -/
def two_neighbours : List (Neighbour 1) :=
  [{ rank := 0
     mesh := { reference := {cell1 1 2, cell1 1 3}, subdomain := {cell1 1 2, cell1 1 3} }
     cells := {cell1 1 2, cell1 1 3} },
   { rank := 2
     mesh := { reference := {cell1 1 4, cell1 1 5}, subdomain := {cell1 1 4, cell1 1 5} }
     cells := {cell1 1 4, cell1 1 5} }]

/-- A state of the Euler equations on an ordered field: density `4`, momentum components
`2`, and total energy `10` in the last entry of a state of four entries. -/
def plane_state {K : Type} [LinearOrderedField K] : Nat → K :=
  fun l => if l = 0 then 4 else if l = 3 then 10 else 2

/-- A state at rest of the one-dimensional Euler equations: density `1`, momentum `0`,
total energy `2`. -/
def rest_state {K : Type} [LinearOrderedField K] : Nat → K :=
  fun l => if l = 0 then 1 else if l = 1 then 0 else 2

/-- A square root on the rationals, exact at `4`, which stands for `std::sqrt` on the
states above. -/
def rational_sqrt (x : ℚ) : ℚ :=
  if x = 4 then 2 else 0

/-! ## Basic facts -/

theorem mem_add_interval {dim : Nat} (level : Nat) (index : Fin (dim - 1) → Int) (a b : Int)
    (x : Cell dim) :
    x ∈ add_interval level index a b ↔ x.level = level ∧ x.index = index ∧ a ≤ x.i ∧ x.i < b := by
  unfold add_interval
  simp only [Finset.mem_image, Finset.mem_Ico]
  constructor
  · rintro ⟨i, ⟨h1, h2⟩, rfl⟩
    exact ⟨rfl, rfl, h1, h2⟩
  · rintro ⟨h1, h2, h3, h4⟩
    refine ⟨x.i, ⟨h3, h4⟩, ?_⟩
    cases x
    simp_all

theorem add_point_eq {dim : Nat} (level : Nat) (index : Fin (dim - 1) → Int) (i : Int) :
    add_point level index i = ({⟨level, i, index⟩} : CellArray dim) := by
  ext x
  rw [add_point, mem_add_interval, Finset.mem_singleton]
  constructor
  · rintro ⟨h1, h2, h3, h4⟩
    cases x
    simp only [Cell.mk.injEq]
    simp only at h1 h2 h3 h4
    exact ⟨h1, by omega, h2⟩
  · rintro rfl
    exact ⟨rfl, rfl, le_refl _, Int.lt_succ_self _⟩

theorem mem_stencils {n : Nat} (s : Fin n → Int) :
    s ∈ stencils n ↔ ∀ k, s k = 0 ∨ s k = 1 := by
  simp [stencils, Fintype.mem_piFinset]

theorem card_stencils (n : Nat) : (stencils n).card = 2 ^ n := by
  simp [stencils, Fintype.card_piFinset]

theorem shiftRight_one (a : Int) : a >>> (1 : Nat) = a / 2 := by
  rw [Int.shiftRight_eq_div_pow]
  norm_num

theorem shift_index_eq {n : Nat} (index : Fin n → Int) :
    shift_index index = fun k => index k / 2 := by
  funext k
  exact shiftRight_one _

theorem on_coarser_eq_parent {dim : Nat} (c : Cell dim) : c.on_coarser = c.parent := by
  simp only [Cell.on_coarser, Cell.parent, shift_index_eq, shiftRight_one]

theorem mem_children {dim : Nat} (p x : Cell dim) :
    x ∈ p.children ↔
      x.level = p.level + 1 ∧ (x.i = 2 * p.i ∨ x.i = 2 * p.i + 1) ∧
        ∃ s : Fin (dim - 1) → Int, (∀ k, s k = 0 ∨ s k = 1) ∧ x.index = 2 * p.index + s := by
  unfold Cell.children
  simp only [Finset.mem_biUnion, Finset.mem_image, Finset.mem_insert, Finset.mem_singleton,
    mem_stencils]
  constructor
  · rintro ⟨s, hs, i, hi, rfl⟩
    exact ⟨rfl, hi, s, hs, rfl⟩
  · rintro ⟨h1, h2, s, hs, h3⟩
    refine ⟨s, hs, x.i, h2, ?_⟩
    cases x
    simp_all

/-- The refine branch of the tag loop adds exactly the children of the leaf. -/
theorem refine_cells_eq_children {dim : Nat} (c : Cell dim) :
    ((stencils (dim - 1)).biUnion fun stencil =>
        add_interval (c.level + 1) (2 * c.index + stencil) (2 * c.i) (2 * c.i + 2)) =
      c.children := by
  ext x
  rw [mem_children]
  simp only [Finset.mem_biUnion, mem_add_interval, mem_stencils]
  constructor
  · rintro ⟨s, hs, h1, h2, h3, h4⟩
    exact ⟨h1, by omega, s, hs, h2⟩
  · rintro ⟨h1, h2, s, hs, h3⟩
    exact ⟨s, hs, h1, h3, by omega, by omega⟩

theorem card_children_eq {dim : Nat} (c : Cell dim) :
    c.children.card = 2 ^ (dim - 1) * 2 := by
  unfold Cell.children
  rw [Finset.card_biUnion]
  · have h2 : ∀ s ∈ stencils (dim - 1),
        (({2 * c.i, 2 * c.i + 1} : Finset Int).image
          fun i => (⟨c.level + 1, i, 2 * c.index + s⟩ : Cell dim)).card = 2 := by
      intro s _
      rw [Finset.card_image_of_injective]
      · rw [Finset.card_pair]
        omega
      · intro a b hab
        simpa using hab
    rw [Finset.sum_congr rfl h2, Finset.sum_const, card_stencils, smul_eq_mul]
  · intro s _ s2 _ hne
    rw [Finset.disjoint_left]
    intro x hx hx2
    simp only [Finset.mem_image] at hx hx2
    obtain ⟨i, _, rfl⟩ := hx
    obtain ⟨j, _, hj⟩ := hx2
    simp only [Cell.mk.injEq, true_and] at hj
    exact hne (add_left_cancel hj.2).symm

theorem card_children {dim : Nat} (hdim : 0 < dim) (c : Cell dim) :
    c.children.card = 2 ^ dim := by
  rw [card_children_eq, ← pow_succ]
  congr 1
  omega

theorem parent_unique {dim : Nat} (c p : Cell dim) (hl : 0 < c.level) :
    c ∈ p.children ↔ p = c.parent := by
  rw [mem_children]
  constructor
  · rintro ⟨h1, h2, s, hs, h3⟩
    cases p with
    | mk pl pi pidx =>
      simp only [Cell.parent, Cell.mk.injEq]
      simp only at h1 h2 h3
      refine ⟨by omega, by omega, ?_⟩
      funext k
      have hk := congrFun h3 k
      simp only [Pi.add_apply, Pi.mul_apply, Pi.ofNat_apply] at hk
      rcases hs k with h | h <;> omega
  · rintro rfl
    simp only [Cell.parent]
    refine ⟨by omega, by omega, fun k => c.index k - 2 * (c.index k / 2), ?_, ?_⟩
    · intro k
      show c.index k - 2 * (c.index k / 2) = 0 ∨ c.index k - 2 * (c.index k / 2) = 1
      omega
    · funext k
      simp only [Pi.add_apply, Pi.mul_apply, Pi.ofNat_apply]
      omega

/-! ## The claims on the tag loop -/

/-- C1: in `update_field`, for a dimension `dim ≥ 1`, a leaf `(level, i, index)` whose
tag has the refine bit and whose level is strictly below `max_level` adds to the
candidate cell list exactly the `2^dim` cells of level `level + 1` with primary index
`2 i` or `2 i + 1` and secondary index `2 index + s`, `s` ranging over `{0,1}^(dim-1)`;
it adds no cell at its own level. -/
theorem update_field_refine_adds_children {dim : Nat} (hdim : 0 < dim) (mesh : Mesh dim)
    (tag : Cell dim → Nat) (c : Cell dim) (hc : c ∈ mesh.cells)
    (ht : tag c &&& CellFlag.refine ≠ 0) (hl : c.level < mesh.max_level) :
    (∀ x : Cell dim, x ∈ leaf_cells mesh.min_level mesh.max_level (tag c) c ↔
        x.level = c.level + 1 ∧ (x.i = 2 * c.i ∨ x.i = 2 * c.i + 1) ∧
          ∃ s : Fin (dim - 1) → Int, (∀ k, s k = 0 ∨ s k = 1) ∧ x.index = 2 * c.index + s) ∧
      (leaf_cells mesh.min_level mesh.max_level (tag c) c).card = 2 ^ dim ∧
      (∀ x ∈ leaf_cells mesh.min_level mesh.max_level (tag c) c, x.level ≠ c.level) ∧
      leaf_cells mesh.min_level mesh.max_level (tag c) c ⊆ candidate_cells mesh tag := by
  have heq : leaf_cells mesh.min_level mesh.max_level (tag c) c = c.children := by
    unfold leaf_cells
    rw [if_pos ht, if_pos hl, refine_cells_eq_children]
  refine ⟨?_, ?_, ?_, ?_⟩
  · intro x
    rw [heq, mem_children]
  · rw [heq, card_children hdim]
  · intro x hx
    rw [heq, mem_children] at hx
    omega
  · intro x hx
    exact Finset.mem_biUnion.mpr ⟨c, hc, hx⟩

/-- The witness of C1: the leaf `(0, -3, 5)` of a two-dimensional mesh with levels
`0..1`, tagged refine, adds four cells, none at level `0`. -/
theorem update_field_refine_adds_children_witness :
    (leaf_cells 0 1 CellFlag.refine (cell2 0 (-3) 5)).card = 2 ^ 2 ∧
      ∀ x ∈ leaf_cells 0 1 CellFlag.refine (cell2 0 (-3) 5), x.level ≠ 0 :=
  have h := @update_field_refine_adds_children 2 (by decide)
    ⟨0, 1, {cell2 0 (-3) 5}⟩ (fun _ => CellFlag.refine) (cell2 0 (-3) 5)
    (Finset.mem_singleton_self _) (by decide) (by decide)
  ⟨h.2.1, h.2.2.1⟩

/-- Every cell added for a leaf is one of its children (refine below `max_level`), its
parent (coarsen only above `min_level`) or the leaf itself. -/
theorem leaf_cells_cases {dim : Nat} (min_level max_level t : Nat) (c x : Cell dim)
    (hx : x ∈ leaf_cells min_level max_level t c) :
    (t &&& CellFlag.refine ≠ 0 ∧ c.level < max_level ∧ x ∈ c.children) ∨
      (t &&& CellFlag.refine = 0 ∧ t &&& CellFlag.keep = 0 ∧ min_level < c.level ∧
        x = c.parent) ∨
      x = c := by
  unfold leaf_cells at hx
  split_ifs at hx with h1 h2 h3 h4 h5
  · rw [refine_cells_eq_children] at hx
    exact Or.inl ⟨h1, h2, hx⟩
  · rw [add_point_eq, Finset.mem_singleton] at hx
    exact Or.inr (Or.inr hx)
  · rw [add_point_eq, Finset.mem_singleton] at hx
    exact Or.inr (Or.inr hx)
  · rw [add_point_eq, Finset.mem_singleton] at hx
    refine Or.inr (Or.inl ⟨not_not.mp h1, not_not.mp h3, h5, ?_⟩)
    rw [hx]
    simp only [Cell.parent, shift_index_eq, shiftRight_one]
  · rw [add_point_eq, Finset.mem_singleton] at hx
    exact Or.inr (Or.inr hx)
  · simp at hx

/-- The coarsen branch of the tag loop above `min_level` adds the parent of the leaf. -/
theorem leaf_cells_coarsen {dim : Nat} (min_level max_level t : Nat) (c : Cell dim)
    (hr : t &&& CellFlag.refine = 0) (hk : t &&& CellFlag.keep = 0)
    (hco : t &&& CellFlag.coarsen ≠ 0) (hl : min_level < c.level) :
    leaf_cells min_level max_level t c = {c.parent} := by
  unfold leaf_cells
  rw [if_neg (by simpa using hr), if_neg (by simpa using hk), if_pos hco, if_pos hl,
    add_point_eq]
  simp only [Cell.parent, shift_index_eq, shiftRight_one]

/-- A leaf tagged keep, without the refine bit, adds itself. -/
theorem leaf_cells_keep {dim : Nat} (min_level max_level t : Nat) (c : Cell dim)
    (hr : t &&& CellFlag.refine = 0) (hk : t &&& CellFlag.keep ≠ 0) :
    leaf_cells min_level max_level t c = {c} := by
  unfold leaf_cells
  rw [if_neg (by simpa using hr), if_pos hk, add_point_eq]

/-- A leaf tagged refine at or above `max_level` adds itself. -/
theorem leaf_cells_refine_top {dim : Nat} (min_level max_level t : Nat) (c : Cell dim)
    (hr : t &&& CellFlag.refine ≠ 0) (hl : ¬ c.level < max_level) :
    leaf_cells min_level max_level t c = {c} := by
  unfold leaf_cells
  rw [if_pos hr, if_neg hl, add_point_eq]

/-- A leaf tagged only coarsen at or below `min_level` adds itself. -/
theorem leaf_cells_coarsen_bottom {dim : Nat} (min_level max_level t : Nat) (c : Cell dim)
    (hr : t &&& CellFlag.refine = 0) (hk : t &&& CellFlag.keep = 0)
    (hco : t &&& CellFlag.coarsen ≠ 0) (hl : ¬ min_level < c.level) :
    leaf_cells min_level max_level t c = {c} := by
  unfold leaf_cells
  rw [if_neg (by simpa using hr), if_neg (by simpa using hk), if_pos hco,
    if_neg (by simpa using hl), add_point_eq]

/-- C2: in `update_field`, a leaf whose tag has the coarsen bit but neither the refine
nor the keep bit, at a level strictly above `min_level`, adds only its parent
`(level - 1, floor(i/2), floor(index/2))`, and that parent is the unique cell whose
children by index doubling include the leaf; the indices are arbitrary integers,
negative ones included. -/
theorem update_field_coarsen_adds_parent {dim : Nat} (mesh : Mesh dim)
    (tag : Cell dim → Nat) (c : Cell dim) (hc : c ∈ mesh.cells)
    (hr : tag c &&& CellFlag.refine = 0) (hk : tag c &&& CellFlag.keep = 0)
    (hco : tag c &&& CellFlag.coarsen ≠ 0) (hl : mesh.min_level < c.level) :
    leaf_cells mesh.min_level mesh.max_level (tag c) c =
        {(⟨c.level - 1, c.i / 2, fun k => c.index k / 2⟩ : Cell dim)} ∧
      (∀ p : Cell dim, c ∈ p.children ↔
        p = (⟨c.level - 1, c.i / 2, fun k => c.index k / 2⟩ : Cell dim)) ∧
      (⟨c.level - 1, c.i / 2, fun k => c.index k / 2⟩ : Cell dim) ∈ candidate_cells mesh tag := by
  have h := leaf_cells_coarsen mesh.min_level mesh.max_level (tag c) c hr hk hco hl
  refine ⟨h, fun p => parent_unique c p (by omega), ?_⟩
  refine Finset.mem_biUnion.mpr ⟨c, hc, ?_⟩
  rw [h]
  exact Finset.mem_singleton_self _

/-- The witness of C2: the leaf `(1, -3, -5)` of a two-dimensional mesh with levels
`0..1`, tagged coarsen, adds its parent `(0, -2, -3)`. -/
theorem update_field_coarsen_adds_parent_witness :
    leaf_cells 0 1 CellFlag.coarsen (cell2 1 (-3) (-5)) =
        {(⟨0, -3 / 2, fun k => (cell2 1 (-3) (-5)).index k / 2⟩ : Cell 2)} ∧
      cell2 1 (-3) (-5) ∈ (cell2 0 (-2) (-3)).children :=
  have h := @update_field_coarsen_adds_parent 2
    ⟨0, 1, {cell2 1 (-3) (-5)}⟩ (fun _ => CellFlag.coarsen) (cell2 1 (-3) (-5))
    (Finset.mem_singleton_self _) (by decide) (by decide) (by decide) (by decide)
  ⟨h.1, (h.2.1 (cell2 0 (-2) (-3))).mpr (by decide)⟩

/-- C3: in `update_field`, a leaf at `max_level` tagged refine and a leaf at `min_level`
tagged only coarsen each add exactly what the same leaf tagged keep adds, the cell
itself at its own level; the tag loop is a total function, no error is raised. -/
theorem update_field_degenerate_is_keep {dim : Nat} (mesh : Mesh dim) (t : Nat)
    (c : Cell dim) :
    (t &&& CellFlag.refine ≠ 0 → c.level = mesh.max_level →
        leaf_cells mesh.min_level mesh.max_level t c =
            leaf_cells mesh.min_level mesh.max_level CellFlag.keep c ∧
          leaf_cells mesh.min_level mesh.max_level t c = {c}) ∧
      (t &&& CellFlag.refine = 0 → t &&& CellFlag.keep = 0 → t &&& CellFlag.coarsen ≠ 0 →
        c.level = mesh.min_level →
        leaf_cells mesh.min_level mesh.max_level t c =
            leaf_cells mesh.min_level mesh.max_level CellFlag.keep c ∧
          leaf_cells mesh.min_level mesh.max_level t c = {c}) := by
  have hkeep : leaf_cells mesh.min_level mesh.max_level CellFlag.keep c = {c} :=
    leaf_cells_keep _ _ _ c (by decide) (by decide)
  constructor
  · intro ht hl
    have h := leaf_cells_refine_top mesh.min_level mesh.max_level t c ht (by omega)
    exact ⟨h.trans hkeep.symm, h⟩
  · intro hr hk hco hl
    have h := leaf_cells_coarsen_bottom mesh.min_level mesh.max_level t c hr hk hco (by omega)
    exact ⟨h.trans hkeep.symm, h⟩

/-- The witness of C3: with levels `0..1`, the leaf `(1, 4)` tagged refine and the leaf
`(0, 4)` tagged coarsen are kept as they are. -/
theorem update_field_degenerate_is_keep_witness :
    leaf_cells 0 1 CellFlag.refine (cell1 1 4) = {cell1 1 4} ∧
      leaf_cells 0 1 CellFlag.coarsen (cell1 0 4) = {cell1 0 4} :=
  ⟨((update_field_degenerate_is_keep ⟨0, 1, ∅⟩ CellFlag.refine (cell1 1 4)).1
      (by decide) rfl).2,
    ((update_field_degenerate_is_keep ⟨0, 1, ∅⟩ CellFlag.coarsen (cell1 0 4)).2
      (by decide) (by decide) (by decide) rfl).2⟩

/-- C4: when every leaf of the mesh lies at a level of `[min_level, max_level]`, so does
every cell of the candidate cell list built by `update_field`, whatever the tags. -/
theorem update_field_levels_bounded {dim : Nat} (mesh : Mesh dim)
    (hmesh : ∀ c ∈ mesh.cells, mesh.min_level ≤ c.level ∧ c.level ≤ mesh.max_level)
    (tag : Cell dim → Nat) :
    ∀ x ∈ candidate_cells mesh tag, mesh.min_level ≤ x.level ∧ x.level ≤ mesh.max_level := by
  intro x hx
  obtain ⟨c, hc, hxc⟩ := Finset.mem_biUnion.mp hx
  have hcl := hmesh c hc
  rcases leaf_cells_cases _ _ _ c x hxc with ⟨_, h2, h3⟩ | ⟨_, _, h3, h4⟩ | h
  · rw [mem_children] at h3
    omega
  · rw [h4]
    simp only [Cell.parent]
    omega
  · rw [h]
    exact hcl

/-- The witness of C4: a one-dimensional mesh with levels `0..1` and the leaves `(0, 0)`
and `(1, 2)`, the first tagged refine and the second coarsen. -/
theorem update_field_levels_bounded_witness :
    (∀ c ∈ (⟨0, 1, {cell1 0 0, cell1 1 2}⟩ : Mesh 1).cells, 0 ≤ c.level ∧ c.level ≤ 1) ∧
      ∀ x ∈ candidate_cells (⟨0, 1, {cell1 0 0, cell1 1 2}⟩ : Mesh 1)
          (fun c => if c.level = 0 then CellFlag.refine else CellFlag.coarsen),
        0 ≤ x.level ∧ x.level ≤ 1 :=
  ⟨by decide,
    update_field_levels_bounded (⟨0, 1, {cell1 0 0, cell1 1 2}⟩ : Mesh 1) (by decide) _⟩

/-! ## The convergence test of `update_field` -/

/-- The candidate mesh compares equal to the current mesh exactly when the candidate
cell list is the set of the current leaves: the level bounds are copied and every other
role is computed from the leaves. -/
theorem mesh_eq_candidate_iff {dim : Nat} (M : MeshModel dim) (mesh : Mesh dim)
    (tag : Cell dim → Nat) :
    M.mesh_eq mesh (candidate_mesh mesh tag) = true ↔ candidate_cells mesh tag = mesh.cells := by
  unfold MeshModel.mesh_eq
  rw [decide_eq_true_iff]
  constructor
  · intro h
    exact h.1.symm
  · intro h
    have hm : candidate_mesh mesh tag = mesh := by
      cases mesh
      simp only [candidate_mesh, Mesh.mk.injEq, true_and]
      exact h
    rw [hm]
    exact ⟨rfl, rfl, rfl⟩

/-- C5: `update_field` returns true if and only if the candidate mesh built from the tags
equals the current mesh; when it returns true the mesh, the tag and every field are left
as they were, and when it returns false the mesh bound to the tag is the candidate mesh. -/
theorem update_field_converged_iff {dim : Nat} {α : Type} [Zero α] (M : MeshModel dim)
    (T : Transfer dim α) (s : State dim α) :
    ((update_field M T s).1 = true ↔
        M.mesh_eq s.mesh (candidate_mesh s.mesh s.tag.data) = true) ∧
      ((update_field M T s).1 = true ↔ candidate_mesh s.mesh s.tag.data = s.mesh) ∧
      ((update_field M T s).1 = true → (update_field M T s).2 = s) ∧
      ((update_field M T s).1 = false →
        (update_field M T s).2.mesh = candidate_mesh s.mesh s.tag.data) := by
  have hiff : M.mesh_eq s.mesh (candidate_mesh s.mesh s.tag.data) = true ↔
      candidate_mesh s.mesh s.tag.data = s.mesh := by
    rw [mesh_eq_candidate_iff]
    constructor
    · intro h
      cases hs : s.mesh
      rw [hs] at h
      simp only [candidate_mesh, Mesh.mk.injEq, true_and]
      exact h
    · intro h
      exact congrArg Mesh.cells h
  by_cases h : M.mesh_eq s.mesh (candidate_mesh s.mesh s.tag.data) = true
  · have hu : update_field M T s = (true, s) := by
      unfold update_field
      simp only [h, if_true]
    rw [hu]
    exact ⟨by simp [h], by simp [hiff.mp h], fun _ => rfl, by simp⟩
  · have hu : update_field M T s =
        (false, { mesh := candidate_mesh s.mesh s.tag.data, tag := s.tag,
                  fields := s.fields.map
                    (update_fields M T s.mesh (candidate_mesh s.mesh s.tag.data)) }) := by
      unfold update_field
      simp only [h, if_false]
      rfl
    rw [hu]
    refine ⟨by simp [h], ?_, by simp, fun _ => rfl⟩
    simp only [Bool.false_eq_true, false_iff]
    exact fun hc => h (hiff.mpr hc)

/-- C6: when every leaf is at `min_level` and every leaf is tagged coarsen only,
`update_field` builds a candidate cell list equal to the current leaves and returns true,
leaving the mesh and the fields unchanged. -/
theorem update_field_all_coarsen_at_min {dim : Nat} {α : Type} [Zero α] (M : MeshModel dim)
    (T : Transfer dim α) (s : State dim α)
    (hmin : ∀ c ∈ s.mesh.cells, c.level = s.mesh.min_level)
    (htag : ∀ c ∈ s.mesh.cells, s.tag.data c &&& CellFlag.refine = 0 ∧
      s.tag.data c &&& CellFlag.keep = 0 ∧ s.tag.data c &&& CellFlag.coarsen ≠ 0) :
    candidate_cells s.mesh s.tag.data = s.mesh.cells ∧ update_field M T s = (true, s) := by
  have hcells : candidate_cells s.mesh s.tag.data = s.mesh.cells := by
    unfold candidate_cells
    have hleaf : ∀ c ∈ s.mesh.cells,
        leaf_cells s.mesh.min_level s.mesh.max_level (s.tag.data c) c = {c} := by
      intro c hc
      obtain ⟨h1, h2, h3⟩ := htag c hc
      exact leaf_cells_coarsen_bottom _ _ _ c h1 h2 h3 (by rw [hmin c hc]; omega)
    rw [Finset.biUnion_congr rfl hleaf]
    exact Finset.biUnion_singleton_eq_self
  refine ⟨hcells, ?_⟩
  unfold update_field
  simp only [(mesh_eq_candidate_iff M s.mesh s.tag.data).mpr hcells, if_true]

/-- The witness of C6: a one-dimensional mesh with levels `0..2` whose leaves `(0, 0)`
and `(0, 1)` are both tagged coarsen. -/
theorem update_field_all_coarsen_at_min_witness :
    update_field (leaves_only 1) (copy_transfer 1)
        { mesh := ⟨0, 2, {cell1 0 0, cell1 0 1}⟩
          tag := ⟨1, 2, fun _ => CellFlag.coarsen⟩
          fields := [⟨1, 2, fun c => c.i⟩] } =
      (true,
        { mesh := ⟨0, 2, {cell1 0 0, cell1 0 1}⟩
          tag := ⟨1, 2, fun _ => CellFlag.coarsen⟩
          fields := [⟨1, 2, fun c => c.i⟩] }) :=
  (update_field_all_coarsen_at_min (leaves_only 1) (copy_transfer 1)
    { mesh := ⟨0, 2, {cell1 0 0, cell1 0 1}⟩
      tag := ⟨1, 2, fun _ => CellFlag.coarsen⟩
      fields := [⟨1, 2, fun c => c.i⟩] }
    (by decide) (by decide)).2

/-! ## The transfer of the fields -/

theorem mem_levels (a b level : Nat) : level ∈ levels a b ↔ a ≤ level ∧ level ≤ b := by
  unfold levels
  rw [List.mem_range'_1]
  omega

/-- A sequence of writes of the same values: a cell holds the written value as soon as
one of the regions contains it. -/
theorem foldl_write_eq {dim : Nat} {α : Type} (S : Nat → CellArray dim) (v : Cell dim → α)
    (ls : List Nat) (g : Cell dim → α) (x : Cell dim) (l : Nat) (hl : l ∈ ls) (hx : x ∈ S l) :
    ls.foldl (fun new_field level => write new_field (S level) v) g x = v x := by
  induction ls generalizing g with
  | nil => simp at hl
  | cons a ls ih =>
    rw [List.foldl_cons]
    by_cases hmem : l ∈ ls
    · exact ih _ hmem
    · have hla : l = a := by
        rcases List.mem_cons.mp hl with h | h
        · exact h
        · exact absurd h hmem
      subst hla
      have hkeep : ∀ (ls2 : List Nat) (g2 : Cell dim → α), g2 x = v x →
          ls2.foldl (fun new_field level => write new_field (S level) v) g2 x = v x := by
        intro ls2
        induction ls2 with
        | nil => intro g2 h; exact h
        | cons b ls2 ih2 =>
          intro g2 h
          rw [List.foldl_cons]
          apply ih2
          unfold write
          split_ifs
          · rfl
          · exact h
      apply hkeep
      unfold write
      rw [if_pos hx]

/-- A sequence of transfer steps leaves a cell alone when no projection region and no
prediction footprint contains it. -/
theorem foldl_transfer_untouched {dim : Nat} {α : Type} (T : Transfer dim α)
    (mesh new_mesh : Mesh dim) (src : Cell dim → α) (x : Cell dim) (ls : List Nat)
    (g : Cell dim → α)
    (h : ∀ level ∈ ls, x ∉ set_coarsen mesh new_mesh level ∧
      x ∉ (set_refine mesh new_mesh level).biUnion Cell.children) :
    ls.foldl (transfer_step T mesh new_mesh src) g x = g x := by
  induction ls generalizing g with
  | nil => rfl
  | cons a ls ih =>
    rw [List.foldl_cons, ih _ (fun level hl => h level (List.mem_cons_of_mem _ hl))]
    obtain ⟨h1, h2⟩ := h a (List.mem_cons_self _ _)
    unfold transfer_step write
    rw [if_neg h2, if_neg h1]

theorem ancestor_one {dim : Nat} (c : Cell dim) : c.ancestor 1 = c.parent := rfl

/-- In a non-overlapping cell array no cell is the parent of another one. -/
theorem parent_not_mem_of_non_overlapping {dim : Nat} (ca : CellArray dim)
    (hno : non_overlapping ca) (y : Cell dim) (hy : y ∈ ca) (hl : 0 < y.level) :
    y.parent ∉ ca := by
  intro hp
  have hc : (y.parent).contains y := by
    refine ⟨by simp only [Cell.parent]; omega, ?_⟩
    have hd : y.level - (y.parent).level = 1 := by
      simp only [Cell.parent]
      omega
    rw [hd, ancestor_one]
  have heq := hno y.parent hp y hy (Or.inl hc)
  have hlev : (y.parent).level = y.level := congrArg Cell.level heq
  simp only [Cell.parent] at hlev
  omega

/-- C9: in `detail::update_fields`, when the leaves of the old mesh are pairwise
non-overlapping, every cell that is a leaf at the same level of the mesh (a level of
`[min_level, max_level]`) in both the old and the new mesh holds in the migrated field
the value it held in the old field: the copy is made and neither the projection nor the
prediction pass overwrites it. -/
theorem update_fields_preserves_common_leaves {dim : Nat} {α : Type} [Zero α]
    (M : MeshModel dim) (T : Transfer dim α) (mesh new_mesh : Mesh dim) (field : Field dim α)
    (hno : non_overlapping mesh.cells) (x : Cell dim)
    (hx : x ∈ mesh.cells) (hnew : x ∈ new_mesh.cells)
    (hlev : mesh.min_level ≤ x.level ∧ x.level ≤ mesh.max_level) :
    (update_fields M T mesh new_mesh field).data x = field.data x := by
  unfold update_fields
  simp only
  rw [foldl_transfer_untouched]
  · unfold copy_pass
    apply foldl_write_eq (fun level => copy_set M mesh new_mesh level) field.data _ _ x x.level
    · exact (mem_levels _ _ _).mpr hlev
    · simp only [copy_set, at_level, MeshModel.reference, Finset.mem_inter, Finset.mem_filter,
        Finset.mem_union]
      exact ⟨⟨Or.inl hx, trivial⟩, hnew, trivial⟩
  · intro level hlevel
    have hpos : 0 < level := by
      have := (mem_levels _ _ _).mp hlevel
      omega
    constructor
    · intro hmem
      simp only [set_coarsen, intersection_on_coarser, at_level, Finset.mem_image,
        Finset.mem_filter] at hmem
      obtain ⟨y, ⟨⟨hy, hyl⟩, _⟩, hyx⟩ := hmem
      rw [on_coarser_eq_parent] at hyx
      have := parent_not_mem_of_non_overlapping mesh.cells hno y hy (by omega)
      rw [hyx] at this
      exact this hx
    · intro hmem
      simp only [Finset.mem_biUnion] at hmem
      obtain ⟨c, hc, hxc⟩ := hmem
      simp only [set_refine, intersection_on_coarser, at_level, Finset.mem_image,
        Finset.mem_filter] at hc
      obtain ⟨z, ⟨_, hz⟩, hzc⟩ := hc
      rw [hzc] at hz
      have hxl : 0 < x.level := by
        rw [mem_children] at hxc
        omega
      have hcp : c = x.parent := (parent_unique x c hxl).mp hxc
      have := parent_not_mem_of_non_overlapping mesh.cells hno x hx hxl
      rw [← hcp] at this
      exact this hz.1

/-- The witness of C9: the leaf `(0, 1)` stays while the leaf `(0, 0)` is refined into
`(1, 0)` and `(1, 1)`; the migrated field holds at `(0, 1)` the old value. -/
theorem update_fields_preserves_common_leaves_witness :
    (update_fields (leaves_only 1) (copy_transfer 1)
        ⟨0, 1, {cell1 0 0, cell1 0 1}⟩ ⟨0, 1, {cell1 1 0, cell1 1 1, cell1 0 1}⟩
        ⟨1, 2, fun c => c.i + 7⟩).data (cell1 0 1) = 1 + 7 :=
  update_fields_preserves_common_leaves (leaves_only 1) (copy_transfer 1)
    ⟨0, 1, {cell1 0 0, cell1 0 1}⟩ ⟨0, 1, {cell1 1 0, cell1 1 1, cell1 0 1}⟩
    ⟨1, 2, fun c => c.i + 7⟩ (by decide) (cell1 0 1) (by decide) (by decide) (by decide)

/-! ## The buffers after a mesh replacement -/

/-- When `update_field` does not converge, it leaves the candidate mesh, the tag field
untouched and the fields rebuilt by `detail::update_fields`. -/
theorem update_field_of_not_converged {dim : Nat} {α : Type} [Zero α] (M : MeshModel dim)
    (T : Transfer dim α) (s : State dim α) (h : (update_field M T s).1 = false) :
    (update_field M T s).2 =
      { mesh := candidate_mesh s.mesh s.tag.data
        tag := s.tag
        fields := s.fields.map (update_fields M T s.mesh (candidate_mesh s.mesh s.tag.data)) } := by
  unfold update_field at h ⊢
  by_cases hc : M.mesh_eq s.mesh (candidate_mesh s.mesh s.tag.data) = true
  · simp [hc] at h
  · simp only [hc, if_false]
    rfl

/-- The counterexample to C10: on `single_refine_state` the call returns false and
installs a mesh of two cells, while the buffer of the tag field still has the single
value it had for the one-cell mesh. -/
theorem update_field_tag_buffer_stale :
    single_refine_state.tag.size =
        (leaves_only 1).nb_cells single_refine_state.mesh * single_refine_state.tag.n_comp ∧
      (update_field (leaves_only 1) (copy_transfer 1) single_refine_state).1 = false ∧
      (update_field (leaves_only 1) (copy_transfer 1) single_refine_state).2.tag.size ≠
        (leaves_only 1).nb_cells
            (update_field (leaves_only 1) (copy_transfer 1) single_refine_state).2.mesh *
          (update_field (leaves_only 1) (copy_transfer 1) single_refine_state).2.tag.n_comp := by
  decide

/-- C10, amended: after `update_field` returns false, every field passed to the call has
a value buffer whose length is the cell count of the new mesh times its component count;
the tag field is left as it was, its buffer keeps the length it had before the call. -/
theorem update_field_resizes_passed_fields {dim : Nat} {α : Type} [Zero α]
    (M : MeshModel dim) (T : Transfer dim α) (s : State dim α)
    (h : (update_field M T s).1 = false) :
    (∀ f ∈ (update_field M T s).2.fields,
        f.size = M.nb_cells (update_field M T s).2.mesh * f.n_comp) ∧
      (update_field M T s).2.fields.length = s.fields.length ∧
      (update_field M T s).2.tag = s.tag := by
  rw [update_field_of_not_converged M T s h]
  refine ⟨?_, by simp, rfl⟩
  intro f hf
  simp only [List.mem_map] at hf
  obtain ⟨g, _, rfl⟩ := hf
  rfl

/-- The witness of C10 amended: on `single_refine_state` the field passed to the call
ends with a buffer of two values, one per cell of the new mesh. -/
theorem update_field_resizes_passed_fields_witness :
    (∀ f ∈ (update_field (leaves_only 1) (copy_transfer 1) single_refine_state).2.fields,
        f.size = 2 * f.n_comp) ∧
      (update_field (leaves_only 1) (copy_transfer 1) single_refine_state).2.tag.size = 1 :=
  have h := update_field_resizes_passed_fields (leaves_only 1) (copy_transfer 1)
    single_refine_state (by decide)
  ⟨h.1, congrArg Field.size h.2.2⟩

/-! ## Repeated adaptation -/

theorem candidate_mesh_eq_iff {dim : Nat} (mesh : Mesh dim) (tag : Cell dim → Nat) :
    candidate_mesh mesh tag = mesh ↔ candidate_cells mesh tag = mesh.cells := by
  constructor
  · intro h
    exact congrArg Mesh.cells h
  · intro h
    cases mesh
    simp only [candidate_mesh, Mesh.mk.injEq, true_and]
    exact h

/-- The boolean returned by an adaptation step. -/
theorem adapt_step_fst {dim : Nat} {α : Type} [Zero α] (M : MeshModel dim)
    (T : Transfer dim α) (criterion : Cell dim → Nat) (s : State dim α) :
    (adapt_step M T criterion s).1 = M.mesh_eq s.mesh (candidate_mesh s.mesh criterion) := by
  unfold adapt_step update_field
  simp only
  split_ifs with h
  · exact h.symm
  · simpa using h

/-- The mesh left by an adaptation step is the candidate mesh: it is installed when the
step does not converge and equals the current mesh when it does. -/
theorem adapt_step_mesh {dim : Nat} {α : Type} [Zero α] (M : MeshModel dim)
    (T : Transfer dim α) (criterion : Cell dim → Nat) (s : State dim α) :
    (adapt_step M T criterion s).2.mesh = candidate_mesh s.mesh criterion := by
  unfold adapt_step update_field
  simp only
  split_ifs with h
  · exact ((candidate_mesh_eq_iff _ _).mpr ((mesh_eq_candidate_iff M _ _).mp h)).symm
  · rfl

/-- The counterexample to C8: under the fixed criterion `refine_then_coarsen` the mesh of
`single_refine_state`, whose levels are `0..1`, alternates between the leaf `(0, 0)` and
its two children, and no call of `update_field` ever returns true. -/
theorem update_field_oscillates :
    (∀ c ∈ single_refine_state.mesh.cells,
        single_refine_state.mesh.min_level ≤ c.level ∧
          c.level ≤ single_refine_state.mesh.max_level) ∧
      ∀ n, adapt_converged (leaves_only 1) (copy_transfer 1) refine_then_coarsen
        single_refine_state n = false := by
  refine ⟨by decide, ?_⟩
  have hmesh : ∀ n,
      (adapt_state (leaves_only 1) (copy_transfer 1) refine_then_coarsen
          single_refine_state n).mesh = ⟨0, 1, {cell1 0 0}⟩ ∨
        (adapt_state (leaves_only 1) (copy_transfer 1) refine_then_coarsen
          single_refine_state n).mesh = ⟨0, 1, {cell1 1 0, cell1 1 1}⟩ := by
    intro n
    induction n with
    | zero => exact Or.inl rfl
    | succ n ih =>
      simp only [adapt_state]
      rw [adapt_step_mesh]
      rcases ih with h | h
      · rw [h]
        exact Or.inr (by decide)
      · rw [h]
        exact Or.inl (by decide)
  intro n
  unfold adapt_converged
  rw [adapt_step_fst]
  rcases hmesh n with h | h
  · rw [h]
    decide
  · rw [h]
    decide

/-- The cells that a leaf adds, branch by branch of the tag loop: the children of a leaf
tagged refine below `max_level`, the parent of a leaf classified as coarsen above
`min_level`, and in the other branches that add a cell the leaf itself. -/
theorem leaf_cells_branch {dim : Nat} (min_level max_level t : Nat) (c x : Cell dim)
    (hx : x ∈ leaf_cells min_level max_level t c) :
    (t &&& CellFlag.refine ≠ 0 ∧ c.level < max_level ∧ x ∈ c.children) ∨
      (t &&& CellFlag.refine = 0 ∧ t &&& CellFlag.keep = 0 ∧ t &&& CellFlag.coarsen ≠ 0 ∧
        min_level < c.level ∧ x = c.parent) ∨
      (x = c ∧ (t &&& CellFlag.refine ≠ 0 → ¬ c.level < max_level) ∧
        (t &&& CellFlag.refine = 0 → t &&& CellFlag.keep = 0 → ¬ min_level < c.level)) := by
  by_cases hr : t &&& CellFlag.refine ≠ 0
  · by_cases hl : c.level < max_level
    · unfold leaf_cells at hx
      rw [if_pos hr, if_pos hl, refine_cells_eq_children] at hx
      exact Or.inl ⟨hr, hl, hx⟩
    · rw [leaf_cells_refine_top _ _ _ c hr hl, Finset.mem_singleton] at hx
      exact Or.inr (Or.inr ⟨hx, fun _ => hl, fun h => absurd h hr⟩)
  · have hr0 : t &&& CellFlag.refine = 0 := not_not.mp hr
    by_cases hk : t &&& CellFlag.keep ≠ 0
    · rw [leaf_cells_keep _ _ _ c hr0 hk, Finset.mem_singleton] at hx
      exact Or.inr (Or.inr ⟨hx, fun h => absurd hr0 h, fun _ h => absurd h hk⟩)
    · have hk0 : t &&& CellFlag.keep = 0 := not_not.mp hk
      by_cases hco : t &&& CellFlag.coarsen ≠ 0
      · by_cases hl : min_level < c.level
        · rw [leaf_cells_coarsen _ _ _ c hr0 hk0 hco hl, Finset.mem_singleton] at hx
          exact Or.inr (Or.inl ⟨hr0, hk0, hco, hl, hx⟩)
        · rw [leaf_cells_coarsen_bottom _ _ _ c hr0 hk0 hco hl, Finset.mem_singleton] at hx
          exact Or.inr (Or.inr ⟨hx, fun h => absurd hr0 h, fun _ _ => hl⟩)
      · unfold leaf_cells at hx
        rw [if_neg hr, if_neg hk, if_neg hco] at hx
        exact absurd hx (Finset.not_mem_empty x)

/-- Under a criterion that never asks to refine a leaf met in the iteration and to coarsen
one of its children, after `n` adaptation steps the level bounds are those of the start, the leaves lie within
them, every leaf that the next step would refine lies at least `n` levels above
`min_level` and every leaf that it would coarsen at least `n` levels below `max_level`. -/
theorem adapt_state_levels {dim : Nat} {α : Type} [Zero α] (M : MeshModel dim)
    (T : Transfer dim α) (criterion : Cell dim → Nat) (s : State dim α)
    (hlev : ∀ c ∈ s.mesh.cells, s.mesh.min_level ≤ c.level ∧ c.level ≤ s.mesh.max_level)
    (hcons : ∀ n, ∀ c ∈ (adapt_state M T criterion s n).mesh.cells,
      c.level < s.mesh.max_level → criterion c &&& CellFlag.refine ≠ 0 → ∀ x ∈ c.children,
      criterion x &&& CellFlag.refine ≠ 0 ∨ criterion x &&& CellFlag.keep ≠ 0 ∨
        criterion x &&& CellFlag.coarsen = 0)
    (n : Nat) :
    (adapt_state M T criterion s n).mesh.min_level = s.mesh.min_level ∧
      (adapt_state M T criterion s n).mesh.max_level = s.mesh.max_level ∧
      ∀ c ∈ (adapt_state M T criterion s n).mesh.cells,
        (s.mesh.min_level ≤ c.level ∧ c.level ≤ s.mesh.max_level) ∧
          (criterion c &&& CellFlag.refine ≠ 0 → c.level < s.mesh.max_level →
            s.mesh.min_level + n ≤ c.level) ∧
          (criterion c &&& CellFlag.refine = 0 → criterion c &&& CellFlag.keep = 0 →
            criterion c &&& CellFlag.coarsen ≠ 0 → s.mesh.min_level < c.level →
            c.level + n ≤ s.mesh.max_level) := by
  induction n with
  | zero =>
    refine ⟨rfl, rfl, ?_⟩
    intro c hc
    have h := hlev c hc
    exact ⟨h, fun _ _ => by omega, fun _ _ _ _ => by omega⟩
  | succ n ih =>
    obtain ⟨hmin, hmax, hcells⟩ := ih
    simp only [adapt_state]
    rw [adapt_step_mesh]
    refine ⟨hmin, hmax, ?_⟩
    intro x hx
    have hxs : x ∈ (adapt_state M T criterion s (n + 1)).mesh.cells := by
      simp only [adapt_state]
      rw [adapt_step_mesh]
      exact hx
    simp only [candidate_mesh, candidate_cells, Finset.mem_biUnion] at hx
    obtain ⟨c, hc, hxc⟩ := hx
    rw [hmin, hmax] at hxc
    obtain ⟨hcl, ha, hb⟩ := hcells c hc
    rcases leaf_cells_branch _ _ _ c x hxc with ⟨hr, hl, hch⟩ | ⟨hr0, hk0, hco, hl, hxp⟩ |
      ⟨hxe, h1, h2⟩
    · have hxl : x.level = c.level + 1 := ((mem_children c x).mp hch).1
      have hn := ha hr hl
      refine ⟨⟨by omega, by omega⟩, fun _ _ => by omega, ?_⟩
      intro hxr hxk hxco _
      rcases hcons n c hc hl hr x hch with h | h | h
      · exact absurd hxr h
      · exact absurd hxk h
      · exact absurd h hxco
    · have hxl : x.level = c.level - 1 := by rw [hxp]; rfl
      have hn := hb hr0 hk0 hco hl
      refine ⟨⟨by omega, by omega⟩, ?_, fun _ _ _ _ => by omega⟩
      intro hxr hxlt
      have hchild : c ∈ x.children := by
        rw [hxp]
        exact (parent_unique c c.parent (by omega)).mpr rfl
      rcases hcons (n + 1) x hxs hxlt hxr c hchild with h | h | h
      · exact absurd hr0 h
      · exact absurd hk0 h
      · exact absurd h hco
    · rw [hxe]
      exact ⟨hcl, fun hr hl => absurd hl (h1 hr), fun hr0 hk0 _ hl => absurd hl (h2 hr0 hk0)⟩

/-- Under such a criterion, from `max_level - min_level` steps on a leaf adds itself, or
nothing when its tag has none of the three bits. -/
theorem adapt_state_settled {dim : Nat} {α : Type} [Zero α] (M : MeshModel dim)
    (T : Transfer dim α) (criterion : Cell dim → Nat) (s : State dim α)
    (hlev : ∀ c ∈ s.mesh.cells, s.mesh.min_level ≤ c.level ∧ c.level ≤ s.mesh.max_level)
    (hcons : ∀ n, ∀ c ∈ (adapt_state M T criterion s n).mesh.cells,
      c.level < s.mesh.max_level → criterion c &&& CellFlag.refine ≠ 0 → ∀ x ∈ c.children,
      criterion x &&& CellFlag.refine ≠ 0 ∨ criterion x &&& CellFlag.keep ≠ 0 ∨
        criterion x &&& CellFlag.coarsen = 0)
    (n : Nat) (hn : s.mesh.max_level - s.mesh.min_level ≤ n) :
    ∀ c ∈ (adapt_state M T criterion s n).mesh.cells,
      ∀ x ∈ leaf_cells (adapt_state M T criterion s n).mesh.min_level
          (adapt_state M T criterion s n).mesh.max_level (criterion c) c,
        x = c ∧
          leaf_cells (adapt_state M T criterion s n).mesh.min_level
            (adapt_state M T criterion s n).mesh.max_level (criterion c) c = {c} := by
  obtain ⟨hmin, hmax, hcells⟩ := adapt_state_levels M T criterion s hlev hcons n
  intro c hc x hx
  rw [hmin, hmax] at hx ⊢
  obtain ⟨hcl, ha, hb⟩ := hcells c hc
  rcases leaf_cells_branch _ _ _ c x hx with ⟨hr, hl, _⟩ | ⟨hr0, hk0, hco, hl, _⟩ |
    ⟨hxe, _, _⟩
  · have := ha hr hl
    omega
  · have := hb hr0 hk0 hco hl
    omega
  · refine ⟨hxe, ?_⟩
    rw [hxe] at hx
    apply Finset.Subset.antisymm
    · intro y hy
      rcases leaf_cells_branch _ _ _ c y hy with ⟨hr, hl, _⟩ | ⟨hr0, hk0, hco, hl, _⟩ |
        ⟨hye, _, _⟩
      · have := ha hr hl
        omega
      · have := hb hr0 hk0 hco hl
        omega
      · exact Finset.mem_singleton.mpr hye
    · intro y hy
      rw [Finset.mem_singleton.mp hy]
      exact hx

/-- C8, amended: for every starting mesh whose leaves lie within
`[min_level, max_level]` and every fixed tagging criterion under which no leaf met in the
iteration below `max_level` is asked to refine while one of its children is asked to
coarsen (tagged coarsen without the refine or the keep bit) - so for every criterion that
never asks for a refinement, for every one that never asks for a coarsening, and for every
one that never asks both of a cell and of one of its children - iterating `update_field`
with the tags recomputed by the criterion, every call that follows at least
`max_level - min_level + 1` steps returns true; when every tag carries one of the three
bits, so does every call that follows at least `max_level - min_level` steps. -/
theorem update_field_consistent_converges {dim : Nat} {α : Type} [Zero α]
    (M : MeshModel dim) (T : Transfer dim α) (criterion : Cell dim → Nat) (s : State dim α)
    (hlev : ∀ c ∈ s.mesh.cells, s.mesh.min_level ≤ c.level ∧ c.level ≤ s.mesh.max_level)
    (hcons : ∀ n, ∀ c ∈ (adapt_state M T criterion s n).mesh.cells,
      c.level < s.mesh.max_level → criterion c &&& CellFlag.refine ≠ 0 → ∀ x ∈ c.children,
      criterion x &&& CellFlag.refine ≠ 0 ∨ criterion x &&& CellFlag.keep ≠ 0 ∨
        criterion x &&& CellFlag.coarsen = 0) :
    (∀ n, s.mesh.max_level - s.mesh.min_level + 1 ≤ n →
        adapt_converged M T criterion s n = true) ∧
      ((∀ c, criterion c &&& CellFlag.refine ≠ 0 ∨ criterion c &&& CellFlag.keep ≠ 0 ∨
          criterion c &&& CellFlag.coarsen ≠ 0) →
        ∀ n, s.mesh.max_level - s.mesh.min_level ≤ n →
          adapt_converged M T criterion s n = true) := by
  have hfix : ∀ n, s.mesh.max_level - s.mesh.min_level ≤ n →
      (∀ c ∈ (adapt_state M T criterion s n).mesh.cells,
        (leaf_cells (adapt_state M T criterion s n).mesh.min_level
          (adapt_state M T criterion s n).mesh.max_level (criterion c) c).Nonempty) →
      adapt_converged M T criterion s n = true := by
    intro n hn hne
    unfold adapt_converged
    rw [adapt_step_fst, mesh_eq_candidate_iff]
    unfold candidate_cells
    have hleaf : ∀ c ∈ (adapt_state M T criterion s n).mesh.cells,
        leaf_cells (adapt_state M T criterion s n).mesh.min_level
          (adapt_state M T criterion s n).mesh.max_level (criterion c) c = {c} := by
      intro c hc
      obtain ⟨x, hx⟩ := hne c hc
      exact (adapt_state_settled M T criterion s hlev hcons n hn c hc x hx).2
    rw [Finset.biUnion_congr rfl hleaf]
    exact Finset.biUnion_singleton_eq_self
  constructor
  · intro n hn
    obtain ⟨m, rfl⟩ : ∃ m, n = m + 1 := ⟨n - 1, by omega⟩
    apply hfix (m + 1) (by omega)
    intro x hx
    have hx2 : x ∈ (candidate_mesh (adapt_state M T criterion s m).mesh criterion).cells := by
      have h := adapt_step_mesh M T criterion (adapt_state M T criterion s m)
      simp only [adapt_state] at hx
      rwa [h] at hx
    simp only [candidate_mesh, candidate_cells, Finset.mem_biUnion] at hx2
    obtain ⟨c, hc, hxc⟩ := hx2
    obtain ⟨hxe, hself⟩ := adapt_state_settled M T criterion s hlev hcons m (by omega) c hc x hxc
    obtain ⟨hmin, hmax, -⟩ := adapt_state_levels M T criterion s hlev hcons m
    obtain ⟨hmin2, hmax2, -⟩ := adapt_state_levels M T criterion s hlev hcons (m + 1)
    rw [hmin2, hmax2, hxe]
    rw [hmin, hmax] at hself
    rw [hself]
    exact Finset.singleton_nonempty c
  · intro hbit n hn
    apply hfix n hn
    intro c hc
    obtain ⟨hmin, hmax, hcells⟩ := adapt_state_levels M T criterion s hlev hcons n
    obtain ⟨hcl, ha, hb⟩ := hcells c hc
    rw [hmin, hmax]
    by_cases hr : criterion c &&& CellFlag.refine ≠ 0
    · rw [leaf_cells_refine_top _ _ _ c hr (fun hl => by have := ha hr hl; omega)]
      exact Finset.singleton_nonempty c
    · have hr0 : criterion c &&& CellFlag.refine = 0 := not_not.mp hr
      by_cases hk : criterion c &&& CellFlag.keep ≠ 0
      · rw [leaf_cells_keep _ _ _ c hr0 hk]
        exact Finset.singleton_nonempty c
      · have hk0 : criterion c &&& CellFlag.keep = 0 := not_not.mp hk
        have hco : criterion c &&& CellFlag.coarsen ≠ 0 :=
          ((hbit c).resolve_left hr).resolve_left hk
        rw [leaf_cells_coarsen_bottom _ _ _ c hr0 hk0 hco
          (fun hl => by have := hb hr0 hk0 hco hl; omega)]
        exact Finset.singleton_nonempty c

/-- The witness of C8 amended: `fine_pair_state`, two leaves of level `1` with levels
`0..1`, under the criterion that tags every cell coarsen. The first call replaces the two
leaves by their parent and returns false, the second call returns true, and so does every
later call. On `single_refine_state`, under the criterion that tags every cell refine,
every call from the second on returns true. -/
theorem update_field_consistent_converges_witness :
    (∀ c ∈ fine_pair_state.mesh.cells,
        fine_pair_state.mesh.min_level ≤ c.level ∧ c.level ≤ fine_pair_state.mesh.max_level) ∧
      adapt_converged (leaves_only 1) (copy_transfer 1) (fun _ => CellFlag.coarsen)
        fine_pair_state 0 = false ∧
      adapt_converged (leaves_only 1) (copy_transfer 1) (fun _ => CellFlag.coarsen)
        fine_pair_state 1 = true ∧
      (∀ n, fine_pair_state.mesh.max_level - fine_pair_state.mesh.min_level ≤ n →
        adapt_converged (leaves_only 1) (copy_transfer 1) (fun _ => CellFlag.coarsen)
          fine_pair_state n = true) ∧
      ∀ n, single_refine_state.mesh.max_level - single_refine_state.mesh.min_level ≤ n →
        adapt_converged (leaves_only 1) (copy_transfer 1) (fun _ => CellFlag.refine)
          single_refine_state n = true :=
  ⟨by decide, by decide, by decide,
    (update_field_consistent_converges (leaves_only 1) (copy_transfer 1)
      (fun _ => CellFlag.coarsen) fine_pair_state (by decide)
      (fun _ _ _ _ h => absurd (show CellFlag.coarsen &&& CellFlag.refine = 0 by decide) h)).2
      (fun _ => Or.inr (Or.inr (show CellFlag.coarsen &&& CellFlag.coarsen ≠ 0 by decide))),
    (update_field_consistent_converges (leaves_only 1) (copy_transfer 1)
      (fun _ => CellFlag.refine) single_refine_state (by decide)
      (fun _ _ _ _ _ _ _ =>
        Or.inl (show CellFlag.refine &&& CellFlag.refine ≠ 0 by decide))).2
      (fun _ => Or.inl (show CellFlag.refine &&& CellFlag.refine ≠ 0 by decide))⟩

/-! ## Graduation of the installed mesh -/

/-- The counterexample to C7: the leaves `(1, 0)` and `(2, 2)` of `keep_beside_refine_state`
form a graduated mesh; `update_field` returns false and installs the leaves `(1, 0)`,
`(3, 4)` and `(3, 5)`, where `(1, 0)` touches `(3, 4)`, two levels finer. -/
theorem update_field_breaks_graduation :
    graduated keep_beside_refine_state.mesh.cells ∧
      (update_field (leaves_only 1) (copy_transfer 1) keep_beside_refine_state).1 = false ∧
      (update_field (leaves_only 1) (copy_transfer 1) keep_beside_refine_state).2.mesh.cells =
        {cell1 1 0, cell1 3 4, cell1 3 5} ∧
      touching (cell1 1 0) (cell1 3 4) ∧
      ¬ graduated
        (update_field (leaves_only 1) (copy_transfer 1) keep_beside_refine_state).2.mesh.cells := by
  decide

theorem touching_symm {dim : Nat} (a b : Cell dim) (h : touching a b) : touching b a := by
  unfold touching touching_axis at h ⊢
  exact ⟨⟨h.1.2, h.1.1⟩, fun k => ⟨(h.2 k).2, (h.2 k).1⟩⟩

/-- A cell array without a cell on the coarser side of a violation is graduated. -/
theorem graduated_of_too_coarse_empty {dim : Nat} (ca : CellArray dim)
    (h : too_coarse ca = ∅) : graduated ca := by
  intro a ha b hb hab
  have hnot : ∀ x ∈ ca, ∀ y ∈ ca, touching x y → ¬ x.level + 1 < y.level := by
    intro x hx y hy hxy hlt
    have hmem : x ∈ too_coarse ca :=
      Finset.mem_filter.mpr ⟨hx, y, hy, hxy, hlt⟩
    rw [h] at hmem
    exact absurd hmem (Finset.not_mem_empty x)
  have h1 := hnot a ha b hb hab
  have h2 := hnot b hb a ha (touching_symm a b hab)
  omega

/-- A cell array returned by the graduation is graduated. -/
theorem make_graduation_graduated {dim : Nat} (cap : Nat) (ca r : CellArray dim)
    (h : make_graduation cap ca = some r) : graduated r := by
  induction cap generalizing ca with
  | zero =>
    unfold make_graduation at h
    split_ifs at h with he
    rw [← Option.some.inj h]
    exact graduated_of_too_coarse_empty ca he
  | succ cap ih =>
    unfold make_graduation at h
    split_ifs at h with he
    · rw [← Option.some.inj h]
      exact graduated_of_too_coarse_empty ca he
    · exact ih _ h

theorem sum_union_le_add {dim : Nat} (f : Cell dim → Nat) (a b : CellArray dim) :
    (a ∪ b).sum f ≤ a.sum f + b.sum f := by
  have h : (a ∪ b).sum f + (a ∩ b).sum f = a.sum f + b.sum f := Finset.sum_union_inter
  omega

theorem sum_biUnion_le_sum {dim : Nat} (f : Cell dim → Nat) (v : CellArray dim)
    (t : Cell dim → CellArray dim) :
    (v.biUnion t).sum f ≤ v.sum fun c => (t c).sum f := by
  induction v using Finset.induction_on with
  | empty => simp
  | insert hc ih =>
    rw [Finset.biUnion_insert, Finset.sum_insert hc]
    exact (sum_union_le_add f _ _).trans (Nat.add_le_add_left ih _)

/-- The children of a cell at least one level below `L` weigh less than the cell. -/
theorem children_weight_lt {dim : Nat} (L : Nat) (c : Cell dim) (hl : c.level < L) :
    c.children.sum (graduation_weight L) < graduation_weight L c := by
  have hch : ∀ x ∈ c.children,
      graduation_weight L x = (2 ^ (dim - 1) * 2 + 1) ^ (L - (c.level + 1)) := by
    intro x hx
    rw [mem_children] at hx
    unfold graduation_weight
    rw [hx.1]
  rw [Finset.sum_congr rfl hch, Finset.sum_const, card_children_eq, smul_eq_mul]
  unfold graduation_weight
  have hsplit : L - c.level = (L - (c.level + 1)) + 1 := by omega
  rw [hsplit, pow_succ, Nat.mul_comm ((2 ^ (dim - 1) * 2 + 1) ^ (L - (c.level + 1)))]
  apply Nat.mul_lt_mul_of_pos_right
  · omega
  · exact pow_pos (by omega) _

/-- A sweep that refines a non-empty set of cells, all below `L`, lowers the measure. -/
theorem force_refine_measure_lt {dim : Nat} (L : Nat) (ca v : CellArray dim) (hsub : v ⊆ ca)
    (hne : v.Nonempty) (hl : ∀ c ∈ v, c.level < L) :
    graduation_measure L (force_refine ca v) < graduation_measure L ca := by
  unfold graduation_measure force_refine
  have h1 := sum_union_le_add (graduation_weight L) (ca \ v) (v.biUnion Cell.children)
  have h2 := sum_biUnion_le_sum (graduation_weight L) v Cell.children
  have h3 : (v.sum fun c => c.children.sum (graduation_weight L)) <
      v.sum (graduation_weight L) :=
    Finset.sum_lt_sum_of_nonempty hne fun c hc => children_weight_lt L c (hl c hc)
  have h4 : (ca \ v).sum (graduation_weight L) + v.sum (graduation_weight L) =
      ca.sum (graduation_weight L) := Finset.sum_sdiff hsub
  omega

theorem too_coarse_subset {dim : Nat} (ca : CellArray dim) : too_coarse ca ⊆ ca :=
  Finset.filter_subset _ _

theorem too_coarse_level {dim : Nat} (L : Nat) (ca : CellArray dim)
    (hL : ∀ c ∈ ca, c.level ≤ L) (c : Cell dim) (hc : c ∈ too_coarse ca) : c.level + 1 < L := by
  obtain ⟨_, b, hb, _, hlt⟩ := Finset.mem_filter.mp hc
  have := hL b hb
  omega

/-- The graduation returns a cell array as soon as the iteration cap is at least the
measure of its argument. -/
theorem make_graduation_returns {dim : Nat} (L cap : Nat) (ca : CellArray dim)
    (hL : ∀ c ∈ ca, c.level ≤ L) (hcap : graduation_measure L ca ≤ cap) :
    ∃ r, make_graduation cap ca = some r := by
  induction cap generalizing ca with
  | zero =>
    have hempty : too_coarse ca = ∅ := by
      by_contra hne
      obtain ⟨c, hc⟩ := Finset.nonempty_iff_ne_empty.mpr hne
      have hlt := force_refine_measure_lt L ca (too_coarse ca) (too_coarse_subset ca) ⟨c, hc⟩
        (fun x hx => by have := too_coarse_level L ca hL x hx; omega)
      omega
    exact ⟨ca, by unfold make_graduation; rw [if_pos hempty]⟩
  | succ cap ih =>
    unfold make_graduation
    by_cases hempty : too_coarse ca = ∅
    · exact ⟨ca, by rw [if_pos hempty]⟩
    · rw [if_neg hempty]
      obtain ⟨c, hc⟩ := Finset.nonempty_iff_ne_empty.mpr hempty
      have hlt := force_refine_measure_lt L ca (too_coarse ca) (too_coarse_subset ca) ⟨c, hc⟩
        (fun x hx => by have := too_coarse_level L ca hL x hx; omega)
      apply ih
      · intro x hx
        rcases Finset.mem_union.mp hx with h | h
        · exact hL x (Finset.mem_sdiff.mp h).1
        · obtain ⟨y, hy, hxy⟩ := Finset.mem_biUnion.mp h
          have := too_coarse_level L ca hL y hy
          rw [mem_children] at hxy
          omega
      · omega

/-- C7, amended: every mesh left in place by `update_field_mr`, whose candidate cell
array goes through `make_graduation`, is 2:1 graduated, for every starting mesh and
every tag assignment: two touching leaves differ by at most one level. The call does
return a result when the leaves are at most at `max_level` and the iteration cap of the
graduation is at least the measure of the re-tiled cell array. The function
`update_field` applies no graduation and is left out of the statement. -/
theorem update_field_mr_graduated {dim : Nat} {α : Type} [Zero α] (M : MeshModel dim)
    (T : Transfer dim α) (cap : Nat) (s : State dim α) :
    (∀ r, update_field_mr M T cap s = some r →
        ∀ a ∈ r.2.mesh.cells, ∀ b ∈ r.2.mesh.cells, touching a b →
          a.level ≤ b.level + 1 ∧ b.level ≤ a.level + 1) ∧
      ((∀ c ∈ s.mesh.cells, c.level ≤ s.mesh.max_level) →
        graduation_measure s.mesh.max_level (update_cell_array_from_tag s.mesh s.tag.data) ≤ cap →
        ∃ r, update_field_mr M T cap s = some r) := by
  constructor
  · intro r h
    unfold update_field_mr at h
    cases hg : make_graduation cap (update_cell_array_from_tag s.mesh s.tag.data) with
    | none =>
      rw [hg] at h
      simp at h
    | some new_ca =>
      rw [hg] at h
      have hgrad := make_graduation_graduated cap _ new_ca hg
      simp only at h
      split_ifs at h with he
      · have hcells : s.mesh.cells = new_ca := by
          unfold MeshModel.mesh_eq at he
          rw [decide_eq_true_iff] at he
          exact he.1
        rw [← Option.some.inj h]
        show graduated s.mesh.cells
        rw [hcells]
        exact hgrad
      · rw [← Option.some.inj h]
        exact hgrad
  · intro hlev hcap
    have hL : ∀ x ∈ update_cell_array_from_tag s.mesh s.tag.data,
        x.level ≤ s.mesh.max_level := by
      intro x hx
      obtain ⟨c, hc, hxc⟩ := Finset.mem_biUnion.mp hx
      have hcl := hlev c hc
      rcases leaf_cells_cases _ _ _ c x hxc with ⟨_, h2, h3⟩ | ⟨_, _, _, h4⟩ | h
      · rw [mem_children] at h3
        omega
      · rw [h4]
        simp only [Cell.parent]
        omega
      · rw [h]
        exact hcl
    obtain ⟨new_ca, hg⟩ := make_graduation_returns s.mesh.max_level cap _ hL hcap
    unfold update_field_mr
    rw [hg]
    simp only
    split_ifs
    · exact ⟨_, rfl⟩
    · exact ⟨_, rfl⟩

/-- The witness of C7 amended: on `keep_beside_refine_state`, with an iteration cap of
`400`, the graduation refines the leaf `(1, 0)` and `update_field_mr` installs the
graduated leaves `(2, 0)`, `(2, 1)`, `(3, 4)` and `(3, 5)`. -/
theorem update_field_mr_graduated_witness :
    (∃ r, update_field_mr (leaves_only 1) (copy_transfer 1) 400
        keep_beside_refine_state = some r) ∧
      ((update_field_mr (leaves_only 1) (copy_transfer 1) 400
          keep_beside_refine_state).get (by decide)).2.mesh.cells =
        {cell1 2 0, cell1 2 1, cell1 3 4, cell1 3 5} ∧
      ∀ a ∈ ((update_field_mr (leaves_only 1) (copy_transfer 1) 400
            keep_beside_refine_state).get (by decide)).2.mesh.cells,
        ∀ b ∈ ((update_field_mr (leaves_only 1) (copy_transfer 1) 400
            keep_beside_refine_state).get (by decide)).2.mesh.cells,
        touching a b → a.level ≤ b.level + 1 ∧ b.level ≤ a.level + 1 :=
  ⟨(update_field_mr_graduated (leaves_only 1) (copy_transfer 1) 400
      keep_beside_refine_state).2 (by decide) (by decide),
    by decide,
    (update_field_mr_graduated (leaves_only 1) (copy_transfer 1) 400
      keep_beside_refine_state).1 _ (Option.some_get _).symm⟩

/-! ## The order of the steps of `update_ghost_mr` -/

theorem levels_down_eq (a b : Nat) :
    levels_down a b = (List.range (a - b)).map fun k => a - k := by
  unfold levels_down
  have key : ∀ n c : Nat, (List.range' (c + 1) n).reverse =
      (List.range n).map fun k => c + n - k := by
    intro n
    induction n with
    | zero => intro c; rfl
    | succ n ih =>
      intro c
      rw [List.range'_concat, List.reverse_append, ih c, List.range_succ_eq_map]
      simp only [List.reverse_cons, List.reverse_nil, List.nil_append, List.singleton_append,
        List.map_cons, List.map_map, Nat.sub_zero, mul_one]
      refine congrArg₂ _ (by omega) ?_
      apply List.map_congr_left
      intro k _
      simp only [Function.comp]
      omega
  rw [key]
  apply List.map_congr_left
  intro k hk
  have := List.mem_range.mp hk
  omega

theorem mem_levels_down (a b level : Nat) : level ∈ levels_down a b ↔ b < level ∧ level ≤ a := by
  unfold levels_down
  rw [List.mem_reverse, List.mem_range'_1]
  omega

theorem projection_sweep_projections {dim : Nat} (mesh : GhostMesh dim) :
    (update_ghost_mr_projection_sweep mesh).filterMap GhostStep.projection_level =
      levels_down mesh.ref_max_level mesh.ref_min_level := by
  unfold update_ghost_mr_projection_sweep
  induction levels_down mesh.ref_max_level mesh.ref_min_level with
  | nil => rfl
  | cons a l ih =>
    rw [List.flatMap_cons, List.filterMap_append, ih]
    rfl

theorem projection_sweep_no_prediction {dim : Nat} (mesh : GhostMesh dim) :
    ∀ s ∈ update_ghost_mr_projection_sweep mesh, s.prediction_level = none := by
  intro s hs
  unfold update_ghost_mr_projection_sweep at hs
  obtain ⟨level, _, hs⟩ := List.mem_flatMap.mp hs
  simp only [List.mem_cons, List.mem_singleton, List.not_mem_nil, or_false] at hs
  rcases hs with rfl | rfl | rfl <;> rfl

theorem coarse_fill_plain {dim : Nat} (mesh : GhostMesh dim) :
    ∀ s ∈ update_ghost_mr_coarse_fill mesh,
      s.prediction_level = none ∧ s.projection_level = none := by
  intro s hs
  unfold update_ghost_mr_coarse_fill at hs
  rcases List.mem_append.mp hs with h | h
  · split_ifs at h
    · simp only [List.mem_cons, List.mem_singleton, List.not_mem_nil, or_false] at h
      rcases h with rfl | rfl | rfl <;> exact ⟨rfl, rfl⟩
    · simp at h
  · simp only [List.mem_cons, List.mem_singleton, List.not_mem_nil, or_false] at h
    rcases h with rfl | rfl | rfl <;> exact ⟨rfl, rfl⟩

theorem prediction_sweep_no_projection {dim : Nat} (mesh : GhostMesh dim) :
    ∀ s ∈ update_ghost_mr_prediction_sweep mesh, s.projection_level = none := by
  intro s hs
  unfold update_ghost_mr_prediction_sweep at hs
  obtain ⟨level, _, hs⟩ := List.mem_flatMap.mp hs
  simp only [List.mem_cons, List.mem_singleton, List.not_mem_nil, or_false] at hs
  rcases hs with rfl | rfl | rfl | rfl <;> rfl

theorem filterMap_eq_nil_of_forall {α β : Type} (g : α → Option β) (l : List α)
    (h : ∀ s ∈ l, g s = none) : l.filterMap g = [] := by
  induction l with
  | nil => rfl
  | cons a l ih =>
    rw [List.filterMap_cons, h a (List.mem_cons_self _ _)]
    exact ih fun s hs => h s (List.mem_cons_of_mem _ hs)

theorem level_on_coarser_region {dim : Nat} (fine coarse : CellArray dim) (level : Nat)
    (c : Cell dim) (hc : c ∈ intersection_on_coarser (at_level fine level) coarse) :
    c.level = level - 1 := by
  simp only [intersection_on_coarser, at_level, Finset.mem_image, Finset.mem_filter] at hc
  obtain ⟨x, ⟨⟨_, hx⟩, _⟩, rfl⟩ := hc
  simp only [Cell.on_coarser, hx]

/-- C14: in `update_ghost_mr` the projection is applied exactly once for each level
`max_level, max_level - 1, ..., min_level + 1`, in that decreasing order and at no other
level, each time from `level` into `level - 1`, and every projection comes before the
first prediction. -/
theorem update_ghost_mr_projection_order {dim : Nat} (mesh : GhostMesh dim) :
    (update_ghost_mr_steps mesh).filterMap GhostStep.projection_level =
        (List.range (mesh.ref_max_level - mesh.ref_min_level)).map
          (fun k => mesh.ref_max_level - k) ∧
      (∀ level region, GhostStep.projection level region ∈ update_ghost_mr_steps mesh →
        mesh.ref_min_level < level ∧ level ≤ mesh.ref_max_level ∧
          ∀ c ∈ region, c.level = level - 1) ∧
      ∃ before after, update_ghost_mr_steps mesh = before ++ after ∧
        (∀ s ∈ before, s.prediction_level = none) ∧
        (∀ s ∈ after, s.projection_level = none) := by
  refine ⟨?_, ?_, ?_⟩
  · unfold update_ghost_mr_steps
    rw [List.filterMap_append, List.filterMap_append, projection_sweep_projections,
      filterMap_eq_nil_of_forall _ _ (fun s hs => (coarse_fill_plain mesh s hs).2),
      filterMap_eq_nil_of_forall _ _ (prediction_sweep_no_projection mesh),
      List.append_nil, List.append_nil, levels_down_eq]
  · intro level region hmem
    unfold update_ghost_mr_steps at hmem
    rcases List.mem_append.mp hmem with h | h
    · unfold update_ghost_mr_projection_sweep at h
      obtain ⟨l, hl, hs⟩ := List.mem_flatMap.mp h
      simp only [List.mem_cons, List.mem_singleton, List.not_mem_nil, or_false,
        GhostStep.projection.injEq, false_or, reduceCtorEq] at hs
      obtain ⟨rfl, rfl⟩ := hs
      have := (mem_levels_down _ _ _).mp hl
      exact ⟨this.1, this.2, fun c hc => level_on_coarser_region _ _ _ c hc⟩
    · rcases List.mem_append.mp h with h | h
      · have := (coarse_fill_plain mesh _ h).2
        simp [GhostStep.projection_level] at this
      · have := prediction_sweep_no_projection mesh _ h
        simp [GhostStep.projection_level] at this
  · refine ⟨update_ghost_mr_projection_sweep mesh,
      update_ghost_mr_coarse_fill mesh ++ update_ghost_mr_prediction_sweep mesh, rfl,
      projection_sweep_no_prediction mesh, ?_⟩
    intro s hs
    rcases List.mem_append.mp hs with h | h
    · exact (coarse_fill_plain mesh s h).2
    · exact prediction_sweep_no_projection mesh s h

theorem levels_split (a b level : Nat) (h1 : a ≤ level) (h2 : level ≤ b) :
    levels a b = List.range' a (level - a) ++ level :: List.range' (level + 1) (b - level) := by
  unfold levels
  have h := List.range'_append a (level - a) (b + 1 - level) 1
  have e1 : a + 1 * (level - a) = level := by omega
  have e2 : b + 1 - level + (level - a) = b + 1 - a := by omega
  have e3 : b + 1 - level = (b - level) + 1 := by omega
  rw [e1, e2, e3, List.range'_succ] at h
  exact h.symm

/-- C17: in `update_ghost_mr`, for every level `L` of `min_level + 1 .. max_level`, the
boundary fill, the periodic wrap and the subdomain exchange of level `L - 1` are performed
after the whole projection sweep and before the prediction at level `L`, whose region lies
at level `L`; the boundary fill of `min_level` comes after the last projection and before
the first prediction. -/
theorem update_ghost_mr_fill_before_prediction {dim : Nat} (mesh : GhostMesh dim) :
    (∀ L, mesh.ref_min_level + 1 ≤ L → L ≤ mesh.ref_max_level →
        ∃ sweep fills rest,
          update_ghost_mr_steps mesh =
            sweep ++ (fills ++
              GhostStep.prediction L (update_ghost_mr_prediction_region mesh L) :: rest) ∧
          (∀ s ∈ fills ++
              GhostStep.prediction L (update_ghost_mr_prediction_region mesh L) :: rest,
            s.projection_level = none) ∧
          GhostStep.update_bc (L - 1) ∈ fills ∧
          GhostStep.update_ghost_periodic (L - 1) ∈ fills ∧
          GhostStep.update_ghost_subdomains (L - 1) ∈ fills ∧
          ∀ c ∈ update_ghost_mr_prediction_region mesh L, c.level = L) ∧
      ∃ sweep fills rest,
        update_ghost_mr_steps mesh = sweep ++ (fills ++ rest) ∧
        (∀ s ∈ fills ++ rest, s.projection_level = none) ∧
        (∀ s ∈ sweep ++ fills, s.prediction_level = none) ∧
        GhostStep.update_bc mesh.ref_min_level ∈ fills := by
  constructor
  · intro L h1 h2
    have hsplit := levels_split (mesh.ref_min_level + 1) mesh.ref_max_level L h1 h2
    refine ⟨update_ghost_mr_projection_sweep mesh,
      update_ghost_mr_coarse_fill mesh ++
        (List.range' (mesh.ref_min_level + 1) (L - (mesh.ref_min_level + 1))).flatMap
          (fun level =>
            [GhostStep.prediction level (update_ghost_mr_prediction_region mesh level),
              GhostStep.update_ghost_periodic level, GhostStep.update_ghost_subdomains level,
              GhostStep.update_bc level]),
      [GhostStep.update_ghost_periodic L, GhostStep.update_ghost_subdomains L,
          GhostStep.update_bc L] ++
        (List.range' (L + 1) (mesh.ref_max_level - L)).flatMap
          (fun level =>
            [GhostStep.prediction level (update_ghost_mr_prediction_region mesh level),
              GhostStep.update_ghost_periodic level, GhostStep.update_ghost_subdomains level,
              GhostStep.update_bc level]),
      ?_, ?_, ?_, ?_, ?_, ?_⟩
    · unfold update_ghost_mr_steps update_ghost_mr_prediction_sweep
      rw [hsplit, List.flatMap_append, List.flatMap_cons]
      simp only [List.append_assoc, List.cons_append, List.nil_append]
    · have hall : ∀ s ∈ update_ghost_mr_coarse_fill mesh ++ update_ghost_mr_prediction_sweep mesh,
          s.projection_level = none := by
        intro s hs
        rcases List.mem_append.mp hs with h | h
        · exact (coarse_fill_plain mesh s h).2
        · exact prediction_sweep_no_projection mesh s h
      have heq : update_ghost_mr_coarse_fill mesh ++ update_ghost_mr_prediction_sweep mesh =
          (update_ghost_mr_coarse_fill mesh ++
            (List.range' (mesh.ref_min_level + 1) (L - (mesh.ref_min_level + 1))).flatMap
              (fun level =>
                [GhostStep.prediction level (update_ghost_mr_prediction_region mesh level),
                  GhostStep.update_ghost_periodic level,
                  GhostStep.update_ghost_subdomains level, GhostStep.update_bc level])) ++
            GhostStep.prediction L (update_ghost_mr_prediction_region mesh L) ::
              ([GhostStep.update_ghost_periodic L, GhostStep.update_ghost_subdomains L,
                  GhostStep.update_bc L] ++
                (List.range' (L + 1) (mesh.ref_max_level - L)).flatMap
                  (fun level =>
                    [GhostStep.prediction level (update_ghost_mr_prediction_region mesh level),
                      GhostStep.update_ghost_periodic level,
                      GhostStep.update_ghost_subdomains level, GhostStep.update_bc level])) := by
        unfold update_ghost_mr_prediction_sweep
        rw [hsplit, List.flatMap_append, List.flatMap_cons]
        simp only [List.append_assoc, List.cons_append, List.nil_append]
      rw [← heq]
      exact hall
    all_goals
      first
      | (intro c hc
         simp only [update_ghost_mr_prediction_region, intersection_on_finer, at_level,
           Finset.mem_filter, Finset.mem_inter, Finset.mem_sdiff] at hc
         exact hc.1.1.1.2)
      | (by_cases hL : L = mesh.ref_min_level + 1
         · apply List.mem_append_left
           unfold update_ghost_mr_coarse_fill
           apply List.mem_append_right
           have : L - 1 = mesh.ref_min_level := by omega
           rw [this]
           simp
         · apply List.mem_append_right
           apply List.mem_flatMap.mpr
           refine ⟨L - 1, ?_, by simp⟩
           rw [List.mem_range'_1]
           omega)
  · refine ⟨update_ghost_mr_projection_sweep mesh, update_ghost_mr_coarse_fill mesh,
      update_ghost_mr_prediction_sweep mesh, rfl, ?_, ?_, ?_⟩
    · intro s hs
      rcases List.mem_append.mp hs with h | h
      · exact (coarse_fill_plain mesh s h).2
      · exact prediction_sweep_no_projection mesh s h
    · intro s hs
      rcases List.mem_append.mp hs with h | h
      · exact projection_sweep_no_prediction mesh s h
      · exact (coarse_fill_plain mesh s h).1
    · unfold update_ghost_mr_coarse_fill
      apply List.mem_append_right
      simp

/-! ## The periodic wrap -/

theorem shiftRight_mul_pow (a : Int) (n : Nat) : (a * 2 ^ n) >>> n = a := by
  rw [Int.shiftRight_eq_div_pow]
  have h : ((2 ^ n : Nat) : Int) ≠ 0 := by positivity
  push_cast at h ⊢
  exact Int.mul_ediv_cancel a h

theorem periodic_shift_interval_neg {dim : Nat} (s : Fin dim → Int) :
    periodic_shift_interval (fun e => - s e) = - periodic_shift_interval s := by
  unfold periodic_shift_interval
  split_ifs <;> simp

theorem translate_neg_translate {dim : Nat} (c : Cell dim) (s : Fin dim → Int) :
    (c.translate s).translate (fun e => - s e) = c := by
  cases c
  simp only [Cell.translate, periodic_shift_interval_neg, periodic_shift_index, Cell.mk.injEq,
    true_and]
  constructor
  · omega
  · funext k
    omega

theorem translate_translate_neg {dim : Nat} (c : Cell dim) (s : Fin dim → Int) :
    (c.translate fun e => - s e).translate s = c := by
  cases c
  simp only [Cell.translate, periodic_shift_interval_neg, periodic_shift_index, Cell.mk.injEq,
    true_and]
  constructor
  · omega
  · funext k
    omega

theorem mem_translate {dim : Nat} (S : CellArray dim) (s : Fin dim → Int) (x : Cell dim) :
    x ∈ translate S s ↔ (x.translate fun e => - s e) ∈ S := by
  unfold translate
  rw [Finset.mem_image]
  constructor
  · rintro ⟨y, hy, rfl⟩
    rw [translate_neg_translate]
    exact hy
  · intro h
    exact ⟨_, h, translate_translate_neg x s⟩

theorem mem_translate_neg {dim : Nat} (S : CellArray dim) (s : Fin dim → Int) (x : Cell dim) :
    x ∈ translate S (fun e => - s e) ↔ x.translate s ∈ S := by
  rw [mem_translate]
  have h : (fun e => - (fun e => - s e) e) = s := by
    funext e
    simp
  rw [h]

theorem cell1_eta (x : Cell 1) : x = cell1 x.level x.i := by
  cases x
  simp only [cell1, Cell.mk.injEq, true_and]
  funext k
  exact k.elim0

theorem translate_cell1 (level : Nat) (i : Int) (s : Fin 1 → Int) :
    (cell1 level i).translate s = cell1 level (i + s 0) := by
  rw [cell1_eta ((cell1 level i).translate s)]
  simp only [Cell.translate, cell1, periodic_shift_interval]
  rfl

theorem mem_reference_in_box_one (mesh : GhostMesh 1) (level : Nat) (a b : Fin 1 → Int)
    (l : Nat) (i : Int) :
    cell1 l i ∈ reference_in_box mesh level a b ↔
      cell1 l i ∈ mesh.reference ∧ l = level ∧ a 0 ≤ i ∧ i < b 0 := by
  simp only [reference_in_box, at_level, in_box, Finset.mem_filter, Fin.forall_fin_one]
  have hc : (cell1 l i).coord 0 = i := rfl
  have hl : (cell1 l i).level = l := rfl
  rw [hc, hl]
  tauto

/-- C11: for a one-dimensional mesh periodic along its axis, whose domain is `[mn, mx)` at
the processed level, with a ghost width `gw ≥ 1` and `mx - mn ≥ gw`, after
`update_ghost_periodic(level, field)` every ghost `mn - 1 - k` holds the value of the cell
`mx - 1 - k` and every ghost `mx + k` holds the value of the cell `mn + k`, for every `k`
of `[0, gw)` whose cells are in the reference role; the field values are of any type, so
this holds for every component. The interior cells keep their values. -/
theorem update_ghost_periodic_wraps {α : Type} (mesh : GhostMesh 1) (level : Nat)
    (field : Cell 1 → α) (mn mx : Int)
    (hper : mesh.is_periodic 0 = true) (hlevel : level ≤ mesh.domain.level)
    (hmin : mesh.domain.min_indices 0 = mn * 2 ^ (mesh.domain.level - level))
    (hmax : mesh.domain.max_indices 0 = mx * 2 ^ (mesh.domain.level - level))
    (hgw : 1 ≤ mesh.ghost_width) (hext : mesh.ghost_width ≤ mx - mn) :
    ∀ k, 0 ≤ k → k < mesh.ghost_width →
      (cell1 level (mn - 1 - k) ∈ mesh.reference → cell1 level (mx - 1 - k) ∈ mesh.reference →
        update_ghost_periodic mesh level field (cell1 level (mn - 1 - k)) =
            update_ghost_periodic mesh level field (cell1 level (mx - 1 - k)) ∧
          update_ghost_periodic mesh level field (cell1 level (mx - 1 - k)) =
            field (cell1 level (mx - 1 - k))) ∧
      (cell1 level (mx + k) ∈ mesh.reference → cell1 level (mn + k) ∈ mesh.reference →
        update_ghost_periodic mesh level field (cell1 level (mx + k)) =
            update_ghost_periodic mesh level field (cell1 level (mn + k)) ∧
          update_ghost_periodic mesh level field (cell1 level (mn + k)) =
            field (cell1 level (mn + k))) := by
  have hdelta : delta_l mesh level = mesh.domain.level - level := if_pos hlevel
  have hdmin : domain_min mesh level 0 = mn := by
    unfold domain_min
    rw [hdelta, hmin, shiftRight_mul_pow]
  have hdmax : domain_max mesh level 0 = mx := by
    unfold domain_max
    rw [hdelta, hmax, shiftRight_mul_pow]
  have hshift : shift_along mesh level 0 = fun _ => mx - mn := by
    funext e
    have he : e = 0 := Subsingleton.elim e 0
    subst he
    unfold shift_along periodic_shift
    rw [hdelta, Function.update_same, hmin, hmax, ← sub_mul, shiftRight_mul_pow]
  have hset1 : ∀ i, cell1 level i ∈ periodic_set1 mesh level 0 ↔
      (cell1 level (i - (mx - mn)) ∈ mesh.reference ∧ mn ≤ i - (mx - mn) ∧
          i - (mx - mn) < mn + mesh.ghost_width) ∧
        cell1 level i ∈ mesh.reference ∧ mx ≤ i ∧ i < mx + mesh.ghost_width := by
    intro i
    unfold periodic_set1 ref_min_p ref_max_p
    rw [Finset.mem_inter, mem_translate, hshift, translate_cell1, mem_reference_in_box_one,
      mem_reference_in_box_one]
    simp only [min_corner_with, max_corner_with, Function.update_same, hdmin, hdmax, true_and,
      ← sub_eq_add_neg]
  have hset2 : ∀ i, cell1 level i ∈ periodic_set2 mesh level 0 ↔
      (cell1 level (i + (mx - mn)) ∈ mesh.reference ∧ mx - mesh.ghost_width ≤ i + (mx - mn) ∧
          i + (mx - mn) < mx) ∧
        cell1 level i ∈ mesh.reference ∧ mn - mesh.ghost_width ≤ i ∧ i < mn := by
    intro i
    unfold periodic_set2 ref_max_m ref_min_m
    rw [Finset.mem_inter, mem_translate_neg, hshift, translate_cell1, mem_reference_in_box_one,
      mem_reference_in_box_one]
    simp only [min_corner_with, max_corner_with, Function.update_same, hdmin, hdmax, true_and]
  have hrun : update_ghost_periodic mesh level field =
      update_ghost_periodic_axis mesh level 0 field := by
    unfold update_ghost_periodic
    have hfin : List.finRange 1 = [0] := rfl
    rw [hfin]
    simp only [List.foldl_cons, List.foldl_nil, hper, if_true]
  have hval : ∀ i, update_ghost_periodic mesh level field (cell1 level i) =
      if cell1 level i ∈ periodic_set2 mesh level 0 then
        (if cell1 level (i + (mx - mn)) ∈ periodic_set1 mesh level 0 then
          field (cell1 level (i + (mx - mn) - (mx - mn)))
         else field (cell1 level (i + (mx - mn))))
      else if cell1 level i ∈ periodic_set1 mesh level 0 then
        field (cell1 level (i - (mx - mn)))
      else field (cell1 level i) := by
    intro i
    rw [hrun]
    unfold update_ghost_periodic_axis write
    simp only [hshift, translate_cell1, ← sub_eq_add_neg]
  intro k hk0 hk
  constructor
  · intro hg hc
    have h1 : cell1 level (mn - 1 - k) ∈ periodic_set2 mesh level 0 := by
      rw [hset2]
      have e : mn - 1 - k + (mx - mn) = mx - 1 - k := by omega
      rw [e]
      exact ⟨⟨hc, by omega, by omega⟩, hg, by omega, by omega⟩
    have h2 : cell1 level (mx - 1 - k) ∉ periodic_set1 mesh level 0 := by
      rw [hset1]
      intro h
      omega
    have h3 : cell1 level (mx - 1 - k) ∉ periodic_set2 mesh level 0 := by
      rw [hset2]
      intro h
      omega
    have e : mn - 1 - k + (mx - mn) = mx - 1 - k := by omega
    rw [hval (mn - 1 - k), hval (mx - 1 - k), if_pos h1, if_neg h3, if_neg h2, e, if_neg h2]
    exact ⟨rfl, rfl⟩
  · intro hg hc
    have h1 : cell1 level (mx + k) ∈ periodic_set1 mesh level 0 := by
      rw [hset1]
      have e : mx + k - (mx - mn) = mn + k := by omega
      rw [e]
      exact ⟨⟨hc, by omega, by omega⟩, hg, by omega, by omega⟩
    have h2 : cell1 level (mx + k) ∉ periodic_set2 mesh level 0 := by
      rw [hset2]
      intro h
      omega
    have h3 : cell1 level (mn + k) ∉ periodic_set1 mesh level 0 := by
      rw [hset1]
      intro h
      omega
    have h4 : cell1 level (mn + k) ∉ periodic_set2 mesh level 0 := by
      rw [hset2]
      intro h
      omega
    have e : mx + k - (mx - mn) = mn + k := by omega
    rw [hval (mx + k), hval (mn + k), if_neg h2, if_pos h1, if_neg h4, if_neg h3, e]
    exact ⟨rfl, rfl⟩

/-- The witness of C11: a periodic axis of extent `10` with one ghost on each side; the
ghost at index `-1` holds the value of the cell at index `9` and the ghost at index `10`
the value of the cell at index `0`. -/
theorem update_ghost_periodic_wraps_witness :
    (update_ghost_periodic (periodic_line 3 0 10 1) 3 (fun c => c.i) (cell1 3 (-1)) =
        update_ghost_periodic (periodic_line 3 0 10 1) 3 (fun c => c.i) (cell1 3 9) ∧
      update_ghost_periodic (periodic_line 3 0 10 1) 3 (fun c => c.i) (cell1 3 9) = 9) ∧
      update_ghost_periodic (periodic_line 3 0 10 1) 3 (fun c => c.i) (cell1 3 10) =
        update_ghost_periodic (periodic_line 3 0 10 1) 3 (fun c => c.i) (cell1 3 0) ∧
      update_ghost_periodic (periodic_line 3 0 10 1) 3 (fun c => c.i) (cell1 3 0) = 0 :=
  have h := update_ghost_periodic_wraps (periodic_line 3 0 10 1) 3 (fun c => c.i) 0 10
    rfl (le_refl _) (by decide) (by decide) (by decide) (by decide) 0 (le_refl _) (by decide)
  ⟨h.1 (by decide) (by decide), h.2 (by decide) (by decide)⟩

/-- The counterexample to C12: a domain `[1, 4)` given at level `1`, processed at level
`0`. The translation is `(4 - 1) >> 1 = 1`, while `(4 >> 1) - (1 >> 1) = 2`: the strip that
starts at `1 >> 1 = 0` is not mapped onto the strip that starts at `4 >> 1 = 2`. -/
theorem periodic_shift_unaligned :
    (0 : Nat) ≤ (periodic_line 1 1 4 1).domain.level ∧
      periodic_shift (periodic_line 1 1 4 1) 0 0 = 1 ∧
      ((periodic_line 1 1 4 1).domain.max_indices 0 >>> delta_l (periodic_line 1 1 4 1) 0) -
        ((periodic_line 1 1 4 1).domain.min_indices 0 >>> delta_l (periodic_line 1 1 4 1) 0) = 2 ∧
      shift_along (periodic_line 1 1 4 1) 0 0 0 ≠
        domain_max (periodic_line 1 1 4 1) 0 0 - domain_min (periodic_line 1 1 4 1) 0 0 := by
  decide

theorem shiftRight_sub_of_dvd (a b : Int) (n : Nat) (h : (2 : Int) ^ n ∣ b) :
    (a - b) >>> n = a >>> n - b >>> n := by
  obtain ⟨m, rfl⟩ := h
  rw [Int.shiftRight_eq_div_pow, Int.shiftRight_eq_div_pow, Int.shiftRight_eq_div_pow]
  have h2 : ((2 ^ n : Nat) : Int) = 2 ^ n := by push_cast; rfl
  rw [h2]
  have hpos : (2 : Int) ^ n ≠ 0 := by positivity
  rw [Int.sub_ediv_of_dvd a (Dvd.intro m rfl), Int.mul_ediv_cancel_left m hpos]

/-- C12, amended: in `update_ghost_periodic` and in `update_tag_periodic`, for every level
not above the level of the domain and every axis `d`, the translation is
`shift[d] = (max_indices[d] - min_indices[d]) >> delta_l`; when `min_indices[d]` is a
multiple of `2^delta_l` it equals `(max_indices[d] >> delta_l) - (min_indices[d] >> delta_l)`
and maps the strip of the first `ghost_width` cells, which starts at
`min_indices[d] >> delta_l`, exactly onto the strip that starts at
`max_indices[d] >> delta_l`. -/
theorem periodic_shift_of_aligned {dim : Nat} (mesh : GhostMesh dim) (level : Nat)
    (d : Fin dim) (hlevel : level ≤ mesh.domain.level)
    (halign : (2 : Int) ^ (mesh.domain.level - level) ∣ mesh.domain.min_indices d) :
    shift_along mesh level d d =
        (mesh.domain.max_indices d - mesh.domain.min_indices d) >>>
          (mesh.domain.level - level) ∧
      shift_along mesh level d d =
        (mesh.domain.max_indices d >>> (mesh.domain.level - level)) -
          (mesh.domain.min_indices d >>> (mesh.domain.level - level)) ∧
      ∀ v : Int,
        (domain_min mesh level d ≤ v ∧ v < domain_min mesh level d + mesh.ghost_width) ↔
          (domain_max mesh level d ≤ v + shift_along mesh level d d ∧
            v + shift_along mesh level d d < domain_max mesh level d + mesh.ghost_width) := by
  have h1 : shift_along mesh level d d =
      (mesh.domain.max_indices d - mesh.domain.min_indices d) >>>
        (mesh.domain.level - level) := by
    unfold shift_along periodic_shift
    rw [Function.update_same, show delta_l mesh level = mesh.domain.level - level from
      if_pos hlevel]
  have h2 := shiftRight_sub_of_dvd (mesh.domain.max_indices d) (mesh.domain.min_indices d)
    (mesh.domain.level - level) halign
  refine ⟨h1, h1.trans h2, ?_⟩
  intro v
  rw [h1, h2]
  unfold domain_min domain_max
  rw [show delta_l mesh level = mesh.domain.level - level from if_pos hlevel]
  constructor <;> intro h <;> constructor <;> omega

/-- The witness of C12 amended: a domain `[4, 12)` given at level `2`, processed at level
`0`: the translation is `(12 - 4) >> 2 = 2 = (12 >> 2) - (4 >> 2)`. -/
theorem periodic_shift_of_aligned_witness :
    shift_along (periodic_line 2 4 12 1) 0 0 0 = 2 ∧
      shift_along (periodic_line 2 4 12 1) 0 0 0 =
        ((periodic_line 2 4 12 1).domain.max_indices 0 >>>
            ((periodic_line 2 4 12 1).domain.level - 0)) -
          ((periodic_line 2 4 12 1).domain.min_indices 0 >>>
            ((periodic_line 2 4 12 1).domain.level - 0)) :=
  ⟨by decide,
    (periodic_shift_of_aligned (periodic_line 2 4 12 1) 0 0 (by decide) ⟨1, by decide⟩).2.1⟩

/-! ## The regions and the levels of `update_ghost` -/

/-- The levels at which `update_ghost` applies the prediction: every level from
`mesh[reference].min_level()` to `max_level`, the lowest one included. -/
theorem update_ghost_prediction_levels {dim : Nat} (mesh : GhostMesh dim) :
    (update_ghost_steps mesh).filterMap GhostStep.prediction_level =
      levels mesh.ref_min_level mesh.max_level := by
  unfold update_ghost_steps
  rw [List.filterMap_append, List.filterMap_cons]
  have h1 : ((levels_down mesh.max_level 0).map fun level =>
      GhostStep.projection level (update_ghost_projection_region mesh level)).filterMap
        GhostStep.prediction_level = [] := by
    apply filterMap_eq_nil_of_forall
    intro s hs
    obtain ⟨l, _, rfl⟩ := List.mem_map.mp hs
    rfl
  rw [h1, List.nil_append]
  simp only [GhostStep.prediction_level]
  induction levels mesh.ref_min_level mesh.max_level with
  | nil => rfl
  | cons a l ih =>
    rw [List.flatMap_cons, List.filterMap_append, ih]
    rfl

/-- The evaluation of `update_ghost` for C15 on `two_level_line`, whose reference role
starts at level `0`: the prediction is applied at the levels `0` and `1`, not only at
level `1`, and at level `0` its region is taken against `reference[level - 1]` with the
wrapped index `2^64 - 1`. -/
theorem update_ghost_predicts_at_min_level :
    two_level_line.ref_min_level = 0 ∧ two_level_line.max_level = 1 ∧
      (update_ghost_steps two_level_line).filterMap GhostStep.prediction_level = [0, 1] ∧
      levels (two_level_line.ref_min_level + 1) two_level_line.max_level = [1] ∧
      size_t_pred 0 = 2 ^ 64 - 1 ∧
      update_ghost_prediction_region two_level_line 0 =
        intersection_on_finer (at_level two_level_line.pred_cells 0)
          (at_level two_level_line.reference (2 ^ 64 - 1)) := by
  refine ⟨rfl, rfl, ?_, by decide, by decide, ?_⟩
  · rw [update_ghost_prediction_levels]
    decide
  · unfold update_ghost_prediction_region
    have h : size_t_pred 0 = 2 ^ 64 - 1 := by decide
    rw [h]

theorem mem_intersection_on_coarser {dim : Nat} (fine coarse : CellArray dim) (level : Nat)
    (c : Cell dim) :
    c ∈ intersection_on_coarser (at_level fine level) (at_level coarse (level - 1)) ↔
      c ∈ coarse ∧ c.level = level - 1 ∧ ∃ x ∈ fine, x.level = level ∧ x.on_coarser = c := by
  simp only [intersection_on_coarser, at_level, Finset.mem_image, Finset.mem_filter]
  constructor
  · rintro ⟨x, ⟨⟨hx, hl⟩, hc, hcl⟩, rfl⟩
    exact ⟨hc, hcl, x, hx, hl, rfl⟩
  · rintro ⟨hc, hcl, x, hx, hl, rfl⟩
    exact ⟨x, ⟨⟨hx, hl⟩, hc, hcl⟩, rfl⟩

/-- The counterexample to C16: on `two_level_line` the projection sweep of
`update_ghost_mr` visits the level `1` and applies the projection on the cell `(0, 1)`,
the projection cell of level `0` under the reference cells of level `1`, while
`proj_cells[1] ∩ reference[0]` expressed at level `0` is empty. -/
theorem update_ghost_mr_projection_region_differs :
    GhostStep.projection 1 (update_ghost_mr_projection_region two_level_line 1) ∈
        update_ghost_mr_steps two_level_line ∧
      update_ghost_mr_projection_region two_level_line 1 = {cell1 0 1} ∧
      intersection_on_coarser (at_level two_level_line.proj_cells 1)
        (at_level two_level_line.reference (1 - 1)) = ∅ := by
  refine ⟨?_, by decide, by decide⟩
  unfold update_ghost_mr_steps update_ghost_mr_projection_sweep
  apply List.mem_append_left
  apply List.mem_flatMap.mpr
  refine ⟨1, by decide, ?_⟩
  simp

/-- C16, amended: for every level visited by a projection sweep, `update_ghost` applies
the projection on `proj_cells[level] ∩ reference[level - 1]` expressed at `level - 1` (the
reference cells of `level - 1` that contain a projection cell of `level`), and
`update_ghost_mr` applies it on `reference[level] ∩ proj_cells[level - 1]` expressed at
`level - 1` (the projection cells of `level - 1` that contain a reference cell of
`level`). -/
theorem projection_regions {dim : Nat} (mesh : GhostMesh dim) :
    (∀ level region, GhostStep.projection level region ∈ update_ghost_steps mesh →
        ∀ c, c ∈ region ↔
          c ∈ mesh.reference ∧ c.level = level - 1 ∧
            ∃ x ∈ mesh.proj_cells, x.level = level ∧ x.on_coarser = c) ∧
      ∀ level region, GhostStep.projection level region ∈ update_ghost_mr_steps mesh →
        ∀ c, c ∈ region ↔
          c ∈ mesh.proj_cells ∧ c.level = level - 1 ∧
            ∃ x ∈ mesh.reference, x.level = level ∧ x.on_coarser = c := by
  constructor
  · intro level region hmem c
    unfold update_ghost_steps at hmem
    rcases List.mem_append.mp hmem with h | h
    · obtain ⟨l, _, hl⟩ := List.mem_map.mp h
      simp only [GhostStep.projection.injEq] at hl
      obtain ⟨rfl, rfl⟩ := hl
      exact mem_intersection_on_coarser _ _ _ c
    · rcases List.mem_cons.mp h with h | h
      · simp at h
      · obtain ⟨l, _, hl⟩ := List.mem_flatMap.mp h
        simp at hl
  · intro level region hmem c
    unfold update_ghost_mr_steps at hmem
    rcases List.mem_append.mp hmem with h | h
    · unfold update_ghost_mr_projection_sweep at h
      obtain ⟨l, _, hs⟩ := List.mem_flatMap.mp h
      simp only [List.mem_cons, List.mem_singleton, List.not_mem_nil, or_false,
        GhostStep.projection.injEq, false_or, reduceCtorEq] at hs
      obtain ⟨rfl, rfl⟩ := hs
      exact mem_intersection_on_coarser _ _ _ c
    · rcases List.mem_append.mp h with h | h
      · have := (coarse_fill_plain mesh _ h).2
        simp [GhostStep.projection_level] at this
      · have := prediction_sweep_no_projection mesh _ h
        simp [GhostStep.projection_level] at this

/-! ## Two calls of `update_ghost_mr` in a row -/

theorem runs_flatten {dim : Nat} (l : List (Cell dim)) : (runs l).flatten = l := by
  induction l with
  | nil => rfl
  | cons c cs ih =>
    unfold runs
    split
    · rename_i h
      rw [h] at ih
      rw [← ih]
      rfl
    · rename_i rs h
      rw [h] at ih
      rw [← ih]
      rfl
    · rename_i x r rs h
      rw [h] at ih
      split_ifs
      · rw [← ih]
        rfl
      · rw [← ih]
        rfl

theorem mem_visit {dim : Nat} (S : CellArray dim) (x : Cell dim) : x ∈ visit S ↔ x ∈ S := by
  obtain ⟨⟨l⟩, hl⟩ := S
  exact (List.perm_insertionSort cell_le l).mem_iff

theorem visit_nodup {dim : Nat} (S : CellArray dim) : (visit S).Nodup := by
  obtain ⟨⟨l⟩, hl⟩ := S
  exact (List.perm_insertionSort cell_le l).nodup_iff.mpr hl

theorem visit_length {dim : Nat} (S : CellArray dim) : (visit S).length = S.card := by
  obtain ⟨⟨l⟩, hl⟩ := S
  exact (List.perm_insertionSort cell_le l).length_eq

theorem pack_length {dim : Nat} {β : Type} (n : Nat) (cells : List (Cell dim))
    (field : Cell dim → List β) (h : ∀ c ∈ cells, (field c).length = n) :
    (pack cells field).length = cells.length * n := by
  induction cells with
  | nil => simp [pack]
  | cons c cs ih =>
    have hc := h c (List.mem_cons_self _ _)
    have hcs := ih fun x hx => h x (List.mem_cons_of_mem _ hx)
    simp only [pack, List.flatMap_cons, List.length_append, List.length_cons] at hcs ⊢
    rw [hcs, hc]
    ring

/-- What is packed from a field is unpacked into the same cells: after the receive loop
the visited cells hold the values of the sender and the other cells keep theirs. -/
theorem unpack_pack {dim : Nat} {β : Type} (n : Nat) (cells : List (Cell dim))
    (fa fb : Cell dim → List β) (h : ∀ c ∈ cells, (fa c).length = n) (pre post : List β) :
    unpack n (fun _ values => values) (pre ++ (pack cells fa ++ post)) cells pre.length fb =
      .done (pre.length + cells.length * n, fun c => if c ∈ cells then fa c else fb c) := by
  induction cells generalizing pre fb with
  | nil => simp [unpack]
  | cons c cs ih =>
    have hc := h c (List.mem_cons_self _ _)
    have hpack : pack (c :: cs) fa = fa c ++ pack cs fa := rfl
    have hle : pre.length + n ≤ (pre ++ (pack (c :: cs) fa ++ post)).length := by
      rw [hpack]
      simp only [List.length_append]
      omega
    have hslice : ((pre ++ (pack (c :: cs) fa ++ post)).drop pre.length).take n = fa c := by
      rw [hpack, List.drop_left, List.append_assoc, ← hc, List.take_left]
    have hre : pre ++ (pack (c :: cs) fa ++ post) = (pre ++ fa c) ++ (pack cs fa ++ post) := by
      rw [hpack]
      simp only [List.append_assoc]
    have hlen : pre.length + n = (pre ++ fa c).length := by
      rw [List.length_append, hc]
    unfold unpack
    rw [if_pos hle, hslice, hre, hlen,
      ih _ (fun x hx => h x (List.mem_cons_of_mem _ hx)) (pre ++ fa c)]
    congr 1
    refine Prod.ext ?_ ?_
    · simp only [List.length_append, List.length_cons, hc]
      ring
    · funext x
      simp only [List.mem_cons]
      by_cases hx : x = c
      · subst hx
        simp
      · by_cases hxs : x ∈ cs
        · simp [hxs]
        · simp [hx, hxs, Function.update_noteq hx]

theorem unpack_nil {dim : Nat} {β γ : Type} (n : Nat) (store : γ → List β → γ)
    (to_recv : List β) (count : Nat) (field : Cell dim → γ) :
    unpack n store to_recv [] count field = .done (count, field) := by
  rw [unpack]

theorem unpack_cons {dim : Nat} {β γ : Type} (n : Nat) (store : γ → List β → γ)
    (to_recv : List β) (c : Cell dim) (cells : List (Cell dim)) (count : Nat)
    (field : Cell dim → γ) (h : count + n ≤ to_recv.length) :
    unpack n store to_recv (c :: cells) count field =
      unpack n store to_recv cells (count + n)
        (Function.update field c (store (field c) ((to_recv.drop count).take n))) := by
  rw [unpack]
  exact if_pos h

/-- The copy of two runs in a row, when the payload covers the first. -/
theorem unpack_append {dim : Nat} {β γ : Type} (n : Nat) (store : γ → List β → γ)
    (to_recv : List β) (a b : List (Cell dim)) (count : Nat) (field : Cell dim → γ)
    (hlen : count + a.length * n ≤ to_recv.length) :
    unpack n store to_recv (a ++ b) count field =
      unpack n store to_recv b (count + a.length * n)
        (unpack n store to_recv a count field).state.2 := by
  induction a generalizing count field with
  | nil =>
    rw [unpack_nil, List.nil_append, List.length_nil, Nat.zero_mul, Nat.add_zero]
    rfl
  | cons c cs ih =>
    have hmul : (c :: cs).length * n = cs.length * n + n := by
      rw [List.length_cons, Nat.succ_mul]
    rw [List.cons_append, unpack_cons _ _ _ _ _ _ _ (by omega),
      unpack_cons _ _ _ _ _ _ _ (by omega), ih _ _ (by omega)]
    congr 1
    omega

/-- On a payload that covers every interval, the receive loop over the intervals is the
copy, cell by cell, into the cells of the intervals one after the other. -/
theorem unpack_intervals_done {dim : Nat} {β γ : Type} (n : Nat) (store : γ → List β → γ)
    (to_recv : List β) (ivs : List (List (Cell dim))) (count : Nat) (field : Cell dim → γ)
    (hlen : count + ivs.flatten.length * n ≤ to_recv.length) :
    unpack_intervals n store to_recv ivs count field =
      unpack n store to_recv ivs.flatten count field := by
  induction ivs generalizing count field with
  | nil =>
    rw [unpack_intervals, List.flatten_nil, unpack_nil]
  | cons i rest ih =>
    rw [List.flatten_cons, List.length_append, Nat.add_mul] at hlen
    rw [unpack_intervals, if_pos (by omega), List.flatten_cons,
      unpack_append _ _ _ _ _ _ _ (by omega)]
    exact ih _ _ (by omega)

theorem visit_empty {dim : Nat} : visit (∅ : CellArray dim) = [] :=
  List.eq_nil_of_length_eq_zero (by rw [visit_length, Finset.card_empty])

/-- When the guard of the exchange fails there is no interface cell. -/
theorem interfaces_empty {dim : Nat} (mesh neighbour : RankMesh dim) (level : Nat)
    (h : exchanges mesh neighbour level = false) :
    ghost_in_interface mesh neighbour level = ∅ ∧ tag_in_interface mesh neighbour level = ∅ := by
  unfold exchanges at h
  rw [decide_eq_false_iff_not, not_and_or, not_not, not_not] at h
  unfold ghost_in_interface tag_in_interface
  rcases h with h | h <;> simp [h]

/-- The receive of `update_ghost_subdomains` is the receive loop over the intervals of
`in_interface`, whether the guard holds or not. -/
theorem update_ghost_subdomains_recv_intervals {dim : Nat} {β : Type} (n_comp : Nat)
    (mesh neighbour : RankMesh dim) (level : Nat) (to_recv : List β)
    (field : Cell dim → List β) :
    update_ghost_subdomains_recv n_comp mesh neighbour level to_recv field =
      unpack_intervals n_comp (fun _ values => values) to_recv
        (runs (visit (ghost_in_interface mesh neighbour level))) 0 field := by
  unfold update_ghost_subdomains_recv
  cases h : exchanges mesh neighbour level with
  | true => rfl
  | false =>
    rw [(interfaces_empty mesh neighbour level h).1, visit_empty]
    rfl

/-- The receive of `update_tag_subdomains` is the receive loop over the intervals of
`in_interface`, whether the guard holds or not. -/
theorem update_tag_subdomains_recv_intervals {dim : Nat} (erase : Bool)
    (mesh neighbour : RankMesh dim) (level : Nat) (to_recv : List Nat)
    (tag : Cell dim → Nat) :
    update_tag_subdomains_recv erase mesh neighbour level to_recv tag =
      unpack_intervals 1
        (fun old values => if erase then values.headD 0 else old ||| values.headD 0)
        to_recv (runs (visit (tag_in_interface mesh neighbour level))) 0 tag := by
  unfold update_tag_subdomains_recv
  cases h : exchanges mesh neighbour level with
  | true => rfl
  | false =>
    rw [(interfaces_empty mesh neighbour level h).2, visit_empty]
    rfl

/-- On a payload that is long enough, the receive of `update_ghost_subdomains` is the
copy, cell by cell, of the payload into the visited cells of `in_interface`. -/
theorem update_ghost_subdomains_recv_unpack {dim : Nat} {β : Type} (n_comp : Nat)
    (mesh neighbour : RankMesh dim) (level : Nat) (to_recv : List β)
    (field : Cell dim → List β)
    (hlen : (ghost_in_interface mesh neighbour level).card * n_comp ≤ to_recv.length) :
    update_ghost_subdomains_recv n_comp mesh neighbour level to_recv field =
      unpack n_comp (fun _ values => values) to_recv
        (visit (ghost_in_interface mesh neighbour level)) 0 field := by
  rw [update_ghost_subdomains_recv_intervals,
    unpack_intervals_done _ _ _ _ _ _ (by rw [runs_flatten, visit_length]; omega),
    runs_flatten]

/-- On a payload that is long enough, the receive of `update_tag_subdomains` is the copy,
cell by cell, of the payload into the visited cells of `in_interface`. -/
theorem update_tag_subdomains_recv_unpack {dim : Nat} (erase : Bool)
    (mesh neighbour : RankMesh dim) (level : Nat) (to_recv : List Nat)
    (tag : Cell dim → Nat)
    (hlen : (tag_in_interface mesh neighbour level).card * 1 ≤ to_recv.length) :
    update_tag_subdomains_recv erase mesh neighbour level to_recv tag =
      unpack 1 (fun old values => if erase then values.headD 0 else old ||| values.headD 0)
        to_recv (visit (tag_in_interface mesh neighbour level)) 0 tag := by
  rw [update_tag_subdomains_recv_intervals,
    unpack_intervals_done _ _ _ _ _ _ (by rw [runs_flatten, visit_length]; omega),
    runs_flatten]

/-- C18: for two ranks `A` and `B` that hold consistent snapshots of each other, at every
level the `in_interface` that `B` builds for `A` in `update_ghost_subdomains` is the
`out_interface` that `A` builds for `B`, visited in the same order; both ranks take the
same guard; the payload of `A` holds one run of `n_comp` values per interface cell, `B`
consumes that many values, and after the receive each interface cell of `B` holds the
values read from the same cell of `A`, the other cells of `B` being unchanged. -/
theorem update_ghost_subdomains_interfaces_match {dim : Nat} {β : Type} (n_comp : Nat)
    (a b a_at_b b_at_a : RankMesh dim) (level : Nat) (field_a field_b : Cell dim → List β)
    (ha : a_at_b = a) (hb : b_at_a = b) (hcomp : ∀ c, (field_a c).length = n_comp) :
    ghost_in_interface b a_at_b level = out_interface a b_at_a level ∧
      visit (ghost_in_interface b a_at_b level) = visit (out_interface a b_at_a level) ∧
      exchanges b a_at_b level = exchanges a b_at_a level ∧
      (pack (visit (out_interface a b_at_a level)) field_a).length =
        (out_interface a b_at_a level).card * n_comp ∧
      (exchanges a b_at_a level = true →
        update_ghost_subdomains_send a b_at_a level field_a =
            some (pack (visit (out_interface a b_at_a level)) field_a) ∧
          update_ghost_subdomains_recv n_comp b a_at_b level
              (pack (visit (out_interface a b_at_a level)) field_a) field_b =
            .done ((out_interface a b_at_a level).card * n_comp,
              fun c => if c ∈ out_interface a b_at_a level then field_a c else field_b c)) := by
  subst ha hb
  have hint : ghost_in_interface b_at_a a_at_b level = out_interface a_at_b b_at_a level := rfl
  have hguard : exchanges b_at_a a_at_b level = exchanges a_at_b b_at_a level := by
    unfold exchanges
    exact decide_eq_decide.mpr and_comm
  refine ⟨hint, by rw [hint], hguard, ?_, ?_⟩
  · rw [pack_length n_comp _ _ (fun c _ => hcomp c), visit_length]
  · intro hex
    constructor
    · unfold update_ghost_subdomains_send
      rw [if_pos hex]
    · rw [update_ghost_subdomains_recv_unpack n_comp b_at_a a_at_b level _ field_b
        (by rw [hint, pack_length n_comp _ _ (fun c _ => hcomp c), visit_length]), hint]
      have h := unpack_pack n_comp (visit (out_interface a_at_b b_at_a level)) field_a field_b
        (fun c _ => hcomp c) [] []
      simp only [List.nil_append, List.append_nil, List.length_nil, Nat.zero_add] at h
      rw [h, visit_length]
      congr 2
      funext c
      simp only [mem_visit]

/-- C18 at the ranks `rank_a` and `rank_b` of a line, for a field of one component: the
two ranks exchange at level `0`, and the ghost of `rank_b` takes the value of `rank_a`. -/
theorem update_ghost_subdomains_interfaces_match_witness :
    rank_a = rank_a ∧ rank_b = rank_b ∧
      (∀ c : Cell 1, ((fun x : Cell 1 => [x.i]) c).length = 1) ∧
      exchanges rank_a rank_b 0 = true ∧
      out_interface rank_a rank_b 0 = {cell1 0 1, cell1 0 2} ∧
      (ghost_in_interface rank_b rank_a 0 = out_interface rank_a rank_b 0 ∧
        visit (ghost_in_interface rank_b rank_a 0) = visit (out_interface rank_a rank_b 0) ∧
        exchanges rank_b rank_a 0 = exchanges rank_a rank_b 0 ∧
        (pack (visit (out_interface rank_a rank_b 0)) fun x : Cell 1 => [x.i]).length =
          (out_interface rank_a rank_b 0).card * 1 ∧
        (exchanges rank_a rank_b 0 = true →
          update_ghost_subdomains_send rank_a rank_b 0 (fun x : Cell 1 => [x.i]) =
              some (pack (visit (out_interface rank_a rank_b 0)) fun x : Cell 1 => [x.i]) ∧
            update_ghost_subdomains_recv 1 rank_b rank_a 0
                (pack (visit (out_interface rank_a rank_b 0)) fun x : Cell 1 => [x.i])
                (fun _ => [0]) =
              .done ((out_interface rank_a rank_b 0).card * 1,
                fun c => if c ∈ out_interface rank_a rank_b 0 then [c.i] else [0]))) :=
  ⟨rfl, rfl, fun _ => rfl, by decide, by decide,
    update_ghost_subdomains_interfaces_match 1 rank_a rank_b rank_a rank_b 0
      (fun x => [x.i]) (fun _ => [0]) rfl rfl (fun _ => rfl)⟩

/-- The receive loop on a payload that is long enough: it ends, having consumed one run of
`n` values per cell; a visited cell is updated from its own run, the `k`-th run for the
`k`-th cell, and the other cells are unchanged. -/
theorem unpack_get {dim : Nat} {β γ : Type} (n : Nat) (store : γ → List β → γ)
    (to_recv : List β) (cells : List (Cell dim)) (hnd : cells.Nodup) (count : Nat)
    (field : Cell dim → γ) (hlen : count + cells.length * n ≤ to_recv.length) :
    ∃ g, unpack n store to_recv cells count field = .done (count + cells.length * n, g) ∧
      (∀ c, c ∉ cells → g c = field c) ∧
      ∀ (k : Nat) (hk : k < cells.length),
        g (cells.get ⟨k, hk⟩) =
          store (field (cells.get ⟨k, hk⟩)) ((to_recv.drop (count + k * n)).take n) := by
  induction cells generalizing count field with
  | nil => exact ⟨field, by simp [unpack], fun _ _ => rfl, fun k hk => absurd hk (by simp)⟩
  | cons c cs ih =>
    have hnd2 := List.nodup_cons.mp hnd
    have hmul : (c :: cs).length * n = cs.length * n + n := by
      rw [List.length_cons, Nat.succ_mul]
    have hle : count + n ≤ to_recv.length := by omega
    obtain ⟨g, hg, hout, hin⟩ := ih hnd2.2 (count + n)
      (Function.update field c (store (field c) ((to_recv.drop count).take n))) (by omega)
    refine ⟨g, ?_, ?_, ?_⟩
    · unfold unpack
      rw [if_pos hle, hg, hmul]
      congr 2
      omega
    · intro x hx
      rw [List.mem_cons, not_or] at hx
      rw [hout x hx.2, Function.update_noteq hx.1]
    · intro k hk
      cases k with
      | zero =>
        simp only [List.get_eq_getElem, List.getElem_cons_zero, Nat.zero_mul, Nat.add_zero]
        rw [hout c hnd2.1, Function.update_same]
      | succ k =>
        have hk2 : k < cs.length := by
          rw [List.length_cons] at hk
          omega
        have hne : cs.get ⟨k, hk2⟩ ≠ c := fun h => hnd2.1 (h ▸ List.get_mem cs k hk2)
        have h := hin k hk2
        rw [Function.update_noteq hne] at h
        have harith : count + (k + 1) * n = count + n + k * n := by
          rw [Nat.succ_mul]
          omega
        simp only [List.get_eq_getElem, List.getElem_cons_succ] at h ⊢
        rw [harith]
        exact h

/-- The receive loop never looks at the payload beyond the values it consumes. -/
theorem unpack_take {dim : Nat} {β γ : Type} (n : Nat) (store : γ → List β → γ)
    (to_recv : List β) (cells : List (Cell dim)) (count : Nat) (field : Cell dim → γ)
    (m : Nat) (hm : count + cells.length * n ≤ m) :
    unpack n store (to_recv.take m) cells count field =
      unpack n store to_recv cells count field := by
  induction cells generalizing count field with
  | nil => simp [unpack]
  | cons c cs ih =>
    have hmul : (c :: cs).length * n = cs.length * n + n := by
      rw [List.length_cons, Nat.succ_mul]
    have hslice : ((to_recv.take m).drop count).take n = (to_recv.drop count).take n := by
      rw [List.drop_take, List.take_take, Nat.min_eq_left (by omega)]
    unfold unpack
    rw [hslice, ih (count + n) _ (by omega)]
    by_cases hle : count + n ≤ to_recv.length
    · rw [if_pos hle, if_pos (by rw [List.length_take]; omega)]
    · rw [if_neg hle, if_neg (by rw [List.length_take]; omega)]

/-- The receive loop on a payload that is too short: it reaches a read past the end. -/
theorem unpack_short {dim : Nat} {β γ : Type} (n : Nat) (store : γ → List β → γ)
    (to_recv : List β) (cells : List (Cell dim)) (count : Nat) (field : Cell dim → γ)
    (hcount : count ≤ to_recv.length) (hlen : to_recv.length < count + cells.length * n) :
    (unpack n store to_recv cells count field).is_done = false := by
  induction cells generalizing count field with
  | nil =>
    simp only [List.length_nil, Nat.zero_mul, Nat.add_zero] at hlen
    omega
  | cons c cs ih =>
    have hmul : (c :: cs).length * n = cs.length * n + n := by
      rw [List.length_cons, Nat.succ_mul]
    unfold unpack
    by_cases hle : count + n ≤ to_recv.length
    · rw [if_pos hle]
      exact ih (count + n) _ hle (by omega)
    · rw [if_neg hle]
      rfl

/-- The cells of the first `k` intervals are among the cells of the first `k + 1`. -/
theorem take_flatten_subset {dim : Nat} (ivs : List (List (Cell dim))) (k : Nat)
    (c : Cell dim) (h : c ∈ (ivs.take k).flatten) : c ∈ (ivs.take (k + 1)).flatten := by
  induction ivs generalizing k with
  | nil => simp at h
  | cons i rest ih =>
    cases k with
    | zero => simp at h
    | succ k =>
      rw [List.take_succ_cons, List.flatten_cons, List.mem_append] at h ⊢
      rcases h with h | h
      · exact Or.inl h
      · exact Or.inr (ih k h)

/-- The receive loop over the intervals on a payload that is too short: it comes to a read
past the end at the first interval whose run goes past the end of the payload, in the
state left by the copy of the intervals before. -/
theorem unpack_intervals_short {dim : Nat} {β γ : Type} (n : Nat) (store : γ → List β → γ)
    (to_recv : List β) (ivs : List (List (Cell dim))) (count : Nat) (field : Cell dim → γ)
    (hcount : count ≤ to_recv.length)
    (hshort : to_recv.length < count + ivs.flatten.length * n) :
    ∃ k, k < ivs.length ∧ count + (ivs.take k).flatten.length * n ≤ to_recv.length ∧
      to_recv.length < count + (ivs.take (k + 1)).flatten.length * n ∧
      unpack_intervals n store to_recv ivs count field =
        .out_of_range (unpack n store to_recv (ivs.take k).flatten count field).state := by
  induction ivs generalizing count field with
  | nil =>
    rw [List.flatten_nil, List.length_nil, Nat.zero_mul, Nat.add_zero] at hshort
    omega
  | cons i rest ih =>
    by_cases hle : count + i.length * n ≤ to_recv.length
    · rw [List.flatten_cons, List.length_append, Nat.add_mul] at hshort
      obtain ⟨k, hk, hfit, hsh, hres⟩ := ih (count + i.length * n)
        (unpack n store to_recv i count field).state.2 hle (by omega)
      refine ⟨k + 1, by rw [List.length_cons]; omega, ?_, ?_, ?_⟩
      · rw [List.take_succ_cons, List.flatten_cons, List.length_append, Nat.add_mul]
        omega
      · rw [List.take_succ_cons, List.flatten_cons, List.length_append, Nat.add_mul]
        omega
      · rw [unpack_intervals, if_pos hle, hres, List.take_succ_cons, List.flatten_cons,
          unpack_append _ _ _ _ _ _ _ hle]
    · refine ⟨0, by rw [List.length_cons]; omega, ?_, ?_, ?_⟩
      · rw [List.take_zero, List.flatten_nil, List.length_nil, Nat.zero_mul, Nat.add_zero]
        exact hcount
      · rw [List.take_succ_cons, List.take_zero, List.flatten_cons, List.flatten_nil,
          List.append_nil]
        omega
      · rw [unpack_intervals, if_neg hle, List.take_zero, List.flatten_nil, unpack_nil]
        rfl

/-- The receive loop by the length of the payload: long enough, it ends after the expected
number of values and ignores the rest; too short, it comes to a read past the end at the
first interval that the payload does not cover, when the cells of the intervals before
have been updated, each from its own run of the payload, and no other cell has. -/
theorem unpack_intervals_by_length {dim : Nat} {β γ : Type} (n : Nat)
    (store : γ → List β → γ) (to_recv : List β) (S : CellArray dim)
    (field : Cell dim → γ) :
    (S.card * n ≤ to_recv.length →
        (unpack_intervals n store to_recv (runs (visit S)) 0 field).is_done = true ∧
          (unpack_intervals n store to_recv (runs (visit S)) 0 field).state.1 = S.card * n ∧
          unpack_intervals n store (to_recv.take (S.card * n)) (runs (visit S)) 0 field =
            unpack_intervals n store to_recv (runs (visit S)) 0 field) ∧
      (to_recv.length < S.card * n →
        ∃ k, k < (runs (visit S)).length ∧
          ((runs (visit S)).take k).flatten.length * n ≤ to_recv.length ∧
          to_recv.length < ((runs (visit S)).take (k + 1)).flatten.length * n ∧
          ∃ g, unpack_intervals n store to_recv (runs (visit S)) 0 field =
              .out_of_range (((runs (visit S)).take k).flatten.length * n, g) ∧
            (∀ (j : Nat) (c : Cell dim), ((runs (visit S)).take k).flatten[j]? = some c →
              g c = store (field c) ((to_recv.drop (j * n)).take n)) ∧
            ∀ c, c ∉ ((runs (visit S)).take k).flatten → g c = field c) := by
  constructor
  · intro hlen
    have hfl : 0 + (runs (visit S)).flatten.length * n ≤ to_recv.length := by
      rw [runs_flatten, visit_length]
      omega
    have hfl2 : 0 + (runs (visit S)).flatten.length * n ≤
        (to_recv.take (S.card * n)).length := by
      rw [runs_flatten, visit_length, List.length_take]
      omega
    rw [unpack_intervals_done n store to_recv _ 0 field hfl,
      unpack_intervals_done n store _ _ 0 field hfl2, runs_flatten]
    obtain ⟨g, hg, -, -⟩ := unpack_get n store to_recv (visit S) (visit_nodup S) 0 field
      (by rw [visit_length]; omega)
    rw [visit_length, Nat.zero_add] at hg
    refine ⟨by rw [hg]; rfl, by rw [hg]; rfl, ?_⟩
    exact unpack_take n store to_recv (visit S) 0 field _ (by rw [visit_length]; omega)
  · intro hlen
    obtain ⟨k, hk, hfit, hsh, hres⟩ := unpack_intervals_short n store to_recv
      (runs (visit S)) 0 field (Nat.zero_le _)
      (by rw [runs_flatten, visit_length]; omega)
    have hnd : ((runs (visit S)).take k).flatten.Nodup := by
      have h := visit_nodup S
      rw [← runs_flatten (visit S), ← List.take_append_drop k (runs (visit S)),
        List.flatten_append] at h
      exact h.of_append_left
    obtain ⟨g, hg, hout, hin⟩ := unpack_get n store to_recv _ hnd 0 field hfit
    rw [Nat.zero_add] at hfit hsh hg
    refine ⟨k, hk, hfit, hsh, g, by rw [hres, hg]; rfl, ?_, hout⟩
    intro j c hc
    obtain ⟨hj, hjc⟩ := List.getElem?_eq_some.mp hc
    have h := hin j hj
    rw [List.get_eq_getElem, hjc, Nat.zero_add] at h
    exact h

theorem headD_take_drop (l : List Nat) (k : Nat) :
    ((l.drop (0 + k * 1)).take 1).headD 0 = l.getD k 0 := by
  rw [Nat.zero_add, Nat.mul_one]
  induction l generalizing k with
  | nil => simp
  | cons a l ih =>
    cases k with
    | zero => simp
    | succ k => simpa using ih k

/-- C19, counterexample: the ghost `in_interface` of `rank_b` for `rank_a` at level `0`
has two cells, so two values are expected for a field of one component. A payload of three
values is received as if it had two: the receive ends, and the third value is dropped. The
`in_interface` of `rank_middle` for `rank_outer` has the two intervals `[1, 2)` and
`[3, 4)`: a payload of one value sends the loop past the end of the payload after the cell
`1` has been written. The same holds for the tags. -/
theorem subdomains_recv_no_length_check :
    (ghost_in_interface rank_b rank_a 0).card * 1 = 2 ∧
      (update_ghost_subdomains_recv 1 rank_b rank_a 0 [7, 8, 9] fun _ => [0]).is_done = true ∧
      (update_ghost_subdomains_recv 1 rank_b rank_a 0 [7, 8, 9] fun _ => [0]).state.1 = 2 ∧
      (update_ghost_subdomains_recv 1 rank_b rank_a 0 [7, 8, 9] fun _ => [0]).state.2
          (cell1 0 2) = [8] ∧
      runs (visit (ghost_in_interface rank_middle rank_outer 0)) =
        [[cell1 0 1], [cell1 0 3]] ∧
      (update_ghost_subdomains_recv 1 rank_middle rank_outer 0 [7] fun _ => [0]).is_done =
        false ∧
      (update_ghost_subdomains_recv 1 rank_middle rank_outer 0 [7] fun _ => [0]).state.2
          (cell1 0 1) = [7] ∧
      (update_ghost_subdomains_recv 1 rank_middle rank_outer 0 [7] fun _ => [0]).state.2
          (cell1 0 3) = [0] ∧
      (tag_in_interface rank_b rank_a 0).card = 2 ∧
      (update_tag_subdomains_recv false rank_b rank_a 0 [4, 4, 4] fun _ => 0).is_done = true ∧
      runs (visit (tag_in_interface rank_middle rank_outer 0)) =
        [[cell1 0 1], [cell1 0 3]] ∧
      (update_tag_subdomains_recv false rank_middle rank_outer 0 [4] fun _ => 0).is_done =
        false ∧
      (update_tag_subdomains_recv false rank_middle rank_outer 0 [4] fun _ => 0).state.2
          (cell1 0 1) = 4 ∧
      (update_tag_subdomains_recv false rank_middle rank_outer 0 [4] fun _ => 0).state.2
          (cell1 0 3) = 0 := by
  decide

/-- C19, amended: `update_ghost_subdomains` and `update_tag_subdomains` never compare the
length of the received payload with the number of values they expect (the number of cells
of `in_interface` times the number of components, one value per cell for a tag). When the
payload holds at least that many values the receive ends, has consumed exactly that many
and is the receive of the payload cut at that length, the surplus being ignored. When it
holds fewer, the copy loop comes to a read past the end of the payload at the first
interval `k` of `in_interface` that the payload does not cover: the cells of the intervals
before it have been updated, each from its own run of the payload (by OR or by overwrite
for a tag), and the cells of the later intervals and outside the interface are unchanged;
for a tag, whose values are first copied aside, so are the cells of the interval `k`. -/
theorem subdomains_recv_by_length {dim : Nat} {β : Type} (n_comp : Nat) (erase : Bool)
    (mesh neighbour : RankMesh dim) (level : Nat) (to_recv : List β)
    (field : Cell dim → List β) (to_recv_tag : List Nat) (tag : Cell dim → Nat) :
    ((ghost_in_interface mesh neighbour level).card * n_comp ≤ to_recv.length →
        (update_ghost_subdomains_recv n_comp mesh neighbour level to_recv field).is_done = true ∧
          (update_ghost_subdomains_recv n_comp mesh neighbour level to_recv field).state.1 =
            (ghost_in_interface mesh neighbour level).card * n_comp ∧
          update_ghost_subdomains_recv n_comp mesh neighbour level
              (to_recv.take ((ghost_in_interface mesh neighbour level).card * n_comp)) field =
            update_ghost_subdomains_recv n_comp mesh neighbour level to_recv field) ∧
      (to_recv.length < (ghost_in_interface mesh neighbour level).card * n_comp →
        ∃ k, k < (runs (visit (ghost_in_interface mesh neighbour level))).length ∧
          ((runs (visit (ghost_in_interface mesh neighbour level))).take k).flatten.length *
              n_comp ≤ to_recv.length ∧
          to_recv.length <
            ((runs (visit (ghost_in_interface mesh neighbour level))).take
              (k + 1)).flatten.length * n_comp ∧
          ∃ g, update_ghost_subdomains_recv n_comp mesh neighbour level to_recv field =
              .out_of_range
                (((runs (visit (ghost_in_interface mesh neighbour level))).take
                  k).flatten.length * n_comp, g) ∧
            (∀ (j : Nat) (c : Cell dim),
              ((runs (visit (ghost_in_interface mesh neighbour level))).take k).flatten[j]? =
                  some c →
                g c = (to_recv.drop (j * n_comp)).take n_comp) ∧
            ∀ c, c ∉ ((runs (visit (ghost_in_interface mesh neighbour level))).take
                (k + 1)).flatten → g c = field c) ∧
      ((tag_in_interface mesh neighbour level).card * 1 ≤ to_recv_tag.length →
        (update_tag_subdomains_recv erase mesh neighbour level to_recv_tag tag).is_done = true ∧
          (update_tag_subdomains_recv erase mesh neighbour level to_recv_tag tag).state.1 =
            (tag_in_interface mesh neighbour level).card * 1 ∧
          update_tag_subdomains_recv erase mesh neighbour level
              (to_recv_tag.take ((tag_in_interface mesh neighbour level).card * 1)) tag =
            update_tag_subdomains_recv erase mesh neighbour level to_recv_tag tag) ∧
      (to_recv_tag.length < (tag_in_interface mesh neighbour level).card * 1 →
        ∃ k, k < (runs (visit (tag_in_interface mesh neighbour level))).length ∧
          ((runs (visit (tag_in_interface mesh neighbour level))).take k).flatten.length ≤
            to_recv_tag.length ∧
          to_recv_tag.length <
            ((runs (visit (tag_in_interface mesh neighbour level))).take
              (k + 1)).flatten.length ∧
          ∃ g, update_tag_subdomains_recv erase mesh neighbour level to_recv_tag tag =
              .out_of_range
                (((runs (visit (tag_in_interface mesh neighbour level))).take
                  k).flatten.length, g) ∧
            (∀ (j : Nat) (c : Cell dim),
              ((runs (visit (tag_in_interface mesh neighbour level))).take k).flatten[j]? =
                  some c →
                g c = if erase then to_recv_tag.getD j 0
                  else tag c ||| to_recv_tag.getD j 0) ∧
            ∀ c, c ∉ ((runs (visit (tag_in_interface mesh neighbour level))).take
                k).flatten → g c = tag c) := by
  simp only [update_ghost_subdomains_recv_intervals, update_tag_subdomains_recv_intervals]
  refine ⟨(unpack_intervals_by_length n_comp _ to_recv _ field).1, ?_,
    (unpack_intervals_by_length 1 _ to_recv_tag _ tag).1, ?_⟩
  · intro hlen
    obtain ⟨k, hk, hfit, hsh, g, hg, hin, hout⟩ := (unpack_intervals_by_length n_comp
      (fun _ values => values) to_recv (ghost_in_interface mesh neighbour level) field).2 hlen
    exact ⟨k, hk, hfit, hsh, g, hg, hin,
      fun c hc => hout c fun h => hc (take_flatten_subset _ k c h)⟩
  · intro hlen
    obtain ⟨k, hk, hfit, hsh, g, hg, hin, hout⟩ := (unpack_intervals_by_length 1
      (fun old values => if erase then values.headD 0 else old ||| values.headD 0)
      to_recv_tag (tag_in_interface mesh neighbour level) tag).2 hlen
    rw [Nat.mul_one] at hfit hsh hg
    refine ⟨k, hk, hfit, hsh, g, hg, ?_, hout⟩
    intro j c hc
    have h := hin j c hc
    have hd := headD_take_drop to_recv_tag j
    rw [Nat.zero_add] at hd
    rw [h, hd]

/-- C19, amended, at two exchanges on a line. Between `rank_b` and `rank_a` the payload
`[7, 8, 9]` is received as `[7, 8]`. Between `rank_middle` and `rank_outer`, whose
interface has the intervals `[1, 2)` and `[3, 4)`, the payload of tags `[4]` is too short:
the receive stops past its end once the cell `1` has taken the tag `4`, and the cell `3`
keeps its tag. -/
theorem subdomains_recv_by_length_witness :
    (ghost_in_interface rank_b rank_a 0).card * 1 ≤ [7, 8, 9].length ∧
      [4].length < (tag_in_interface rank_middle rank_outer 0).card * 1 ∧
      (update_ghost_subdomains_recv 1 rank_b rank_a 0 [7, 8, 9] fun _ => [0]).is_done = true ∧
      (update_ghost_subdomains_recv 1 rank_b rank_a 0 [7, 8, 9] fun _ => [0]).state.1 =
        (ghost_in_interface rank_b rank_a 0).card * 1 ∧
      (update_ghost_subdomains_recv 1 rank_b rank_a 0
          ([7, 8, 9].take ((ghost_in_interface rank_b rank_a 0).card * 1)) fun _ => [0]) =
        (update_ghost_subdomains_recv 1 rank_b rank_a 0 [7, 8, 9] fun _ => [0]) ∧
      (update_tag_subdomains_recv false rank_middle rank_outer 0 [4] fun _ => 0).state.1 = 1 ∧
      (update_tag_subdomains_recv false rank_middle rank_outer 0 [4] fun _ => 0).state.2
          (cell1 0 1) = 4 ∧
      (update_tag_subdomains_recv false rank_middle rank_outer 0 [4] fun _ => 0).state.2
          (cell1 0 3) = 0 ∧
      ∃ k, k < (runs (visit (tag_in_interface rank_middle rank_outer 0))).length ∧
        ((runs (visit (tag_in_interface rank_middle rank_outer 0))).take k).flatten.length ≤
          [4].length ∧
        [4].length <
          ((runs (visit (tag_in_interface rank_middle rank_outer 0))).take
            (k + 1)).flatten.length ∧
        ∃ g, update_tag_subdomains_recv false rank_middle rank_outer 0 [4] (fun _ => 0) =
            .out_of_range
              (((runs (visit (tag_in_interface rank_middle rank_outer 0))).take
                k).flatten.length, g) ∧
          (∀ (j : Nat) (c : Cell 1),
            ((runs (visit (tag_in_interface rank_middle rank_outer 0))).take k).flatten[j]? =
                some c →
              g c = if false then [4].getD j 0 else (fun _ => 0) c ||| [4].getD j 0) ∧
          ∀ c, c ∉ ((runs (visit (tag_in_interface rank_middle rank_outer 0))).take
              k).flatten → g c = (fun _ => 0) c :=
  have h := subdomains_recv_by_length 1 false rank_b rank_a 0 [7, 8, 9] (fun _ => [0]) [4]
    (fun _ => 0)
  have h1 := h.1 (by decide)
  ⟨by decide, by decide, h1.1, h1.2.1, h1.2.2, by decide, by decide, by decide,
    (subdomains_recv_by_length 1 false rank_middle rank_outer 0 [7] (fun _ => [0]) [4]
      (fun _ => 0)).2.2.2 (by decide)⟩

/-- C20, counterexample: with `erase` set, a cell of `rank_b` tagged keep that receives
the tag coarsen from `rank_a` ends tagged coarsen only: the tag is not the bitwise OR of
the two, and the bit keep has been cleared. -/
theorem update_tag_subdomains_erase_overwrites :
    cell1 0 1 ∈ tag_in_interface rank_b rank_a 0 ∧
      (update_tag_subdomains_recv true rank_b rank_a 0 [CellFlag.coarsen, CellFlag.coarsen]
          fun _ => CellFlag.keep).state.2 (cell1 0 1) = CellFlag.coarsen ∧
      (update_tag_subdomains_recv true rank_b rank_a 0 [CellFlag.coarsen, CellFlag.coarsen]
          fun _ => CellFlag.keep).state.2 (cell1 0 1) ≠ CellFlag.keep ||| CellFlag.coarsen ∧
      (update_tag_subdomains_recv true rank_b rank_a 0 [CellFlag.coarsen, CellFlag.coarsen]
          fun _ => CellFlag.keep).state.2 (cell1 0 1) &&& CellFlag.keep = 0 := by
  decide

/-- C20, amended: in `update_tag_subdomains`, for a payload that holds one tag per cell of
`in_interface`, the receive ends and the `k`-th interface cell takes the `k`-th received
tag: when `erase` is not set its tag becomes the bitwise OR of its tag before the exchange
and the received tag, and no bit set before the exchange is cleared in any cell; when
`erase` is set its tag becomes the received tag. The cells outside the interface keep
their tag. -/
theorem update_tag_subdomains_recv_cell {dim : Nat} (erase : Bool)
    (mesh neighbour : RankMesh dim) (level : Nat) (to_recv : List Nat) (tag : Cell dim → Nat)
    (hlen : (tag_in_interface mesh neighbour level).card ≤ to_recv.length) :
    ∃ tag2, update_tag_subdomains_recv erase mesh neighbour level to_recv tag =
        .done ((tag_in_interface mesh neighbour level).card, tag2) ∧
      (∀ c, c ∉ tag_in_interface mesh neighbour level → tag2 c = tag c) ∧
      (∀ (k : Nat) (hk : k < (visit (tag_in_interface mesh neighbour level)).length),
        tag2 ((visit (tag_in_interface mesh neighbour level)).get ⟨k, hk⟩) =
          if erase then to_recv.getD k 0
          else tag ((visit (tag_in_interface mesh neighbour level)).get ⟨k, hk⟩) |||
            to_recv.getD k 0) ∧
      (erase = false → ∀ c j, (tag c).testBit j = true → (tag2 c).testBit j = true) := by
  obtain ⟨g, hg, hout, hin⟩ := unpack_get 1
    (fun old values => if erase then values.headD 0 else old ||| values.headD 0) to_recv
    (visit (tag_in_interface mesh neighbour level))
    (visit_nodup _) 0 tag (by rw [visit_length]; omega)
  rw [visit_length, Nat.zero_add, Nat.mul_one] at hg
  have hcell : ∀ (k : Nat) (hk : k < (visit (tag_in_interface mesh neighbour level)).length),
      g ((visit (tag_in_interface mesh neighbour level)).get ⟨k, hk⟩) =
        if erase then to_recv.getD k 0
        else tag ((visit (tag_in_interface mesh neighbour level)).get ⟨k, hk⟩) |||
          to_recv.getD k 0 := by
    intro k hk
    rw [hin k hk, headD_take_drop]
  refine ⟨g, by rw [update_tag_subdomains_recv_unpack _ _ _ _ _ _ (by omega), hg],
    fun c hc => hout c (by rwa [mem_visit]), hcell, ?_⟩
  intro herase c j hj
  by_cases hc : c ∈ visit (tag_in_interface mesh neighbour level)
  · obtain ⟨k, hk⟩ := List.mem_iff_get.mp hc
    rw [← hk, hcell k.1 k.2, herase]
    simp only [Bool.false_eq_true, if_false, Nat.testBit_or, Bool.or_eq_true]
    left
    rw [hk]
    exact hj
  · rw [hout c hc]
    exact hj

/-- C20, amended, at the exchange between `rank_b` and `rank_a` without `erase`: the cells
of `rank_b` tagged keep that receive coarsen end with both bits. -/
theorem update_tag_subdomains_recv_cell_witness :
    (tag_in_interface rank_b rank_a 0).card ≤ [CellFlag.coarsen, CellFlag.coarsen].length ∧
      (update_tag_subdomains_recv false rank_b rank_a 0 [CellFlag.coarsen, CellFlag.coarsen]
          fun _ => CellFlag.keep).state.2 (cell1 0 1) = CellFlag.keep ||| CellFlag.coarsen ∧
      ∃ tag2, update_tag_subdomains_recv false rank_b rank_a 0
            [CellFlag.coarsen, CellFlag.coarsen] (fun _ => CellFlag.keep) =
          .done ((tag_in_interface rank_b rank_a 0).card, tag2) ∧
        (∀ c, c ∉ tag_in_interface rank_b rank_a 0 → tag2 c = CellFlag.keep) ∧
        (∀ (k : Nat) (hk : k < (visit (tag_in_interface rank_b rank_a 0)).length),
          tag2 ((visit (tag_in_interface rank_b rank_a 0)).get ⟨k, hk⟩) =
            if false = true then [CellFlag.coarsen, CellFlag.coarsen].getD k 0
            else CellFlag.keep ||| [CellFlag.coarsen, CellFlag.coarsen].getD k 0) ∧
        (false = false → ∀ c j, (CellFlag.keep).testBit j = true → (tag2 c).testBit j = true) :=
  ⟨by decide, by decide,
    update_tag_subdomains_recv_cell false rank_b rank_a 0 [CellFlag.coarsen, CellFlag.coarsen]
      (fun _ => CellFlag.keep) (by decide)⟩

/-! ## The classification of the tags and the regions of the transfer -/

/-- C24: `update_field` classifies the tag of a leaf by the first bit that matches, in the
order refine, keep, coarsen. A tag with the refine bit adds what the tag refine alone
adds, whatever its other bits; a tag with the keep bit and without the refine bit adds
exactly the cell; a tag with the coarsen bit and neither of the other two adds what the
tag coarsen alone adds; a leaf whose tag has none of the three bits adds nothing, and the
candidate cell list is then built from the other leaves only. -/
theorem update_field_tag_classification {dim : Nat} (mesh : Mesh dim) (t : Nat)
    (c : Cell dim) :
    (t &&& CellFlag.refine ≠ 0 →
        leaf_cells mesh.min_level mesh.max_level t c =
            leaf_cells mesh.min_level mesh.max_level CellFlag.refine c ∧
          leaf_cells mesh.min_level mesh.max_level t c =
            if c.level < mesh.max_level then c.children else {c}) ∧
      (t &&& CellFlag.refine = 0 → t &&& CellFlag.keep ≠ 0 →
        leaf_cells mesh.min_level mesh.max_level t c = {c}) ∧
      (t &&& CellFlag.refine = 0 → t &&& CellFlag.keep = 0 → t &&& CellFlag.coarsen ≠ 0 →
        leaf_cells mesh.min_level mesh.max_level t c =
            leaf_cells mesh.min_level mesh.max_level CellFlag.coarsen c ∧
          leaf_cells mesh.min_level mesh.max_level t c =
            if c.level > mesh.min_level then {c.parent} else {c}) ∧
      (t &&& CellFlag.refine = 0 → t &&& CellFlag.keep = 0 → t &&& CellFlag.coarsen = 0 →
        leaf_cells mesh.min_level mesh.max_level t c = ∅ ∧
          ∀ tag : Cell dim → Nat, tag c = t →
            candidate_cells mesh tag =
              (mesh.cells.erase c).biUnion fun x =>
                leaf_cells mesh.min_level mesh.max_level (tag x) x) := by
  have hrefine : CellFlag.refine &&& CellFlag.refine ≠ 0 := by decide
  have hco1 : CellFlag.coarsen &&& CellFlag.refine = 0 := by decide
  have hco2 : CellFlag.coarsen &&& CellFlag.keep = 0 := by decide
  have hco3 : CellFlag.coarsen &&& CellFlag.coarsen ≠ 0 := by decide
  refine ⟨?_, ?_, ?_, ?_⟩
  · intro hr
    constructor
    · unfold leaf_cells
      rw [if_pos hr, if_pos hrefine]
    · unfold leaf_cells
      rw [if_pos hr, refine_cells_eq_children, add_point_eq]
  · intro hr hk
    exact leaf_cells_keep _ _ t c hr hk
  · intro hr hk hco
    constructor
    · unfold leaf_cells
      rw [if_neg (not_not.mpr hr), if_neg (not_not.mpr hk), if_pos hco,
        if_neg (not_not.mpr hco1), if_neg (not_not.mpr hco2), if_pos hco3]
    · by_cases hl : c.level > mesh.min_level
      · rw [if_pos hl]
        exact leaf_cells_coarsen _ _ t c hr hk hco hl
      · rw [if_neg hl]
        exact leaf_cells_coarsen_bottom _ _ t c hr hk hco hl
  · intro hr hk hco
    have hempty : leaf_cells mesh.min_level mesh.max_level t c = ∅ := by
      unfold leaf_cells
      rw [if_neg (not_not.mpr hr), if_neg (not_not.mpr hk), if_neg (not_not.mpr hco)]
    refine ⟨hempty, ?_⟩
    intro tag htag
    ext x
    unfold candidate_cells
    simp only [Finset.mem_biUnion, Finset.mem_erase]
    constructor
    · rintro ⟨y, hy, hx⟩
      refine ⟨y, ⟨?_, hy⟩, hx⟩
      rintro rfl
      rw [htag, hempty] at hx
      exact absurd hx (Finset.not_mem_empty _)
    · rintro ⟨y, ⟨_, hy⟩, hx⟩
      exact ⟨y, hy, hx⟩

/-- A sequence of transfer steps gives to a cell the value it had before, the value of
the projection or the value of the prediction. -/
theorem foldl_transfer_value {dim : Nat} {α : Type} (T : Transfer dim α)
    (mesh new_mesh : Mesh dim) (src : Cell dim → α) (x : Cell dim) (ls : List Nat)
    (g : Cell dim → α) :
    ls.foldl (transfer_step T mesh new_mesh src) g x = g x ∨
      ls.foldl (transfer_step T mesh new_mesh src) g x = T.projection src x ∨
      ls.foldl (transfer_step T mesh new_mesh src) g x = T.prediction src x := by
  induction ls generalizing g with
  | nil => exact Or.inl rfl
  | cons a ls ih =>
    rw [List.foldl_cons]
    rcases ih (transfer_step T mesh new_mesh src g a) with h | h | h
    · rw [h]
      unfold transfer_step write
      split_ifs
      · exact Or.inr (Or.inr rfl)
      · exact Or.inr (Or.inl rfl)
      · exact Or.inl rfl
    · exact Or.inr (Or.inl h)
    · exact Or.inr (Or.inr h)

/-- A cell that lies in the projection region or under the prediction region of one of
the levels visited holds the value of the projection or of the prediction. -/
theorem foldl_transfer_written {dim : Nat} {α : Type} (T : Transfer dim α)
    (mesh new_mesh : Mesh dim) (src : Cell dim → α) (x : Cell dim) (ls : List Nat)
    (g : Cell dim → α)
    (h : ∃ level ∈ ls, x ∈ set_coarsen mesh new_mesh level ∨
      x ∈ (set_refine mesh new_mesh level).biUnion Cell.children) :
    ls.foldl (transfer_step T mesh new_mesh src) g x = T.projection src x ∨
      ls.foldl (transfer_step T mesh new_mesh src) g x = T.prediction src x := by
  induction ls generalizing g with
  | nil =>
    obtain ⟨level, hl, _⟩ := h
    simp at hl
  | cons a ls ih =>
    rw [List.foldl_cons]
    by_cases hrest : ∃ level ∈ ls, x ∈ set_coarsen mesh new_mesh level ∨
        x ∈ (set_refine mesh new_mesh level).biUnion Cell.children
    · exact ih _ hrest
    · obtain ⟨level, hl, hx⟩ := h
      have hla : level = a := by
        rcases List.mem_cons.mp hl with h1 | h1
        · exact h1
        · exact absurd ⟨level, h1, hx⟩ hrest
      subst hla
      rcases foldl_transfer_value T mesh new_mesh src x ls
        (transfer_step T mesh new_mesh src g level) with h1 | h1 | h1
      · rw [h1]
        unfold transfer_step write
        split_ifs with h2 h3
        · exact Or.inr rfl
        · exact Or.inl rfl
        · rcases hx with hx | hx
          · exact absurd hx h3
          · exact absurd hx h2
      · exact Or.inl h1
      · exact Or.inr h1

/-- C22: for a mesh whose leaves lie at levels of `[min_level, max_level]` (they lie in
the reference role, which holds the leaves and the ghosts), every leaf `x` of the
candidate mesh built by `update_field` lies in a region of `detail::update_fields` at a
level that its loops visit: the copy region `reference[L] ∩ new cells[L]` at its level
`L`, the projection region of level `L + 1` (it is the parent of an old leaf of level
`L + 1`), or under the prediction region of level `L` (it is a child of an old leaf of
level `L - 1`). The
migrated field then holds at `x` the copied value, the value of the projection or the
value of the prediction, each taken from the old field. -/
theorem update_fields_covers_new_leaves {dim : Nat} {α : Type} [Zero α] (M : MeshModel dim)
    (T : Transfer dim α) (mesh : Mesh dim) (tag : Cell dim → Nat) (field : Field dim α)
    (hmesh : ∀ c ∈ mesh.cells, mesh.min_level ≤ c.level ∧ c.level ≤ mesh.max_level)
    (x : Cell dim) (hx : x ∈ (candidate_mesh mesh tag).cells) :
    ((x.level ∈ levels mesh.min_level mesh.max_level ∧
          x ∈ copy_set M mesh (candidate_mesh mesh tag) x.level) ∨
        (x.level + 1 ∈ levels (mesh.min_level + 1) mesh.max_level ∧
          x ∈ set_coarsen mesh (candidate_mesh mesh tag) (x.level + 1) ∧
          ∃ c ∈ mesh.cells, c.level = x.level + 1 ∧ c.parent = x) ∨
        (x.level ∈ levels (mesh.min_level + 1) mesh.max_level ∧
          x ∈ (set_refine mesh (candidate_mesh mesh tag) x.level).biUnion Cell.children ∧
          ∃ c ∈ mesh.cells, c.level + 1 = x.level ∧ x ∈ c.children)) ∧
      ((update_fields M T mesh (candidate_mesh mesh tag) field).data x = field.data x ∨
        (update_fields M T mesh (candidate_mesh mesh tag) field).data x =
          T.projection field.data x ∨
        (update_fields M T mesh (candidate_mesh mesh tag) field).data x =
          T.prediction field.data x) := by
  have hregion : (x.level ∈ levels mesh.min_level mesh.max_level ∧
        x ∈ copy_set M mesh (candidate_mesh mesh tag) x.level) ∨
      (x.level + 1 ∈ levels (mesh.min_level + 1) mesh.max_level ∧
        x ∈ set_coarsen mesh (candidate_mesh mesh tag) (x.level + 1) ∧
        ∃ c ∈ mesh.cells, c.level = x.level + 1 ∧ c.parent = x) ∨
      (x.level ∈ levels (mesh.min_level + 1) mesh.max_level ∧
        x ∈ (set_refine mesh (candidate_mesh mesh tag) x.level).biUnion Cell.children ∧
        ∃ c ∈ mesh.cells, c.level + 1 = x.level ∧ x ∈ c.children) := by
    have hx2 := hx
    simp only [candidate_mesh, candidate_cells, Finset.mem_biUnion] at hx2
    obtain ⟨c, hc, hxc⟩ := hx2
    obtain ⟨hmin, hmax⟩ := hmesh c hc
    rcases leaf_cells_cases _ _ _ c x hxc with ⟨_, hl, hch⟩ | ⟨_, _, hl, hpar⟩ | hself
    · right
      right
      have hxl : x.level = c.level + 1 := ((mem_children c x).mp hch).1
      have hcx : c = x.parent := (parent_unique x c (by omega)).mp hch
      refine ⟨(mem_levels _ _ _).mpr ⟨by omega, by omega⟩, ?_, c, hc, hxl.symm, hch⟩
      rw [Finset.mem_biUnion]
      refine ⟨c, ?_, hch⟩
      unfold set_refine
      rw [mem_intersection_on_coarser]
      exact ⟨hc, by omega, x, hx, rfl, by rw [on_coarser_eq_parent, hcx]⟩
    · right
      left
      have hxl : x.level = c.level - 1 := by rw [hpar]; rfl
      have hc1 : x.level + 1 = c.level := by omega
      refine ⟨(mem_levels _ _ _).mpr ⟨by omega, by omega⟩, ?_, c, hc, hc1.symm, hpar.symm⟩
      unfold set_coarsen
      rw [mem_intersection_on_coarser]
      exact ⟨hx, by omega, c, hc, hc1.symm, by rw [on_coarser_eq_parent, hpar]⟩
    · left
      subst hself
      refine ⟨(mem_levels _ _ _).mpr ⟨hmin, hmax⟩, ?_⟩
      simp only [copy_set, at_level, MeshModel.reference, Finset.mem_inter, Finset.mem_filter,
        Finset.mem_union]
      exact ⟨⟨Or.inl hc, trivial⟩, hx, trivial⟩
  refine ⟨hregion, ?_⟩
  show (levels (mesh.min_level + 1) mesh.max_level).foldl
      (transfer_step T mesh (candidate_mesh mesh tag) field.data)
      (copy_pass M mesh (candidate_mesh mesh tag) field.data) x = field.data x ∨ _
  rcases hregion with ⟨hl, hcopy⟩ | ⟨hl, hco, _⟩ | ⟨hl, hre, _⟩
  · rcases foldl_transfer_value T mesh (candidate_mesh mesh tag) field.data x
      (levels (mesh.min_level + 1) mesh.max_level)
      (copy_pass M mesh (candidate_mesh mesh tag) field.data) with h | h | h
    · left
      rw [h]
      exact foldl_write_eq (fun level => copy_set M mesh (candidate_mesh mesh tag) level)
        field.data _ _ x x.level hl hcopy
    · exact Or.inr (Or.inl h)
    · exact Or.inr (Or.inr h)
  · exact Or.inr (foldl_transfer_written T mesh (candidate_mesh mesh tag) field.data x _ _
      ⟨x.level + 1, hl, Or.inl hco⟩)
  · exact Or.inr (foldl_transfer_written T mesh (candidate_mesh mesh tag) field.data x _ _
      ⟨x.level, hl, Or.inr hre⟩)

/-- C22 on `mixed_line` with the leaf of level `0` tagged refine and the leaves of level
`1` tagged coarsen: the new leaf `(0, 1)`, parent of the two coarsened leaves, lies in the
projection region of level `1`. -/
theorem update_fields_covers_new_leaves_witness :
    (∀ c ∈ mixed_line.cells, mixed_line.min_level ≤ c.level ∧ c.level ≤ mixed_line.max_level) ∧
      cell1 0 1 ∈ (candidate_mesh mixed_line refine_then_coarsen).cells ∧
      cell1 0 1 ∈ set_coarsen mixed_line (candidate_mesh mixed_line refine_then_coarsen) 1 ∧
      (((cell1 0 1).level ∈ levels mixed_line.min_level mixed_line.max_level ∧
            cell1 0 1 ∈ copy_set (leaves_only 1) mixed_line
              (candidate_mesh mixed_line refine_then_coarsen) (cell1 0 1).level) ∨
          ((cell1 0 1).level + 1 ∈ levels (mixed_line.min_level + 1) mixed_line.max_level ∧
            cell1 0 1 ∈ set_coarsen mixed_line (candidate_mesh mixed_line refine_then_coarsen)
              ((cell1 0 1).level + 1) ∧
            ∃ c ∈ mixed_line.cells, c.level = (cell1 0 1).level + 1 ∧ c.parent = cell1 0 1) ∨
          ((cell1 0 1).level ∈ levels (mixed_line.min_level + 1) mixed_line.max_level ∧
            cell1 0 1 ∈ (set_refine mixed_line (candidate_mesh mixed_line refine_then_coarsen)
              (cell1 0 1).level).biUnion Cell.children ∧
            ∃ c ∈ mixed_line.cells, c.level + 1 = (cell1 0 1).level ∧
              cell1 0 1 ∈ c.children)) ∧
        ((update_fields (leaves_only 1) (copy_transfer 1) mixed_line
              (candidate_mesh mixed_line refine_then_coarsen) ⟨1, 3, fun c => c.i⟩).data
              (cell1 0 1) = (fun c : Cell 1 => c.i) (cell1 0 1) ∨
          (update_fields (leaves_only 1) (copy_transfer 1) mixed_line
              (candidate_mesh mixed_line refine_then_coarsen) ⟨1, 3, fun c => c.i⟩).data
              (cell1 0 1) = (copy_transfer 1).projection (fun c : Cell 1 => c.i) (cell1 0 1) ∨
          (update_fields (leaves_only 1) (copy_transfer 1) mixed_line
              (candidate_mesh mixed_line refine_then_coarsen) ⟨1, 3, fun c => c.i⟩).data
              (cell1 0 1) = (copy_transfer 1).prediction (fun c : Cell 1 => c.i) (cell1 0 1)) :=
  ⟨by decide, by decide, by decide,
    update_fields_covers_new_leaves (leaves_only 1) (copy_transfer 1) mixed_line
      refine_then_coarsen ⟨1, 3, fun c => c.i⟩ (by decide) (cell1 0 1) (by decide)⟩

/-! ## The region covered by the candidate cells -/

theorem ancestor_level {dim : Nat} (c : Cell dim) (n : Nat) :
    (c.ancestor n).level = c.level - n := by
  induction n with
  | zero => rfl
  | succ n ih =>
    show (c.ancestor n).level - 1 = c.level - (n + 1)
    rw [ih]
    omega

theorem ancestor_add {dim : Nat} (c : Cell dim) (m n : Nat) :
    c.ancestor (m + n) = (c.ancestor m).ancestor n := by
  induction n with
  | zero => rfl
  | succ n ih =>
    show (c.ancestor (m + n)).parent = ((c.ancestor m).ancestor n).parent
    rw [ih]

theorem contains_refl {dim : Nat} (a : Cell dim) : a.contains a :=
  ⟨le_refl _, by rw [Nat.sub_self]; rfl⟩

theorem contains_trans {dim : Nat} (a b c : Cell dim) (hab : a.contains b)
    (hbc : b.contains c) : a.contains c := by
  obtain ⟨h1, h2⟩ := hab
  obtain ⟨h3, h4⟩ := hbc
  refine ⟨le_trans h1 h3, ?_⟩
  have h : c.level - a.level = (c.level - b.level) + (b.level - a.level) := by omega
  rw [h, ancestor_add, h4, h2]

/-- Two cells that contain the same cell are nested. -/
theorem contains_of_common {dim : Nat} (a b p : Cell dim) (ha : a.contains p)
    (hb : b.contains p) (hl : a.level ≤ b.level) : a.contains b := by
  obtain ⟨h1, h2⟩ := ha
  obtain ⟨h3, h4⟩ := hb
  refine ⟨hl, ?_⟩
  have h : p.level - a.level = (p.level - b.level) + (b.level - a.level) := by omega
  rw [h, ancestor_add, h4] at h2
  exact h2

theorem parent_contains {dim : Nat} (c : Cell dim) (hl : 0 < c.level) : c.parent.contains c := by
  refine ⟨Nat.sub_le _ _, ?_⟩
  have h : c.level - c.parent.level = 1 := by
    show c.level - (c.level - 1) = 1
    omega
  rw [h]
  rfl

theorem contains_child {dim : Nat} (c x : Cell dim) (hx : x ∈ c.children) : c.contains x := by
  have hxl : x.level = c.level + 1 := ((mem_children c x).mp hx).1
  have hcx : c = x.parent := (parent_unique x c (by omega)).mp hx
  rw [hcx]
  exact parent_contains x (by omega)

/-- A cell that contains a finer cell contains it through one of its children. -/
theorem child_of_contains {dim : Nat} (c p : Cell dim) (hc : c.contains p)
    (hl : c.level < p.level) :
    p.ancestor (p.level - (c.level + 1)) ∈ c.children ∧
      (p.ancestor (p.level - (c.level + 1))).contains p := by
  obtain ⟨h1, h2⟩ := hc
  have hlev : (p.ancestor (p.level - (c.level + 1))).level = c.level + 1 := by
    rw [ancestor_level]
    omega
  constructor
  · rw [parent_unique _ _ (by omega)]
    have h : p.level - c.level = (p.level - (c.level + 1)) + 1 := by omega
    rw [h, ancestor_add] at h2
    exact h2.symm
  · refine ⟨by omega, ?_⟩
    rw [hlev]

/-- Two children of a cell that contain the same cell are equal. -/
theorem child_unique {dim : Nat} (c x y p : Cell dim) (hx : x ∈ c.children)
    (hy : y ∈ c.children) (hxp : x.contains p) (hyp : y.contains p) : x = y := by
  have hxl : x.level = c.level + 1 := ((mem_children c x).mp hx).1
  have hyl : y.level = c.level + 1 := ((mem_children c y).mp hy).1
  rw [← hxp.2, ← hyp.2, hxl, hyl]

/-- Every cell contains a cell of each finer level. -/
theorem exists_descendant {dim : Nat} (b : Cell dim) (k : Nat) :
    ∃ p : Cell dim, p.level = b.level + k ∧ b.contains p := by
  induction k with
  | zero => exact ⟨b, rfl, contains_refl b⟩
  | succ k ih =>
    obtain ⟨p, hp, hbp⟩ := ih
    refine ⟨⟨p.level + 1, 2 * p.i, 2 * p.index + 0⟩, ?_, ?_⟩
    · show p.level + 1 = b.level + (k + 1)
      omega
    · apply contains_trans b p _ hbp
      apply contains_child
      rw [mem_children]
      exact ⟨rfl, Or.inl rfl, 0, fun _ => Or.inl rfl, rfl⟩

/-- The cells added by a leaf, branch by branch. -/
theorem leaf_cells_eq {dim : Nat} (min_level max_level t : Nat) (c : Cell dim) :
    leaf_cells min_level max_level t c =
      if t &&& CellFlag.refine ≠ 0 then
        if c.level < max_level then c.children else {c}
      else if t &&& CellFlag.keep ≠ 0 then {c}
      else if t &&& CellFlag.coarsen ≠ 0 then
        if c.level > min_level then {c.parent} else {c}
      else ∅ := by
  unfold leaf_cells
  simp only [refine_cells_eq_children, add_point_eq, shift_index_eq, shiftRight_one]
  rfl

/-- Two candidate cells added by the same leaf that contain the same cell are equal. -/
theorem leaf_cells_unique {dim : Nat} (min_level max_level t : Nat) (c b1 b2 p : Cell dim)
    (h1 : b1 ∈ leaf_cells min_level max_level t c)
    (h2 : b2 ∈ leaf_cells min_level max_level t c)
    (hp1 : b1.contains p) (hp2 : b2.contains p) : b1 = b2 := by
  rw [leaf_cells_eq] at h1 h2
  split_ifs at h1 h2
  · exact child_unique c b1 b2 p h1 h2 hp1 hp2
  all_goals
    first
    | (rw [Finset.mem_singleton] at h1 h2; rw [h1, h2])
    | exact absurd h1 (Finset.not_mem_empty _)

/-- In a non-overlapping cell array at most one cell contains a given cell. -/
theorem non_overlapping_unique {dim : Nat} (ca : CellArray dim) (hno : non_overlapping ca)
    (c1 c2 p : Cell dim) (h1 : c1 ∈ ca) (h2 : c2 ∈ ca) (hp1 : c1.contains p)
    (hp2 : c2.contains p) : c1 = c2 := by
  rcases le_total c1.level c2.level with h | h
  · exact hno c1 h1 c2 h2 (Or.inl (contains_of_common c1 c2 p hp1 hp2 h))
  · exact hno c1 h1 c2 h2 (Or.inr (contains_of_common c2 c1 p hp2 hp1 h))

/-- Under the hypotheses of C25, a candidate cell that contains a cell `p` finer than all
the leaves was added by the leaf that contains `p`. -/
theorem candidate_cell_source {dim : Nat} (mesh : Mesh dim) (tag : Cell dim → Nat)
    (hbit : ∀ c ∈ mesh.cells, tag c &&& CellFlag.refine ≠ 0 ∨ tag c &&& CellFlag.keep ≠ 0 ∨
      tag c &&& CellFlag.coarsen ≠ 0)
    (hsib : ∀ c ∈ mesh.cells, tag c &&& CellFlag.refine = 0 → tag c &&& CellFlag.keep = 0 →
      tag c &&& CellFlag.coarsen ≠ 0 → mesh.min_level < c.level →
      ∀ s ∈ c.parent.children, s ∈ mesh.cells ∧ tag s &&& CellFlag.refine = 0 ∧
        tag s &&& CellFlag.keep = 0 ∧ tag s &&& CellFlag.coarsen ≠ 0)
    (b p : Cell dim) (hb : b ∈ candidate_cells mesh tag) (hbp : b.contains p)
    (hp : ∀ c ∈ mesh.cells, c.level < p.level) :
    ∃ c ∈ mesh.cells, c.contains p ∧ b ∈ leaf_cells mesh.min_level mesh.max_level (tag c) c := by
  have hb2 := hb
  simp only [candidate_cells, Finset.mem_biUnion] at hb2
  obtain ⟨c0, hc0, hbc⟩ := hb2
  rcases leaf_cells_cases _ _ _ c0 b hbc with ⟨_, _, hch⟩ | ⟨hr, hk, hl, hpar⟩ | hself
  · exact ⟨c0, hc0, contains_trans c0 b p (contains_child c0 b hch) hbp, hbc⟩
  · have hco : tag c0 &&& CellFlag.coarsen ≠ 0 := by
      rcases hbit c0 hc0 with h | h | h
      · exact absurd hr h
      · exact absurd hk h
      · exact h
    subst hpar
    have hbl : c0.parent.level + 1 = c0.level := by
      show c0.level - 1 + 1 = c0.level
      omega
    have hlt : c0.parent.level < p.level := by
      have := hp c0 hc0
      omega
    obtain ⟨hx, hxp⟩ := child_of_contains c0.parent p hbp hlt
    obtain ⟨hxm, hxr, hxk, hxc⟩ := hsib c0 hc0 hr hk hco hl _ hx
    have hxl : (p.ancestor (p.level - (c0.parent.level + 1))).level = c0.parent.level + 1 :=
      ((mem_children c0.parent _).mp hx).1
    refine ⟨_, hxm, hxp, ?_⟩
    rw [leaf_cells_coarsen _ _ _ _ hxr hxk hxc (by omega), Finset.mem_singleton]
    exact (parent_unique _ c0.parent (by omega)).mp hx
  · subst hself
    exact ⟨b, hc0, hbp, hbc⟩

/-- C25: when the leaves of the mesh are pairwise non-overlapping, every tag has at least
one of the bits refine, keep, coarsen, and every leaf classified as coarsen above
`min_level` has all the children of its parent present as leaves classified as coarsen,
the candidate cells built by `update_field` are pairwise non-overlapping, across levels,
and cover the same region as the old leaves: a cell finer than all the old leaves lies in
an old leaf if and only if it lies in a candidate cell. -/
theorem update_field_candidate_tiles {dim : Nat} (mesh : Mesh dim) (tag : Cell dim → Nat)
    (hno : non_overlapping mesh.cells)
    (hbit : ∀ c ∈ mesh.cells, tag c &&& CellFlag.refine ≠ 0 ∨ tag c &&& CellFlag.keep ≠ 0 ∨
      tag c &&& CellFlag.coarsen ≠ 0)
    (hsib : ∀ c ∈ mesh.cells, tag c &&& CellFlag.refine = 0 → tag c &&& CellFlag.keep = 0 →
      tag c &&& CellFlag.coarsen ≠ 0 → mesh.min_level < c.level →
      ∀ s ∈ c.parent.children, s ∈ mesh.cells ∧ tag s &&& CellFlag.refine = 0 ∧
        tag s &&& CellFlag.keep = 0 ∧ tag s &&& CellFlag.coarsen ≠ 0) :
    non_overlapping (candidate_cells mesh tag) ∧
      ∀ p : Cell dim, (∀ c ∈ mesh.cells, c.level < p.level) →
        (covers mesh.cells p ↔ covers (candidate_cells mesh tag) p) := by
  have hnested : ∀ b1 ∈ candidate_cells mesh tag, ∀ b2 ∈ candidate_cells mesh tag,
      b1.contains b2 → b1 = b2 := by
    intro b1 hb1 b2 hb2 h12
    obtain ⟨p, hpl, hb2p⟩ := exists_descendant b2 (mesh.cells.sup Cell.level + 1)
    have hb1p := contains_trans b1 b2 p h12 hb2p
    have hp : ∀ c ∈ mesh.cells, c.level < p.level := by
      intro c hc
      have := Finset.le_sup (f := Cell.level) hc
      omega
    obtain ⟨c1, hc1, hc1p, hb1c⟩ := candidate_cell_source mesh tag hbit hsib b1 p hb1 hb1p hp
    obtain ⟨c2, hc2, hc2p, hb2c⟩ := candidate_cell_source mesh tag hbit hsib b2 p hb2 hb2p hp
    have hcc := non_overlapping_unique mesh.cells hno c1 c2 p hc1 hc2 hc1p hc2p
    subst hcc
    exact leaf_cells_unique _ _ _ c1 b1 b2 p hb1c hb2c hb1p hb2p
  constructor
  · intro b1 hb1 b2 hb2 hov
    rcases hov with h | h
    · exact hnested b1 hb1 b2 hb2 h
    · exact (hnested b2 hb2 b1 hb1 h).symm
  · intro p hp
    constructor
    · rintro ⟨a, ha, hap⟩
      have hlt := hp a ha
      have hmem : ∀ b, b ∈ leaf_cells mesh.min_level mesh.max_level (tag a) a →
          b ∈ candidate_cells mesh tag := by
        intro b hb
        unfold candidate_cells
        rw [Finset.mem_biUnion]
        exact ⟨a, ha, hb⟩
      have hself : a ∈ ({a} : CellArray dim) := Finset.mem_singleton_self a
      by_cases hr : tag a &&& CellFlag.refine ≠ 0
      · by_cases hl : a.level < mesh.max_level
        · obtain ⟨hx, hxp⟩ := child_of_contains a p hap hlt
          refine ⟨_, hmem _ ?_, hxp⟩
          rw [leaf_cells_eq, if_pos hr, if_pos hl]
          exact hx
        · refine ⟨a, hmem a ?_, hap⟩
          rw [leaf_cells_refine_top _ _ _ _ hr hl]
          exact hself
      · rw [not_not] at hr
        by_cases hk : tag a &&& CellFlag.keep ≠ 0
        · refine ⟨a, hmem a ?_, hap⟩
          rw [leaf_cells_keep _ _ _ _ hr hk]
          exact hself
        · rw [not_not] at hk
          have hco : tag a &&& CellFlag.coarsen ≠ 0 := by
            rcases hbit a ha with h | h | h
            · exact absurd hr h
            · exact absurd hk h
            · exact h
          by_cases hl : mesh.min_level < a.level
          · refine ⟨a.parent, hmem _ ?_, ?_⟩
            · rw [leaf_cells_coarsen _ _ _ _ hr hk hco hl]
              exact Finset.mem_singleton_self _
            · exact contains_trans _ a p (parent_contains a (by omega)) hap
          · refine ⟨a, hmem a ?_, hap⟩
            rw [leaf_cells_coarsen_bottom _ _ _ _ hr hk hco hl]
            exact hself
    · rintro ⟨b, hb, hbp⟩
      obtain ⟨c, hc, hcp, _⟩ := candidate_cell_source mesh tag hbit hsib b p hb hbp hp
      exact ⟨c, hc, hcp⟩

/-- C25 on `mixed_line` with the leaf of level `0` tagged refine and the two leaves of
level `1`, children of the same cell, tagged coarsen: the candidate cells are the two
children of `(0, 0)` and the cell `(0, 1)`. -/
theorem update_field_candidate_tiles_witness :
    non_overlapping mixed_line.cells ∧
      (∀ c ∈ mixed_line.cells, refine_then_coarsen c &&& CellFlag.refine ≠ 0 ∨
        refine_then_coarsen c &&& CellFlag.keep ≠ 0 ∨
        refine_then_coarsen c &&& CellFlag.coarsen ≠ 0) ∧
      (∀ c ∈ mixed_line.cells, refine_then_coarsen c &&& CellFlag.refine = 0 →
        refine_then_coarsen c &&& CellFlag.keep = 0 →
        refine_then_coarsen c &&& CellFlag.coarsen ≠ 0 → mixed_line.min_level < c.level →
        ∀ s ∈ c.parent.children, s ∈ mixed_line.cells ∧
          refine_then_coarsen s &&& CellFlag.refine = 0 ∧
          refine_then_coarsen s &&& CellFlag.keep = 0 ∧
          refine_then_coarsen s &&& CellFlag.coarsen ≠ 0) ∧
      candidate_cells mixed_line refine_then_coarsen = {cell1 1 0, cell1 1 1, cell1 0 1} ∧
      non_overlapping (candidate_cells mixed_line refine_then_coarsen) ∧
      ∀ p : Cell 1, (∀ c ∈ mixed_line.cells, c.level < p.level) →
        (covers mixed_line.cells p ↔ covers (candidate_cells mixed_line refine_then_coarsen) p) :=
  ⟨by decide, by decide, by decide, by decide,
    update_field_candidate_tiles mixed_line refine_then_coarsen (by decide) (by decide)
      (by decide)⟩

/-! ## The values of `level - 1` in the ghost updates -/

theorem size_t_pred_of_pos (level : Nat) (h1 : 1 ≤ level) (h2 : level < 2 ^ 64) :
    size_t_pred level = level - 1 := by
  unfold size_t_pred
  have h : level + 2 ^ 64 - 1 = (level - 1) + 2 ^ 64 := by omega
  rw [h, Nat.add_mod_right, Nat.mod_eq_of_lt (by omega)]

theorem prediction_sweep_predictions {dim : Nat} (mesh : GhostMesh dim) :
    (update_ghost_mr_prediction_sweep mesh).filterMap GhostStep.prediction_level =
      levels (mesh.ref_min_level + 1) mesh.ref_max_level := by
  unfold update_ghost_mr_prediction_sweep
  induction levels (mesh.ref_min_level + 1) mesh.ref_max_level with
  | nil => rfl
  | cons a l ih =>
    rw [List.flatMap_cons, List.filterMap_append, ih]
    rfl

theorem map_projection_levels {dim : Nat} (ls : List Nat) (region : Nat → CellArray dim) :
    (ls.map fun level => GhostStep.projection level (region level)).filterMap
      GhostStep.projection_level = ls := by
  induction ls with
  | nil => rfl
  | cons a l ih =>
    rw [List.map_cons, List.filterMap_cons]
    simp only [GhostStep.projection_level]
    rw [ih]

theorem fill_projection_levels {dim : Nat} (ls : List Nat) (region : Nat → CellArray dim) :
    (GhostStep.update_bc 0 :: ls.flatMap fun level =>
      [GhostStep.prediction level (region level), GhostStep.update_bc level]).filterMap
      GhostStep.projection_level = [] := by
  apply filterMap_eq_nil_of_forall
  intro s hs
  rcases List.mem_cons.mp hs with rfl | hs
  · rfl
  · obtain ⟨level, _, hs⟩ := List.mem_flatMap.mp hs
    simp only [List.mem_cons, List.mem_singleton, List.not_mem_nil, or_false] at hs
    rcases hs with rfl | rfl <;> rfl

/-- The statement of C26 checked routine by routine. In `update_ghost_mr` and in
`update_ghost_mro` every `level - 1` is formed at a level of `[1, max_level]`, and
`update_ghost_mr` calls the fills of `min_level - 1` only when `min_level > 0`. In
`update_ghost` the projections are at levels of `[1, max_level]`, but the predictions run
over every level from `mesh[reference].min_level()`: when that level is `0` the prediction
of level `0` reads `mesh[reference][level - 1]` at the wrapped index `2^64 - 1`, which is
above `max_level`. -/
theorem ghost_update_level_indices {dim : Nat} (mesh : GhostMesh dim) :
    (∀ l ∈ projection_levels (update_ghost_mr_steps mesh), 1 ≤ l ∧ l ≤ mesh.ref_max_level) ∧
      (∀ l ∈ prediction_levels (update_ghost_mr_steps mesh), 1 ≤ l ∧ l ≤ mesh.ref_max_level) ∧
      (mesh.ref_min_level = 0 →
        update_ghost_mr_coarse_fill mesh =
          [.update_bc 0, .update_ghost_periodic 0, .update_ghost_subdomains 0]) ∧
      (∀ l ∈ projection_levels (update_ghost_mro_steps mesh), 1 ≤ l ∧ l ≤ mesh.max_level) ∧
      (∀ l ∈ projection_levels (update_ghost_steps mesh), 1 ≤ l ∧ l ≤ mesh.max_level) ∧
      (∀ l, 1 ≤ l → l < 2 ^ 64 → size_t_pred l = l - 1) ∧
      prediction_levels (update_ghost_steps mesh) = levels mesh.ref_min_level mesh.max_level ∧
      (mesh.ref_min_level = 0 →
        GhostStep.prediction 0
            (intersection_on_finer (at_level mesh.pred_cells 0)
              (at_level mesh.reference (2 ^ 64 - 1))) ∈ update_ghost_steps mesh ∧
          size_t_pred 0 = 2 ^ 64 - 1 ∧
          (mesh.max_level < 2 ^ 64 - 1 → mesh.max_level < size_t_pred 0)) := by
  have hzero : size_t_pred 0 = 2 ^ 64 - 1 := by decide
  refine ⟨?_, ?_, ?_, ?_, ?_, size_t_pred_of_pos, update_ghost_prediction_levels mesh, ?_⟩
  · intro l hl
    unfold projection_levels update_ghost_mr_steps at hl
    rw [List.filterMap_append, List.filterMap_append, projection_sweep_projections,
      filterMap_eq_nil_of_forall _ _ fun s hs => (coarse_fill_plain mesh s hs).2,
      filterMap_eq_nil_of_forall _ _ (prediction_sweep_no_projection mesh),
      List.append_nil, List.append_nil, mem_levels_down] at hl
    omega
  · intro l hl
    unfold prediction_levels update_ghost_mr_steps at hl
    rw [List.filterMap_append, List.filterMap_append,
      filterMap_eq_nil_of_forall _ _ (projection_sweep_no_prediction mesh),
      filterMap_eq_nil_of_forall _ _ fun s hs => (coarse_fill_plain mesh s hs).1,
      prediction_sweep_predictions, List.nil_append, List.nil_append, mem_levels] at hl
    omega
  · intro h0
    unfold update_ghost_mr_coarse_fill
    rw [h0, if_neg (by omega)]
    rfl
  · intro l hl
    unfold projection_levels update_ghost_mro_steps at hl
    rw [List.filterMap_append, map_projection_levels, fill_projection_levels, List.append_nil,
      mem_levels_down] at hl
    omega
  · intro l hl
    unfold projection_levels update_ghost_steps at hl
    rw [List.filterMap_append, map_projection_levels, fill_projection_levels, List.append_nil,
      mem_levels_down] at hl
    omega
  · intro h0
    refine ⟨?_, hzero, fun h => by rw [hzero]; exact h⟩
    unfold update_ghost_steps
    apply List.mem_append_right
    apply List.mem_cons_of_mem
    apply List.mem_flatMap.mpr
    refine ⟨0, (mem_levels _ _ _).mpr ⟨by omega, Nat.zero_le _⟩, ?_⟩
    unfold update_ghost_prediction_region
    rw [hzero]
    exact List.mem_cons_self _ _

/-! ## The periodic wrap of the tags -/

/-- C21: in the single-process build (`SAMURAI_WITH_MPI` undefined) the routines
`update_ghost_subdomains`, `update_tag_subdomains`, `keep_only_one_coarse_tag` and
`check_duplicate_cells` have an empty body: for every level, every mesh, every
neighbourhood and every field or tag they end at once, read past no payload, print
nothing and leave the field or the tag as it was. The mesh is an argument that none of
them returns: they only read it. -/
theorem single_process_routines_do_nothing {dim : Nat} {α β : Type} (n_comp : Nat)
    (erase : Bool) (mesh : RankMesh dim) (local_mesh : LocalMesh dim)
    (received : List (Neighbour dim × List β)) (received_tags : List (Neighbour dim × List Nat))
    (neighbourhood : List (Neighbour dim)) (level : Nat) (field : Cell dim → List β)
    (tag : Cell dim → Nat) (values : Cell dim → α) :
    update_ghost_subdomains false n_comp mesh received level field = .done field ∧
      update_tag_subdomains false erase mesh received_tags level tag = .done tag ∧
      keep_only_one_coarse_tag false local_mesh neighbourhood tag = tag ∧
      check_duplicate_cells false local_mesh neighbourhood values = ([], values) :=
  ⟨rfl, rfl, rfl, rfl⟩

/-! ## The coarsen tags kept on one side of an interface -/

theorem land_coarsen_cases (t : Nat) :
    t &&& CellFlag.coarsen = 0 ∨ t &&& CellFlag.coarsen = 2 := by
  have h := Nat.and_two_pow t 1
  show t &&& 2 = 0 ∨ t &&& 2 = 2
  cases hb : t.testBit 1 <;> rw [hb] at h <;> simp at h <;> omega

theorem foldl_land_ne_zero (vs : List Nat) (v : Nat) (hv : v = 0 ∨ v = 2)
    (hvs : ∀ w ∈ vs, w = 0 ∨ w = 2) :
    vs.foldl (fun a b => a &&& b) v ≠ 0 ↔ v ≠ 0 ∧ ∀ w ∈ vs, w ≠ 0 := by
  induction vs generalizing v with
  | nil => simp
  | cons a vs ih =>
    have ha := hvs a (List.mem_cons_self _ _)
    have hand : v &&& a = 0 ∨ v &&& a = 2 := by
      rcases hv with rfl | rfl <;> rcases ha with rfl | rfl <;> decide
    rw [List.foldl_cons, ih (v &&& a) hand fun w hw => hvs w (List.mem_cons_of_mem _ hw)]
    simp only [List.mem_cons, forall_eq_or_imp]
    rcases hv with rfl | rfl <;> rcases ha with rfl | rfl <;> simp

theorem lor_eq_zero (a b : Nat) : a ||| b = 0 ↔ a = 0 ∧ b = 0 := by
  constructor
  · intro h
    have hbits : ∀ i, (a.testBit i || b.testBit i) = false := by
      intro i
      rw [← Nat.testBit_or, h, Nat.zero_testBit]
    constructor <;> apply Nat.eq_of_testBit_eq <;> intro i <;> have := hbits i <;> simp_all
  · rintro ⟨rfl, rfl⟩
    rfl

theorem foldl_lor_eq_zero (vs : List Nat) (v : Nat) :
    vs.foldl (fun a b => a ||| b) v = 0 ↔ v = 0 ∧ ∀ w ∈ vs, w = 0 := by
  induction vs generalizing v with
  | nil => simp
  | cons a vs ih =>
    rw [List.foldl_cons, ih (v ||| a)]
    simp only [List.mem_cons, forall_eq_or_imp, lor_eq_zero]
    tauto

/-- The mask of `keep_only_one_coarse_tag` at a cell is set exactly when every child of
the cell carries the coarsen bit and no child carries the keep bit. -/
theorem coarse_tag_mask_iff {dim : Nat} (tag : Cell dim → Nat) (p : Cell dim) :
    coarse_tag_mask tag p = true ↔ all_coarsen_no_keep tag p := by
  have hne : visit p.children ≠ [] := by
    intro h
    have hlen := visit_length p.children
    rw [h, card_children_eq] at hlen
    have hpos : 0 < 2 ^ (dim - 1) * 2 := by positivity
    simp only [List.length_nil] at hlen
    omega
  have hmem : ∀ y, y ∈ p.children ↔ y ∈ visit p.children := fun y => (mem_visit _ y).symm
  unfold coarse_tag_mask all_coarsen_no_keep
  simp only [hmem]
  cases hl : visit p.children with
  | nil => exact absurd hl hne
  | cons c cs =>
    simp only [List.map_cons, land_all, lor_all, Bool.and_eq_true, Bool.not_eq_true',
      decide_eq_true_eq, decide_eq_false_iff_not, not_not]
    rw [foldl_land_ne_zero _ _ (land_coarsen_cases _) (by
        intro w hw
        obtain ⟨y, _, rfl⟩ := List.mem_map.mp hw
        exact land_coarsen_cases _), foldl_lor_eq_zero]
    simp only [List.mem_map, forall_exists_index, and_imp, forall_apply_eq_imp_iff₂,
      List.mem_cons, forall_eq_or_imp]

theorem coarse_tag_turn_eq {dim : Nat} (hdim : dim = 1 ∨ dim = 2 ∨ dim = 3)
    (tag : Cell dim → Nat) (p : Cell dim) :
    coarse_tag_turn tag p =
      fun x => if x ∈ p.children ∧ all_coarsen_no_keep tag p then 0 else tag x := by
  funext x
  unfold coarse_tag_turn
  rw [if_pos hdim]
  by_cases hm : all_coarsen_no_keep tag p
  · rw [if_pos ((coarse_tag_mask_iff tag p).mpr hm)]
    unfold write
    by_cases hx : x ∈ p.children
    · rw [if_pos hx, if_pos ⟨hx, hm⟩]
    · rw [if_neg hx, if_neg fun h => hx h.1]
  · rw [if_neg fun h => hm ((coarse_tag_mask_iff tag p).mp h), if_neg fun h => hm h.2]

theorem all_coarsen_no_keep_congr {dim : Nat} (tag1 tag2 : Cell dim → Nat) (p : Cell dim)
    (h : ∀ y ∈ p.children, tag1 y = tag2 y) :
    all_coarsen_no_keep tag1 p ↔ all_coarsen_no_keep tag2 p := by
  unfold all_coarsen_no_keep
  constructor
  · rintro ⟨h1, h2⟩
    exact ⟨fun y hy => by rw [← h y hy]; exact h1 y hy, fun y hy => by rw [← h y hy]; exact h2 y hy⟩
  · rintro ⟨h1, h2⟩
    exact ⟨fun y hy => by rw [h y hy]; exact h1 y hy, fun y hy => by rw [h y hy]; exact h2 y hy⟩

theorem children_disjoint {dim : Nat} (p q x : Cell dim) (hp : x ∈ p.children)
    (hq : x ∈ q.children) : p = q := by
  have hl : x.level = p.level + 1 := ((mem_children p x).mp hp).1
  rw [(parent_unique x p (by omega)).mp hp, (parent_unique x q (by omega)).mp hq]

theorem children_nonempty {dim : Nat} (p : Cell dim) : p.children.Nonempty := by
  rw [← Finset.card_pos, card_children_eq]
  positivity

theorem not_all_coarsen_of_zero {dim : Nat} (tag : Cell dim → Nat) (p : Cell dim)
    (h : ∀ y ∈ p.children, tag y = 0) : ¬ all_coarsen_no_keep tag p := by
  rintro ⟨h1, _⟩
  obtain ⟨y, hy⟩ := children_nonempty p
  have := h1 y hy
  rw [h y hy] at this
  exact this (by decide)

/-- One callback of `keep_only_one_coarse_tag` adds its cell to the visited cells. -/
theorem coarse_tag_turn_step {dim : Nat} (hdim : dim = 1 ∨ dim = 2 ∨ dim = 3)
    (S : List (Cell dim)) (p : Cell dim) (tag : Cell dim → Nat) :
    coarse_tag_turn (zero_coarsened S tag) p = zero_coarsened (S ++ [p]) tag := by
  rw [coarse_tag_turn_eq hdim]
  funext x
  by_cases hp : p ∈ S ∧ all_coarsen_no_keep tag p
  · have hzero : ∀ y ∈ p.children, zero_coarsened S tag y = 0 := by
      intro y hy
      unfold zero_coarsened
      rw [if_pos ⟨p, hp.1, hy, hp.2⟩]
    have hnot := not_all_coarsen_of_zero _ p hzero
    rw [if_neg fun h => hnot h.2]
    unfold zero_coarsened
    have hiff : (∃ q ∈ S ++ [p], x ∈ q.children ∧ all_coarsen_no_keep tag q) ↔
        ∃ q ∈ S, x ∈ q.children ∧ all_coarsen_no_keep tag q := by
      constructor
      · rintro ⟨q, hq, hx⟩
        rcases List.mem_append.mp hq with h | h
        · exact ⟨q, h, hx⟩
        · rw [List.mem_singleton] at h
          subst h
          exact ⟨q, hp.1, hx⟩
      · rintro ⟨q, hq, hx⟩
        exact ⟨q, List.mem_append_left _ hq, hx⟩
    by_cases hex : ∃ q ∈ S, x ∈ q.children ∧ all_coarsen_no_keep tag q
    · rw [if_pos hex, if_pos (hiff.mpr hex)]
    · rw [if_neg hex, if_neg fun h => hex (hiff.mp h)]
  · have hsame : ∀ y ∈ p.children, zero_coarsened S tag y = tag y := by
      intro y hy
      unfold zero_coarsened
      rw [if_neg]
      rintro ⟨q, hq, hyq, hcond⟩
      have := children_disjoint q p y hyq hy
      subst this
      exact hp ⟨hq, hcond⟩
    have hcongr := all_coarsen_no_keep_congr _ tag p hsame
    unfold zero_coarsened
    have hiff : (∃ q ∈ S ++ [p], x ∈ q.children ∧ all_coarsen_no_keep tag q) ↔
        (∃ q ∈ S, x ∈ q.children ∧ all_coarsen_no_keep tag q) ∨
          (x ∈ p.children ∧ all_coarsen_no_keep tag p) := by
      constructor
      · rintro ⟨q, hq, hx⟩
        rcases List.mem_append.mp hq with h | h
        · exact Or.inl ⟨q, h, hx⟩
        · rw [List.mem_singleton] at h
          subst h
          exact Or.inr hx
      · rintro (⟨q, hq, hx⟩ | hx)
        · exact ⟨q, List.mem_append_left _ hq, hx⟩
        · exact ⟨p, List.mem_append_right _ (List.mem_singleton_self p), hx⟩
    by_cases hxp : x ∈ p.children ∧ all_coarsen_no_keep tag p
    · rw [if_pos ⟨hxp.1, hcongr.mpr hxp.2⟩, if_pos (hiff.mpr (Or.inr hxp))]
    · rw [if_neg fun h => hxp ⟨h.1, hcongr.mp h.2⟩]
      by_cases hex : ∃ q ∈ S, x ∈ q.children ∧ all_coarsen_no_keep tag q
      · rw [if_pos hex, if_pos (hiff.mpr (Or.inl hex))]
      · rw [if_neg hex, if_neg]
        intro h
        rcases hiff.mp h with h | h
        · exact hex h
        · exact hxp h

theorem foldl_coarse_tag_turn {dim : Nat} (hdim : dim = 1 ∨ dim = 2 ∨ dim = 3)
    (ps S : List (Cell dim)) (tag : Cell dim → Nat) :
    ps.foldl coarse_tag_turn (zero_coarsened S tag) = zero_coarsened (S ++ ps) tag := by
  induction ps generalizing S with
  | nil => rw [List.append_nil]; rfl
  | cons p ps ih =>
    rw [List.foldl_cons, coarse_tag_turn_step hdim, ih]
    simp

theorem zero_coarsened_nil {dim : Nat} (tag : Cell dim → Nat) : zero_coarsened [] tag = tag := by
  funext x
  simp [zero_coarsened]

theorem mem_coarse_tag_cells {dim : Nat} (mesh : LocalMesh dim)
    (neighbourhood : List (Neighbour dim)) (p : Cell dim) :
    p ∈ coarse_tag_cells mesh neighbourhood ↔
      ∃ nb ∈ neighbourhood, nb.rank < mesh.rank ∧
        ∃ level, max 1 mesh.ref_min_level ≤ level ∧ level ≤ mesh.cells_max_level ∧
          p ∈ coarse_tag_interface mesh nb level := by
  unfold coarse_tag_cells
  rw [List.mem_flatMap]
  constructor
  · rintro ⟨nb, hnb, hp⟩
    split_ifs at hp with hr
    · obtain ⟨level, hl, hp⟩ := List.mem_flatMap.mp hp
      rw [mem_levels] at hl
      rw [mem_visit] at hp
      exact ⟨nb, hnb, hr, level, hl.1, hl.2, hp⟩
    · simp at hp
  · rintro ⟨nb, hnb, hr, level, h1, h2, hp⟩
    refine ⟨nb, hnb, ?_⟩
    rw [if_pos hr, List.mem_flatMap]
    exact ⟨level, (mem_levels _ _ _).mpr ⟨h1, h2⟩, (mem_visit _ _).mpr hp⟩

/-- C27: in `keep_only_one_coarse_tag` (MPI build), in dimension `1`, `2` or `3`, the cells
visited are the cells of `cells[level] ∩ neighbour subdomain` taken at `level - 1`, for
the neighbours of lower rank and the levels from `max(1, min_level)` to `max_level`. For
each of them the tags of all its children are set to `0` when every child carries the
coarsen bit and no child carries the keep bit, and are left unchanged otherwise; the tag
of a cell that is not a child of a visited cell is unchanged, and when every neighbour
has a rank at least the rank of the process no tag is modified. -/
theorem keep_only_one_coarse_tag_zeroes {dim : Nat} (hdim : dim = 1 ∨ dim = 2 ∨ dim = 3)
    (mesh : LocalMesh dim) (neighbourhood : List (Neighbour dim)) (tag : Cell dim → Nat) :
    (∀ p, p ∈ coarse_tag_cells mesh neighbourhood ↔
        ∃ nb ∈ neighbourhood, nb.rank < mesh.rank ∧
          ∃ level, max 1 mesh.ref_min_level ≤ level ∧ level ≤ mesh.cells_max_level ∧
            p ∈ coarse_tag_interface mesh nb level) ∧
      (∀ p ∈ coarse_tag_cells mesh neighbourhood,
        (all_coarsen_no_keep tag p →
          ∀ x ∈ p.children, keep_only_one_coarse_tag true mesh neighbourhood tag x = 0) ∧
        (¬ all_coarsen_no_keep tag p →
          ∀ x ∈ p.children, keep_only_one_coarse_tag true mesh neighbourhood tag x = tag x)) ∧
      (∀ x, (∀ p ∈ coarse_tag_cells mesh neighbourhood, x ∉ p.children) →
        keep_only_one_coarse_tag true mesh neighbourhood tag x = tag x) ∧
      ((∀ nb ∈ neighbourhood, mesh.rank ≤ nb.rank) →
        keep_only_one_coarse_tag true mesh neighbourhood tag = tag) := by
  have hfold : keep_only_one_coarse_tag true mesh neighbourhood tag =
      zero_coarsened (coarse_tag_cells mesh neighbourhood) tag := by
    unfold keep_only_one_coarse_tag
    rw [if_pos rfl]
    have h := foldl_coarse_tag_turn hdim (coarse_tag_cells mesh neighbourhood) [] tag
    rw [zero_coarsened_nil, List.nil_append] at h
    exact h
  have hother : ∀ x, (∀ p ∈ coarse_tag_cells mesh neighbourhood, x ∉ p.children) →
      keep_only_one_coarse_tag true mesh neighbourhood tag x = tag x := by
    intro x hx
    rw [hfold]
    unfold zero_coarsened
    rw [if_neg]
    rintro ⟨p, hp, hxp, _⟩
    exact hx p hp hxp
  refine ⟨mem_coarse_tag_cells mesh neighbourhood, ?_, hother, ?_⟩
  · intro p hp
    constructor
    · intro hcond x hx
      rw [hfold]
      unfold zero_coarsened
      rw [if_pos ⟨p, hp, hx, hcond⟩]
    · intro hcond x hx
      rw [hfold]
      unfold zero_coarsened
      rw [if_neg]
      rintro ⟨q, _, hxq, hq⟩
      have := children_disjoint q p x hxq hx
      subst this
      exact hcond hq
  · intro hrank
    funext x
    apply hother
    intro p hp
    obtain ⟨nb, hnb, hr, _⟩ := (mem_coarse_tag_cells mesh neighbourhood p).mp hp
    have := hrank nb hnb
    omega

/-- C27 on a line, for the rank `1` between the ranks `0` and `2`, every leaf tagged
coarsen: the two leaves that lie in the subdomain of the rank `0` lose their tag, the two
leaves that lie in the subdomain of the rank `2` keep it; with a leaf tagged keep beside a
leaf tagged coarsen nothing changes. -/
theorem keep_only_one_coarse_tag_zeroes_witness :
    ((1 : Nat) = 1 ∨ (1 : Nat) = 2 ∨ (1 : Nat) = 3) ∧
      coarse_tag_cells rank_one_leaves two_neighbours = [cell1 0 1] ∧
      keep_only_one_coarse_tag true rank_one_leaves two_neighbours (fun _ => CellFlag.coarsen)
          (cell1 1 2) = 0 ∧
      keep_only_one_coarse_tag true rank_one_leaves two_neighbours (fun _ => CellFlag.coarsen)
          (cell1 1 4) = CellFlag.coarsen ∧
      keep_only_one_coarse_tag true rank_one_leaves two_neighbours
          (fun c => if c.i = 2 then CellFlag.keep else CellFlag.coarsen) (cell1 1 3) =
        CellFlag.coarsen ∧
      ∀ x, (∀ p ∈ coarse_tag_cells rank_one_leaves two_neighbours, x ∉ p.children) →
        keep_only_one_coarse_tag true rank_one_leaves two_neighbours
          (fun _ => CellFlag.coarsen) x = (fun _ => CellFlag.coarsen) x :=
  ⟨by decide, by decide, by decide, by decide, by decide,
    (keep_only_one_coarse_tag_zeroes (by decide) rank_one_leaves two_neighbours
      (fun _ => CellFlag.coarsen)).2.2.1⟩

/-! ## The eigenvectors of the Roe scheme -/

theorem energy_of_sound_speed {K : Type} [LinearOrderedField K] (rho E gamma c q : K)
    (hrho : rho ≠ 0) (hc : c ≠ 0)
    (hc2 : c * c = gamma * (gamma - 1) * (E - 1 / 2 * q / rho) / rho) :
    gamma ≠ 0 ∧ gamma - 1 ≠ 0 ∧ E = c * c * rho / (gamma * (gamma - 1)) + 1 / 2 * q / rho := by
  have hg : gamma ≠ 0 := by
    intro h
    rw [h] at hc2
    simp at hc2
    exact hc hc2
  have hg1 : gamma - 1 ≠ 0 := by
    intro h
    rw [h] at hc2
    simp at hc2
    exact hc hc2
  refine ⟨hg, hg1, ?_⟩
  field_simp at hc2 ⊢
  linear_combination (-1 : K) * hc2

theorem matrix_three_eq_one {K : Type} [LinearOrderedField K] (a b c d e f g h i : K)
    (ha : a = 1) (hb : b = 0) (hc : c = 0) (hd : d = 0) (he : e = 1) (hf : f = 0)
    (hg : g = 0) (hh : h = 0) (hi : i = 1) :
    !![a, b, c; d, e, f; g, h, i] = (1 : Matrix (Fin 3) (Fin 3) K) := by
  subst ha hb hc hd he hf hg hh hi
  exact Matrix.one_fin_three.symm

theorem mul_fin_four {K : Type} [LinearOrderedField K]
    (a11 a12 a13 a14 a21 a22 a23 a24 a31 a32 a33 a34 a41 a42 a43 a44
      b11 b12 b13 b14 b21 b22 b23 b24 b31 b32 b33 b34 b41 b42 b43 b44 : K) :
    !![a11, a12, a13, a14; a21, a22, a23, a24; a31, a32, a33, a34; a41, a42, a43, a44] *
        !![b11, b12, b13, b14; b21, b22, b23, b24; b31, b32, b33, b34; b41, b42, b43, b44] =
      !![a11 * b11 + a12 * b21 + a13 * b31 + a14 * b41,
          a11 * b12 + a12 * b22 + a13 * b32 + a14 * b42,
          a11 * b13 + a12 * b23 + a13 * b33 + a14 * b43,
          a11 * b14 + a12 * b24 + a13 * b34 + a14 * b44;
        a21 * b11 + a22 * b21 + a23 * b31 + a24 * b41,
          a21 * b12 + a22 * b22 + a23 * b32 + a24 * b42,
          a21 * b13 + a22 * b23 + a23 * b33 + a24 * b43,
          a21 * b14 + a22 * b24 + a23 * b34 + a24 * b44;
        a31 * b11 + a32 * b21 + a33 * b31 + a34 * b41,
          a31 * b12 + a32 * b22 + a33 * b32 + a34 * b42,
          a31 * b13 + a32 * b23 + a33 * b33 + a34 * b43,
          a31 * b14 + a32 * b24 + a33 * b34 + a34 * b44;
        a41 * b11 + a42 * b21 + a43 * b31 + a44 * b41,
          a41 * b12 + a42 * b22 + a43 * b32 + a44 * b42,
          a41 * b13 + a42 * b23 + a43 * b33 + a44 * b43,
          a41 * b14 + a42 * b24 + a43 * b34 + a44 * b44] := by
  ext i j
  fin_cases i <;> fin_cases j <;> simp [Matrix.mul_apply, Fin.sum_univ_four]

theorem matrix_four_eq_one {K : Type} [LinearOrderedField K]
    (a11 a12 a13 a14 a21 a22 a23 a24 a31 a32 a33 a34 a41 a42 a43 a44 : K)
    (h11 : a11 = 1) (h12 : a12 = 0) (h13 : a13 = 0) (h14 : a14 = 0)
    (h21 : a21 = 0) (h22 : a22 = 1) (h23 : a23 = 0) (h24 : a24 = 0)
    (h31 : a31 = 0) (h32 : a32 = 0) (h33 : a33 = 1) (h34 : a34 = 0)
    (h41 : a41 = 0) (h42 : a42 = 0) (h43 : a43 = 0) (h44 : a44 = 1) :
    !![a11, a12, a13, a14; a21, a22, a23, a24; a31, a32, a33, a34; a41, a42, a43, a44] =
      (1 : Matrix (Fin 4) (Fin 4) K) := by
  subst h11 h12 h13 h14 h21 h22 h23 h24 h31 h32 h33 h34 h41 h42 h43 h44
  ext i j
  fin_cases i <;> fin_cases j <;> rfl

/-- The matrix `L_jp12` filled by `compute_LeftEigenVectors` for `dim == 1`, entry by entry. -/
theorem left_matrix_1d {K : Type} [LinearOrderedField K] (sqrt : K → K) (u : Nat → K)
    (gamma : K) :
    as_matrix 3 (compute_LeftEigenVectors sqrt 1 3 u 0 gamma) =
      !![1 / 2 * ((1 / 2 * (gamma - 1) * velocity_square 1 u) * (1 / compute_SoundSpeed sqrt 1 3 u gamma) + (u 1 / u 0)),
          -(1 / 2) * ((gamma - 1) * (u 1 / u 0) * (1 / compute_SoundSpeed sqrt 1 3 u gamma) + 1),
          (gamma - 1) * (1 / 2) * (1 / compute_SoundSpeed sqrt 1 3 u gamma);
        compute_SoundSpeed sqrt 1 3 u gamma - (1 / 2 * (gamma - 1) * velocity_square 1 u) * (1 / compute_SoundSpeed sqrt 1 3 u gamma),
          (gamma - 1) * (u 1 / u 0) * (1 / compute_SoundSpeed sqrt 1 3 u gamma),
          -(gamma - 1) * (1 / compute_SoundSpeed sqrt 1 3 u gamma);
        1 / 2 * ((1 / 2 * (gamma - 1) * velocity_square 1 u) * (1 / compute_SoundSpeed sqrt 1 3 u gamma) - (u 1 / u 0)),
          -(1 / 2) * ((gamma - 1) * (u 1 / u 0) * (1 / compute_SoundSpeed sqrt 1 3 u gamma) - 1),
          (gamma - 1) * (1 / 2) * (1 / compute_SoundSpeed sqrt 1 3 u gamma)] := by
  ext i j
  fin_cases i <;> fin_cases j <;> rfl

/-- The matrix `R_jp12` filled by `compute_RightEigenVectors` for `dim == 1`, entry by entry. -/
theorem right_matrix_1d {K : Type} [LinearOrderedField K] (sqrt : K → K) (u : Nat → K)
    (gamma : K) :
    as_matrix 3 (compute_RightEigenVectors sqrt 1 3 u 0 gamma) =
      !![(1 / compute_SoundSpeed sqrt 1 3 u gamma),
          (1 / compute_SoundSpeed sqrt 1 3 u gamma),
          (1 / compute_SoundSpeed sqrt 1 3 u gamma);
        (u 1 / u 0) * (1 / compute_SoundSpeed sqrt 1 3 u gamma) - 1,
          (u 1 / u 0) * (1 / compute_SoundSpeed sqrt 1 3 u gamma),
          (u 1 / u 0) * (1 / compute_SoundSpeed sqrt 1 3 u gamma) + 1;
        compute_Enthalpy 1 3 u gamma * (1 / compute_SoundSpeed sqrt 1 3 u gamma) - (u 1 / u 0),
          1 / 2 * (u 1 / u 0) * (u 1 / u 0) * (1 / compute_SoundSpeed sqrt 1 3 u gamma),
          compute_Enthalpy 1 3 u gamma * (1 / compute_SoundSpeed sqrt 1 3 u gamma) + (u 1 / u 0)] := by
  ext i j
  fin_cases i <;> fin_cases j <;> rfl

/-- The matrix `L_jp12` filled by `compute_LeftEigenVectors` for `dim == 2`, entry by entry. -/
theorem left_matrix_2d {K : Type} [LinearOrderedField K] (sqrt : K → K) (u : Nat → K) (dir : Nat)
    (gamma : K) :
    as_matrix 4 (compute_LeftEigenVectors sqrt 2 4 u dir gamma) =
      !![1 / 2 * ((1 / 2 * (gamma - 1) * velocity_square 2 u) + normal_velocity 2 u dir (compute_SoundSpeed sqrt 2 4 u gamma)) * (1 / compute_SoundSpeed sqrt 2 4 u gamma),
          -(1 / 2) * ((gamma - 1) * u 1 / u 0 * (1 / compute_SoundSpeed sqrt 2 4 u gamma) + normal dir 0),
          -(1 / 2) * ((gamma - 1) * u 2 / u 0 * (1 / compute_SoundSpeed sqrt 2 4 u gamma) + normal dir 1),
          (gamma - 1) * (1 / 2) * (1 / compute_SoundSpeed sqrt 2 4 u gamma);
        compute_SoundSpeed sqrt 2 4 u gamma - (1 / 2 * (gamma - 1) * velocity_square 2 u) * (1 / compute_SoundSpeed sqrt 2 4 u gamma),
          (gamma - 1) * u 1 / u 0 * (1 / compute_SoundSpeed sqrt 2 4 u gamma),
          (gamma - 1) * u 2 / u 0 * (1 / compute_SoundSpeed sqrt 2 4 u gamma),
          -(gamma - 1) * (1 / compute_SoundSpeed sqrt 2 4 u gamma);
        normal dir 1 * u 1 / u 0 - normal dir 0 * u 2 / u 0,
          -normal dir 1,
          normal dir 0,
          0;
        1 / 2 * ((1 / 2 * (gamma - 1) * velocity_square 2 u) - normal_velocity 2 u dir (compute_SoundSpeed sqrt 2 4 u gamma)) * (1 / compute_SoundSpeed sqrt 2 4 u gamma),
          -(1 / 2) * ((gamma - 1) * u 1 / u 0 * (1 / compute_SoundSpeed sqrt 2 4 u gamma) - normal dir 0),
          -(1 / 2) * ((gamma - 1) * u 2 / u 0 * (1 / compute_SoundSpeed sqrt 2 4 u gamma) - normal dir 1),
          (gamma - 1) * (1 / 2) * (1 / compute_SoundSpeed sqrt 2 4 u gamma)] := by
  ext i j
  fin_cases i <;> fin_cases j <;> rfl

/-- The matrix `R_jp12` filled by `compute_RightEigenVectors` for `dim == 2`, entry by entry. -/
theorem right_matrix_2d {K : Type} [LinearOrderedField K] (sqrt : K → K) (u : Nat → K) (dir : Nat)
    (gamma : K) :
    as_matrix 4 (compute_RightEigenVectors sqrt 2 4 u dir gamma) =
      !![(1 / compute_SoundSpeed sqrt 2 4 u gamma),
          (1 / compute_SoundSpeed sqrt 2 4 u gamma),
          0,
          (1 / compute_SoundSpeed sqrt 2 4 u gamma);
        u 1 / u 0 * (1 / compute_SoundSpeed sqrt 2 4 u gamma) - normal dir 0,
          u 1 / u 0 * (1 / compute_SoundSpeed sqrt 2 4 u gamma),
          -normal dir 1,
          u 1 / u 0 * (1 / compute_SoundSpeed sqrt 2 4 u gamma) + normal dir 0;
        u 2 / u 0 * (1 / compute_SoundSpeed sqrt 2 4 u gamma) - normal dir 1,
          u 2 / u 0 * (1 / compute_SoundSpeed sqrt 2 4 u gamma),
          normal dir 0,
          u 2 / u 0 * (1 / compute_SoundSpeed sqrt 2 4 u gamma) + normal dir 1;
        (compute_Enthalpy 2 4 u gamma - normal_velocity 2 u dir (compute_SoundSpeed sqrt 2 4 u gamma)) * (1 / compute_SoundSpeed sqrt 2 4 u gamma),
          (1 / 2 * velocity_square 2 u) * (1 / compute_SoundSpeed sqrt 2 4 u gamma),
          -normal dir 1 * u 1 / u 0 + normal dir 0 * u 2 / u 0,
          (compute_Enthalpy 2 4 u gamma + normal_velocity 2 u dir (compute_SoundSpeed sqrt 2 4 u gamma)) * (1 / compute_SoundSpeed sqrt 2 4 u gamma)] := by
  ext i j
  fin_cases i <;> fin_cases j <;> rfl

set_option maxHeartbeats 1000000 in
/-- The product of the two matrices of dimension `1`, in the velocity `U`, the sound speed
`c` and `g = gamma - 1`, with the enthalpy written `U^2 / 2 + c^2 / g`. -/
theorem eigenvectors_core_1d {K : Type} [LinearOrderedField K] (c U g : K) (hc : c ≠ 0)
    (hg : g ≠ 0) :
    !![1 / 2 * ((1 / 2 * g * (U * U)) * (1 / c) + U),
          -(1 / 2) * (g * U * (1 / c) + 1),
          g * (1 / 2) * (1 / c);
        c - (1 / 2 * g * (U * U)) * (1 / c),
          g * U * (1 / c),
          -g * (1 / c);
        1 / 2 * ((1 / 2 * g * (U * U)) * (1 / c) - U),
          -(1 / 2) * (g * U * (1 / c) - 1),
          g * (1 / 2) * (1 / c)] *
      !![(1 / c),
          (1 / c),
          (1 / c);
        U * (1 / c) - 1,
          U * (1 / c),
          U * (1 / c) + 1;
        (1 / 2 * (U * U) + c * c / g) * (1 / c) - U,
          1 / 2 * U * U * (1 / c),
          (1 / 2 * (U * U) + c * c / g) * (1 / c) + U] =
      (1 : Matrix (Fin 3) (Fin 3) K) := by
  rw [Matrix.mul_fin_three]
  apply matrix_three_eq_one <;> first | ring1 | (field_simp; ring1)

set_option maxHeartbeats 2000000 in
/-- The product of the two matrices of dimension `2` for the direction `0`, in the
velocities `U1`, `U2`, the sound speed `c` and `g = gamma - 1`, with the enthalpy written
`(U1^2 + U2^2) / 2 + c^2 / g`. -/
theorem eigenvectors_core_2d_dir0 {K : Type} [LinearOrderedField K] (c U1 U2 g : K)
    (hc : c ≠ 0) (hg : g ≠ 0) :
    !![1 / 2 * ((1 / 2 * g * (U1 * U1 + U2 * U2)) + (U1 * c)) * (1 / c),
          -(1 / 2) * (g * U1 * (1 / c) + 1),
          -(1 / 2) * (g * U2 * (1 / c) + 0),
          g * (1 / 2) * (1 / c);
        c - (1 / 2 * g * (U1 * U1 + U2 * U2)) * (1 / c),
          g * U1 * (1 / c),
          g * U2 * (1 / c),
          -g * (1 / c);
        0 * U1 - 1 * U2,
          -0,
          1,
          0;
        1 / 2 * ((1 / 2 * g * (U1 * U1 + U2 * U2)) - (U1 * c)) * (1 / c),
          -(1 / 2) * (g * U1 * (1 / c) - 1),
          -(1 / 2) * (g * U2 * (1 / c) - 0),
          g * (1 / 2) * (1 / c)] *
      !![(1 / c),
          (1 / c),
          0,
          (1 / c);
        U1 * (1 / c) - 1,
          U1 * (1 / c),
          -0,
          U1 * (1 / c) + 1;
        U2 * (1 / c) - 0,
          U2 * (1 / c),
          1,
          U2 * (1 / c) + 0;
        ((1 / 2 * (U1 * U1 + U2 * U2) + c * c / g) - (U1 * c)) * (1 / c),
          (1 / 2 * (U1 * U1 + U2 * U2)) * (1 / c),
          -0 * U1 + 1 * U2,
          ((1 / 2 * (U1 * U1 + U2 * U2) + c * c / g) + (U1 * c)) * (1 / c)] =
      (1 : Matrix (Fin 4) (Fin 4) K) := by
  rw [mul_fin_four]
  apply matrix_four_eq_one <;> first | ring1 | (field_simp; ring1)

set_option maxHeartbeats 2000000 in
/-- The product of the two matrices of dimension `2` for the direction `1`, in the
velocities `U1`, `U2`, the sound speed `c` and `g = gamma - 1`, with the enthalpy written
`(U1^2 + U2^2) / 2 + c^2 / g`. -/
theorem eigenvectors_core_2d_dir1 {K : Type} [LinearOrderedField K] (c U1 U2 g : K)
    (hc : c ≠ 0) (hg : g ≠ 0) :
    !![1 / 2 * ((1 / 2 * g * (U1 * U1 + U2 * U2)) + (U2 * c)) * (1 / c),
          -(1 / 2) * (g * U1 * (1 / c) + 0),
          -(1 / 2) * (g * U2 * (1 / c) + 1),
          g * (1 / 2) * (1 / c);
        c - (1 / 2 * g * (U1 * U1 + U2 * U2)) * (1 / c),
          g * U1 * (1 / c),
          g * U2 * (1 / c),
          -g * (1 / c);
        1 * U1 - 0 * U2,
          -1,
          0,
          0;
        1 / 2 * ((1 / 2 * g * (U1 * U1 + U2 * U2)) - (U2 * c)) * (1 / c),
          -(1 / 2) * (g * U1 * (1 / c) - 0),
          -(1 / 2) * (g * U2 * (1 / c) - 1),
          g * (1 / 2) * (1 / c)] *
      !![(1 / c),
          (1 / c),
          0,
          (1 / c);
        U1 * (1 / c) - 0,
          U1 * (1 / c),
          -1,
          U1 * (1 / c) + 0;
        U2 * (1 / c) - 1,
          U2 * (1 / c),
          0,
          U2 * (1 / c) + 1;
        ((1 / 2 * (U1 * U1 + U2 * U2) + c * c / g) - (U2 * c)) * (1 / c),
          (1 / 2 * (U1 * U1 + U2 * U2)) * (1 / c),
          -1 * U1 + 0 * U2,
          ((1 / 2 * (U1 * U1 + U2 * U2) + c * c / g) + (U2 * c)) * (1 / c)] =
      (1 : Matrix (Fin 4) (Fin 4) K) := by
  rw [mul_fin_four]
  apply matrix_four_eq_one <;> first | ring1 | (field_simp; ring1)

theorem rho_ec_one {K : Type} [LinearOrderedField K] (u : Nat → K) :
    rho_ec 1 u = 1 / 2 * (u 1 * u 1) / u 0 := by
  simp [rho_ec, List.range']

theorem rho_ec_two {K : Type} [LinearOrderedField K] (u : Nat → K) :
    rho_ec 2 u = 1 / 2 * (u 1 * u 1 + u 2 * u 2) / u 0 := by
  simp [rho_ec, List.range']

theorem velocity_square_one {K : Type} [LinearOrderedField K] (u : Nat → K) :
    velocity_square 1 u = u 1 / u 0 * (u 1 / u 0) := by
  simp [velocity_square, List.range_succ]

theorem velocity_square_two {K : Type} [LinearOrderedField K] (u : Nat → K) :
    velocity_square 2 u = u 1 / u 0 * (u 1 / u 0) + u 2 / u 0 * (u 2 / u 0) := by
  simp [velocity_square, List.range_succ]

theorem normal_values {K : Type} [LinearOrderedField K] :
    normal 0 0 = (1 : K) ∧ normal 0 1 = (0 : K) ∧ normal 1 0 = (0 : K) ∧
      normal 1 1 = (1 : K) := by
  simp [normal, Function.update]

theorem normal_velocity_two {K : Type} [LinearOrderedField K] (u : Nat → K) (c : K) :
    normal_velocity 2 u 0 c = u 1 / u 0 * c ∧ normal_velocity 2 u 1 c = u 2 / u 0 * c := by
  simp [normal_velocity, normal, Function.update, List.range_succ]

/-- The left and right eigenvector matrices of dimension `1` are inverse of each other,
for any square root that is exact on the radicand of the sound speed. -/
theorem eigenvectors_inverse_1d {K : Type} [LinearOrderedField K] (sqrt : K → K)
    (u : Nat → K) (gamma : K) (hrho : u 0 ≠ 0)
    (hc : compute_SoundSpeed sqrt 1 3 u gamma ≠ 0)
    (hc2 : compute_SoundSpeed sqrt 1 3 u gamma * compute_SoundSpeed sqrt 1 3 u gamma =
      gamma * (gamma - 1) * (u 2 - rho_ec 1 u) / u 0) :
    as_matrix 3 (compute_LeftEigenVectors sqrt 1 3 u 0 gamma) *
      as_matrix 3 (compute_RightEigenVectors sqrt 1 3 u 0 gamma) = 1 := by
  rw [rho_ec_one] at hc2
  obtain ⟨_, hg1, hE⟩ := energy_of_sound_speed (u 0) (u 2) gamma _ (u 1 * u 1) hrho hc hc2
  have hH : compute_Enthalpy 1 3 u gamma =
      1 / 2 * (u 1 / u 0 * (u 1 / u 0)) +
        compute_SoundSpeed sqrt 1 3 u gamma * compute_SoundSpeed sqrt 1 3 u gamma /
          (gamma - 1) := by
    unfold compute_Enthalpy
    rw [rho_ec_one]
    have h2 : (3 : Nat) - 1 = 2 := rfl
    rw [h2, hE]
    field_simp
    ring
  rw [left_matrix_1d, right_matrix_1d, hH, velocity_square_one]
  exact eigenvectors_core_1d _ _ _ hc hg1

/-- The left and right eigenvector matrices of dimension `2` are inverse of each other in
the directions `0` and `1`, for any square root that is exact on the radicand of the sound
speed. -/
theorem eigenvectors_inverse_2d {K : Type} [LinearOrderedField K] (sqrt : K → K)
    (u : Nat → K) (gamma : K) (dir : Nat) (hdir : dir < 2) (hrho : u 0 ≠ 0)
    (hc : compute_SoundSpeed sqrt 2 4 u gamma ≠ 0)
    (hc2 : compute_SoundSpeed sqrt 2 4 u gamma * compute_SoundSpeed sqrt 2 4 u gamma =
      gamma * (gamma - 1) * (u 3 - rho_ec 2 u) / u 0) :
    as_matrix 4 (compute_LeftEigenVectors sqrt 2 4 u dir gamma) *
      as_matrix 4 (compute_RightEigenVectors sqrt 2 4 u dir gamma) = 1 := by
  rw [rho_ec_two] at hc2
  obtain ⟨_, hg1, hE⟩ :=
    energy_of_sound_speed (u 0) (u 3) gamma _ (u 1 * u 1 + u 2 * u 2) hrho hc hc2
  have hH : compute_Enthalpy 2 4 u gamma =
      1 / 2 * (u 1 / u 0 * (u 1 / u 0) + u 2 / u 0 * (u 2 / u 0)) +
        compute_SoundSpeed sqrt 2 4 u gamma * compute_SoundSpeed sqrt 2 4 u gamma /
          (gamma - 1) := by
    unfold compute_Enthalpy
    rw [rho_ec_two]
    have h3 : (4 : Nat) - 1 = 3 := rfl
    rw [h3, hE]
    field_simp
    ring
  obtain ⟨hn00, hn01, hn10, hn11⟩ := @normal_values K _
  rw [left_matrix_2d, right_matrix_2d]
  simp only [mul_div_assoc]
  rw [hH, velocity_square_two]
  interval_cases dir
  · rw [(normal_velocity_two u _).1, hn00, hn01]
    exact eigenvectors_core_2d_dir0 _ _ _ _ hc hg1
  · rw [(normal_velocity_two u _).2, hn10, hn11]
    exact eigenvectors_core_2d_dir1 _ _ _ _ hc hg1

/-- C28: over the real numbers, for a state of non-zero density whose sound speed
`c = compute_SoundSpeed(u, gamma)` is not zero (then `c^2 = gamma (gamma - 1)
(E - kinetic energy) / rho`), the matrix of `compute_LeftEigenVectors` times the matrix of
`compute_RightEigenVectors` is the identity: for `dim = 1` in the direction `0`, on states
of three entries, and for `dim = 2` in the directions `0` and `1`, on states of four
entries. -/
theorem eigenvectors_inverse (u : Nat → ℝ) (gamma : ℝ) (hrho : u 0 ≠ 0) :
    (compute_SoundSpeed Real.sqrt 1 3 u gamma ≠ 0 →
        compute_SoundSpeed Real.sqrt 1 3 u gamma * compute_SoundSpeed Real.sqrt 1 3 u gamma =
            gamma * (gamma - 1) * (u 2 - rho_ec 1 u) / u 0 ∧
          as_matrix 3 (compute_LeftEigenVectors Real.sqrt 1 3 u 0 gamma) *
            as_matrix 3 (compute_RightEigenVectors Real.sqrt 1 3 u 0 gamma) = 1) ∧
      (compute_SoundSpeed Real.sqrt 2 4 u gamma ≠ 0 →
        compute_SoundSpeed Real.sqrt 2 4 u gamma * compute_SoundSpeed Real.sqrt 2 4 u gamma =
            gamma * (gamma - 1) * (u 3 - rho_ec 2 u) / u 0 ∧
          ∀ dir, dir < 2 →
            as_matrix 4 (compute_LeftEigenVectors Real.sqrt 2 4 u dir gamma) *
              as_matrix 4 (compute_RightEigenVectors Real.sqrt 2 4 u dir gamma) = 1) := by
  constructor
  · intro hc
    have hpos : 0 < gamma * (gamma - 1) * (u 2 - rho_ec 1 u) / u 0 := Real.sqrt_ne_zero'.mp hc
    have hc2 : compute_SoundSpeed Real.sqrt 1 3 u gamma *
        compute_SoundSpeed Real.sqrt 1 3 u gamma =
        gamma * (gamma - 1) * (u 2 - rho_ec 1 u) / u 0 := Real.mul_self_sqrt hpos.le
    exact ⟨hc2, eigenvectors_inverse_1d Real.sqrt u gamma hrho hc hc2⟩
  · intro hc
    have hpos : 0 < gamma * (gamma - 1) * (u 3 - rho_ec 2 u) / u 0 := Real.sqrt_ne_zero'.mp hc
    have hc2 : compute_SoundSpeed Real.sqrt 2 4 u gamma *
        compute_SoundSpeed Real.sqrt 2 4 u gamma =
        gamma * (gamma - 1) * (u 3 - rho_ec 2 u) / u 0 := Real.mul_self_sqrt hpos.le
    exact ⟨hc2, fun dir hdir => eigenvectors_inverse_2d Real.sqrt u gamma dir hdir hrho hc hc2⟩

/-- C28 at the state `plane_state` with `gamma = 7 / 5`, read as a state of three entries
in dimension `1` and of four entries in dimension `2`; on the rationals, at the state at
rest with `gamma = 2`, the sound speed is `2` and so is the entry `(1, 0)` of `L_jp12`. -/
theorem eigenvectors_inverse_witness :
    (plane_state 0 : ℝ) ≠ 0 ∧
      compute_SoundSpeed Real.sqrt 1 3 plane_state (7 / 5) ≠ 0 ∧
      compute_SoundSpeed Real.sqrt 2 4 plane_state (7 / 5) ≠ 0 ∧
      compute_SoundSpeed rational_sqrt 1 3 rest_state 2 = 2 ∧
      compute_LeftEigenVectors rational_sqrt 1 3 rest_state 0 2 1 0 = 2 ∧
      as_matrix 3 (compute_LeftEigenVectors Real.sqrt 1 3 plane_state 0 (7 / 5)) *
        as_matrix 3 (compute_RightEigenVectors Real.sqrt 1 3 plane_state 0 (7 / 5)) = 1 ∧
      ∀ dir, dir < 2 →
        as_matrix 4 (compute_LeftEigenVectors Real.sqrt 2 4 plane_state dir (7 / 5)) *
          as_matrix 4 (compute_RightEigenVectors Real.sqrt 2 4 plane_state dir (7 / 5)) = 1 :=
  have h0 : (plane_state 0 : ℝ) ≠ 0 := by norm_num [plane_state]
  have h1 : compute_SoundSpeed Real.sqrt 1 3 plane_state (7 / 5) ≠ 0 :=
    Real.sqrt_ne_zero'.mpr (by norm_num [rho_ec, plane_state, List.range'])
  have h2 : compute_SoundSpeed Real.sqrt 2 4 plane_state (7 / 5) ≠ 0 :=
    Real.sqrt_ne_zero'.mpr (by norm_num [rho_ec, plane_state, List.range'])
  ⟨h0, h1, h2,
    by norm_num [compute_SoundSpeed, rho_ec, rest_state, rational_sqrt, List.range'],
    by
      show compute_SoundSpeed rational_sqrt 1 3 rest_state 2 -
        1 / 2 * (2 - 1) * velocity_square 1 rest_state *
          (1 / compute_SoundSpeed rational_sqrt 1 3 rest_state 2) = 2
      norm_num [compute_SoundSpeed, velocity_square, rho_ec, rest_state, rational_sqrt,
        List.range', List.range_succ],
    ((eigenvectors_inverse plane_state (7 / 5) h0).1 h1).2,
    ((eigenvectors_inverse plane_state (7 / 5) h0).2 h2).2⟩

/-! ## The Roe mean of a state with itself -/

theorem foldl_add_congr {K : Type} [LinearOrderedField K] (ls : List Nat) (f g : Nat → K)
    (a : K) (h : ∀ l ∈ ls, f l = g l) :
    ls.foldl (fun acc l => acc + f l) a = ls.foldl (fun acc l => acc + g l) a := by
  induction ls generalizing a with
  | nil => rfl
  | cons x ls ih =>
    rw [List.foldl_cons, List.foldl_cons, h x (List.mem_cons_self _ _)]
    exact ih _ fun l hl => h l (List.mem_cons_of_mem _ hl)

/-- The Roe mean of a state with itself is the state, for any square root that is exact
on the density. -/
theorem compute_Roemean_self_of_sqrt {K : Type} [LinearOrderedField K] (sqrt : K → K)
    (dim : Nat) (u : Nat → K) (gamma : K) (hs : sqrt (u 0) * sqrt (u 0) = u 0)
    (hrho : u 0 ≠ 0) (hgamma : gamma ≠ 0) (l : Nat) (hl : l < dim + 2) :
    compute_Roemean sqrt dim (dim + 2) u u gamma l = u l := by
  have hs0 : sqrt (u 0) ≠ 0 := by
    intro h
    rw [h, mul_zero] at hs
    exact hrho hs.symm
  have hss : sqrt (u 0) + sqrt (u 0) ≠ 0 := by
    rw [← two_mul]
    exact mul_ne_zero two_ne_zero hs0
  have hmom : ∀ k, k ≠ 0 → k < dim + 1 →
      (if k = 0 then sqrt (u 0) * sqrt (u 0)
        else if k < dim + 1 then
          sqrt (u 0) * sqrt (u 0) * (sqrt (u 0) * u k / u 0 + sqrt (u 0) * u k / u 0) /
            (sqrt (u 0) + sqrt (u 0))
        else 0) = u k := by
    intro k hk0 hk
    rw [if_neg hk0, if_pos hk, hs]
    field_simp
    ring
  have hfold : (List.range' 1 dim).foldl (fun acc k => acc +
      (if k = 0 then sqrt (u 0) * sqrt (u 0)
        else if k < dim + 1 then
          sqrt (u 0) * sqrt (u 0) * (sqrt (u 0) * u k / u 0 + sqrt (u 0) * u k / u 0) /
            (sqrt (u 0) + sqrt (u 0))
        else 0) *
      (if k = 0 then sqrt (u 0) * sqrt (u 0)
        else if k < dim + 1 then
          sqrt (u 0) * sqrt (u 0) * (sqrt (u 0) * u k / u 0 + sqrt (u 0) * u k / u 0) /
            (sqrt (u 0) + sqrt (u 0))
        else 0)) 0 =
      (List.range' 1 dim).foldl (fun acc k => acc + u k * u k) 0 := by
    apply foldl_add_congr
    intro k hk
    rw [List.mem_range'_1] at hk
    rw [hmom k (by omega) (by omega)]
  have hfs : dim + 2 - 1 = dim + 1 := rfl
  unfold compute_Roemean
  simp only [if_true]
  rw [hfold, hs, hfs]
  by_cases hlast : l = dim + 1
  · subst hlast
    rw [Function.update_same]
    unfold compute_Enthalpy rho_ec
    rw [hfs]
    generalize (List.range' 1 dim).foldl (fun acc k => acc + u k * u k) 0 = q
    field_simp
    ring
  · rw [Function.update_noteq hlast]
    by_cases h0 : l = 0
    · subst h0
      rfl
    · rw [if_neg h0, if_pos (by omega)]
      field_simp
      ring

/-- C29: over the real numbers, in any dimension `dim`, for a state `u` of `dim + 2`
entries with a positive density and every `gamma ≠ 0`, the Roe mean of `u` with itself is
`u` in every entry: the density, each momentum component and the total energy. -/
theorem compute_Roemean_self (dim : Nat) (u : Nat → ℝ) (gamma : ℝ) (hrho : 0 < u 0)
    (hgamma : gamma ≠ 0) :
    ∀ l, l < dim + 2 → compute_Roemean Real.sqrt dim (dim + 2) u u gamma l = u l :=
  fun l hl => compute_Roemean_self_of_sqrt Real.sqrt dim u gamma (Real.mul_self_sqrt hrho.le)
    hrho.ne' hgamma l hl

/-- C29 at the state `plane_state` in dimension `2` with `gamma = 7 / 5`; on the
rationals, where the density `4` has the square root `2`, the total energy of the Roe mean
evaluates to `10`. -/
theorem compute_Roemean_self_witness :
    (0 : ℝ) < plane_state 0 ∧ (7 / 5 : ℝ) ≠ 0 ∧
      compute_Roemean rational_sqrt 2 4 plane_state plane_state (7 / 5) 3 = 10 ∧
      ∀ l, l < 2 + 2 →
        compute_Roemean Real.sqrt 2 (2 + 2) plane_state plane_state (7 / 5) l = plane_state l :=
  ⟨by norm_num [plane_state], by norm_num,
    by norm_num [compute_Roemean, compute_Enthalpy, rho_ec, plane_state, rational_sqrt,
      List.range'],
    compute_Roemean_self 2 plane_state (7 / 5) (by norm_num [plane_state]) (by norm_num)⟩

/-! ## The indices of `compute_OS_flux_correction` -/

theorem weighted_jump_offset (offset : Int) (l : Nat) (r : IndexRead)
    (hr : r ∈ weighted_jump offset l) : r.offset = offset ∧ r.array.row = 0 ∧ r.component = l := by
  simp only [weighted_jump, List.mem_cons, List.mem_singleton, List.not_mem_nil, or_false] at hr
  rcases hr with rfl | rfl <;> exact ⟨rfl, rfl, rfl⟩

theorem order_term_offset (row : Nat) (offset : Int) (l : Nat) (r : IndexRead)
    (hr : r ∈ order_term row offset l) :
    r.offset = offset ∧ r.array.row ≤ row ∧ r.component = l := by
  rcases List.mem_cons.mp hr with rfl | hr
  · exact ⟨rfl, le_refl _, rfl⟩
  · obtain ⟨h1, h2, h3⟩ := weighted_jump_offset offset l r hr
    exact ⟨h1, by omega, h3⟩

/-- The offsets of the reads of one turn of the loop, with the orders at which they are
made: `0` and `-1` at every order, `-2` and `1` from the order `3`, `-3` and `2` from the
order `4`. -/
theorem compute_OS_flux_correction_offsets (order l : Nat) (r : IndexRead)
    (hr : r ∈ compute_OS_flux_correction_component order l) :
    (r.offset = 0 ∨ r.offset = -1 ∨ (3 ≤ order ∧ (r.offset = -2 ∨ r.offset = 1)) ∨
        (4 ≤ order ∧ (r.offset = -3 ∨ r.offset = 2))) ∧
      r.array.row < 5 ∧ r.component = l := by
  unfold compute_OS_flux_correction_component at hr
  simp only [List.mem_append, List.mem_cons, List.mem_singleton, List.not_mem_nil,
    or_false] at hr
  have hw : ∀ offset, r ∈ weighted_jump offset l →
      r.offset = offset ∧ r.array.row < 5 ∧ r.component = l := fun offset h => by
    obtain ⟨h1, h2, h3⟩ := weighted_jump_offset offset l r h
    exact ⟨h1, by omega, h3⟩
  have ht : ∀ row offset, row < 5 → r ∈ order_term row offset l →
      r.offset = offset ∧ r.array.row < 5 ∧ r.component = l := fun row offset hrow h => by
    obtain ⟨h1, h2, h3⟩ := order_term_offset row offset l r h
    exact ⟨h1, by omega, h3⟩
  rcases hr with ((((((((h | h) | h) | h) | h) | h) | h) | h) | h)
  · obtain ⟨h1, h2, h3⟩ := hw _ h
    exact ⟨Or.inl h1, h2, h3⟩
  · split at h
    · rcases List.mem_append.mp h with h | h
      · obtain ⟨h1, h2, h3⟩ := ht _ _ (by decide) h
        exact ⟨Or.inl h1, h2, h3⟩
      · obtain ⟨h1, h2, h3⟩ := ht _ _ (by decide) h
        exact ⟨Or.inr (Or.inl h1), h2, h3⟩
    · cases h
  · split at h
    · rename_i h3
      simp only [List.mem_append] at h
      rcases h with (((((h | h) | h) | h) | h) | h) | h <;>
        obtain ⟨h1, h2, h4⟩ := ht _ _ (by decide) h <;>
        exact ⟨by omega, h2, h4⟩
    · cases h
  · split at h
    · rename_i h3
      simp only [List.mem_append] at h
      rcases h with (((((((((h | h) | h) | h) | h) | h) | h) | h) | h) | h) | h <;>
        obtain ⟨h1, h2, h4⟩ := ht _ _ (by decide) h <;>
        exact ⟨by omega, h2, h4⟩
    · cases h
  · obtain ⟨h1, h2, h3⟩ := hw _ h
    exact ⟨Or.inl h1, h2, h3⟩
  · obtain ⟨h1, h2, h3⟩ := hw _ h
    exact ⟨Or.inr (Or.inl h1), h2, h3⟩
  · obtain ⟨h1, h2, h3⟩ := hw _ h
    exact ⟨Or.inl h1, h2, h3⟩
  · rcases h with rfl | rfl
    · exact ⟨Or.inl rfl, (by decide : (0 : Nat) < 5), rfl⟩
    · exact ⟨Or.inr (Or.inl rfl), (by decide : (0 : Nat) < 5), rfl⟩
  · obtain ⟨h1, h2, h3⟩ := hw _ h
    exact ⟨Or.inl h1, h2, h3⟩

/-- The statement of C30 checked order by order. For every order from `2` (below `2^63`,
so that `2*order` is the value of `stencil_size`), with `j = order-1` and arrays of length
`stencil_size-1 = 2*order-1`, every read of `compute_OS_flux_correction` is made at an
index of `[0, 2*order-2]` whose expression does not wrap, in a row of `c_order` below `5`
and at a component below `field_size`; so it is at the order `4` of the demo. At the order
`1`, where `j = 0` and the arrays have the length `1`, the TVD constraint reads
`nu[j-1]` and `d_alpha[j-1]`: the index wraps around to `2^64 - 1`, outside the arrays. -/
theorem compute_OS_flux_correction_indices :
    (∀ order field_size, 2 ≤ order → order < 2 ^ 63 →
      stencil_centre order = order - 1 ∧ flux_array_length order = 2 * order - 1 ∧
        ∀ r ∈ compute_OS_flux_correction_reads order field_size,
          r.in_range order (stencil_centre order) ∧
            (size_t_index (stencil_centre order) r.offset : Int) =
              (stencil_centre order : Int) + r.offset ∧
            size_t_index (stencil_centre order) r.offset ≤ 2 * order - 2 ∧
            r.component < field_size) ∧
      (∀ r ∈ compute_OS_flux_correction_reads 4 4, r.in_range 4 (stencil_centre 4)) ∧
      (∀ field_size, 0 < field_size →
        stencil_centre 1 = 0 ∧ flux_array_length 1 = 1 ∧
          (⟨.nu, -1, 0⟩ : IndexRead) ∈ compute_OS_flux_correction_reads 1 field_size ∧
          (⟨.d_alpha, -1, 0⟩ : IndexRead) ∈ compute_OS_flux_correction_reads 1 field_size ∧
          size_t_index (stencil_centre 1) (-1) = 2 ^ 64 - 1 ∧
          ¬ (⟨.nu, -1, 0⟩ : IndexRead).in_range 1 (stencil_centre 1) ∧
          ¬ (⟨.d_alpha, -1, 0⟩ : IndexRead).in_range 1 (stencil_centre 1)) := by
  have hgen : ∀ order field_size, 2 ≤ order → order < 2 ^ 63 →
      stencil_centre order = order - 1 ∧ flux_array_length order = 2 * order - 1 ∧
        ∀ r ∈ compute_OS_flux_correction_reads order field_size,
          r.in_range order (stencil_centre order) ∧
            (size_t_index (stencil_centre order) r.offset : Int) =
              (stencil_centre order : Int) + r.offset ∧
            size_t_index (stencil_centre order) r.offset ≤ 2 * order - 2 ∧
            r.component < field_size := by
    intro order field_size h2 hlt
    have hj : stencil_centre order = order - 1 := by
      unfold stencil_centre size_t_pred
      omega
    have hlen : flux_array_length order = 2 * order - 1 := by
      unfold flux_array_length size_t_pred stencil_size
      omega
    refine ⟨hj, hlen, ?_⟩
    intro r hr
    obtain ⟨l, hl, hr⟩ := List.mem_flatMap.mp hr
    rw [List.mem_range] at hl
    obtain ⟨hoff, hrow, hcomp⟩ := compute_OS_flux_correction_offsets order l r hr
    unfold IndexRead.in_range c_order_rows size_t_index
    rw [hj, hlen]
    refine ⟨⟨by omega, by omega, hrow⟩, by omega, by omega, by omega⟩
  refine ⟨hgen, fun r hr => ((hgen 4 4 (by decide) (by decide)).2.2 r hr).1, ?_⟩
  intro field_size hfs
  have hmem : ∀ r ∈ compute_OS_flux_correction_component 1 0,
      r ∈ compute_OS_flux_correction_reads 1 field_size := fun r hr =>
    List.mem_flatMap.mpr ⟨0, List.mem_range.mpr hfs, hr⟩
  refine ⟨by decide, by decide, hmem _ (by decide), hmem _ (by decide), by decide, ?_, ?_⟩
  · unfold IndexRead.in_range
    decide
  · unfold IndexRead.in_range
    decide

end samurai
